import Mathlib

/-!
# ItsyForth `Compiler.cpp`: a shallow embedding

The compiler writes threaded code and dictionary headers into one flat image
owned by the `Runtime`.  Addresses are C++ `int`s (here `Int`), and they count
the units of `sizeof`: `allocate(sizeof(Cell))` advances the frontier by
`sizeof(Cell)`.

`Compiler.hpp`, `Runtime`, `DictionaryWord.hpp` and `CountedString.hpp` are not
part of the sources at hand.  What `Compiler.cpp` needs from them is kept as
small as possible and is marked as modelled:

* the image is a map from addresses to integers; in the first embedding a
  scalar (`int`, `OpCode`, one character) lives at the address of its first
  unit and addresses are added as integers; the second embedding (`Machine`)
  resolves an `int` into its four units and reduces sums into the range of
  `int`, for the statements that depend on either;
* the sizes and field offsets of `Cell`, `Instruction` and `DictionaryWord`
  are the fields of a `Layout`, constrained only by `Layout.WF`;
* the mark stack (`pushMark`, `popMark`) is a list.
-/

namespace ItsyForth

/-! ## Data model -/

/-- Operation codes used by `Compiler.cpp`. -/
inductive OpCode where
  | INVALID
  | DoLit
  | DoVariable
  | DoConstant
  | DoColon
  | DoSemicolon
  | ZeroBranch
  | Branch
  deriving DecidableEq, Repr

/-- Modelled from the spec: the stored form of an `OpCode` (the enumeration of
`OpCode` is declared in a header that is missing); the numbering follows the
order in which the spec lists the tags, and only its injectivity is used. -/
def OpCode.toInt : OpCode → Int
  | .INVALID => 0
  | .DoLit => 1
  | .DoVariable => 2
  | .DoConstant => 3
  | .DoColon => 4
  | .DoSemicolon => 5
  | .ZeroBranch => 6
  | .Branch => 7

/-- Inverse of `OpCode.toInt`, undefined on integers that encode no tag. -/
def OpCode.ofInt (v : Int) : Option OpCode :=
  if v = 0 then some .INVALID
  else if v = 1 then some .DoLit
  else if v = 2 then some .DoVariable
  else if v = 3 then some .DoConstant
  else if v = 4 then some .DoColon
  else if v = 5 then some .DoSemicolon
  else if v = 6 then some .ZeroBranch
  else if v = 7 then some .Branch
  else none

/-- An `Instruction(opcode, data)`. -/
structure Instruction where
  opcode : OpCode
  data : Int
  deriving DecidableEq, Repr

/-- Modelled from the spec: the conversion `Instruction(opcode)` used by
`compileInstruction(OpCode::DoSemicolon)` and friends (the constructor is
declared in a missing header); the spec writes the result `{DoSemicolon, 0}`. -/
def Instruction.ofOpCode (o : OpCode) : Instruction := ⟨o, 0⟩

/-- A `std::string`, as the list of its characters. -/
abbrev Name := List Char

/-- Sizes and field offsets that the missing headers fix:
`cellSize = sizeof(Cell)`, `dataOff = offsetof(Instruction, data)` (the opcode
is at offset 0, where `Cell::asData` lives too), `wordSize =
sizeof(DictionaryWord)`, `prevOff`, `nameOff`, `refOff` the offsets of
`previous`, `name`, `referenceInstruction`, and `nameCap = sizeof(word->name)`. -/
structure Layout where
  cellSize : Int
  dataOff : Int
  wordSize : Int
  prevOff : Int
  nameOff : Int
  refOff : Int
  nameCap : Int

/-- What every C++ layout of these types satisfies: a cell holds an opcode and
an operand; a dictionary word holds, without overlap, a link, `nameCap` name
units and a reference instruction. -/
def Layout.WF (L : Layout) : Prop :=
  0 < L.dataOff ∧ L.dataOff < L.cellSize ∧
  0 ≤ L.prevOff ∧ L.prevOff < L.wordSize ∧
  0 ≤ L.nameOff ∧ L.nameOff + L.nameCap ≤ L.wordSize ∧ 0 < L.nameCap ∧
  0 ≤ L.refOff ∧ L.refOff + L.dataOff < L.wordSize ∧
  (L.prevOff < L.nameOff ∨ L.nameOff + L.nameCap ≤ L.prevOff) ∧
  (L.refOff + L.dataOff < L.nameOff ∨ L.nameOff + L.nameCap ≤ L.refOff) ∧
  L.prevOff ≠ L.refOff ∧ L.prevOff ≠ L.refOff + L.dataOff

instance (L : Layout) : Decidable L.WF := by
  unfold Layout.WF; infer_instance

/-- A name fits the name field: one unit for the count, one per character. -/
def fits (L : Layout) (name : Name) : Prop := (name.length : Int) < L.nameCap

instance (L : Layout) (name : Name) : Decidable (fits L name) := by
  unfold fits; infer_instance

/-! ## The runtime image -/

/-- The image owned by the `Runtime`: one integer per address. -/
abbrev Memory := Int → Int

/-- Modelled from the spec: `Runtime::getCell(addr)` read as an integer
(`getCell(address) -> integer`). -/
def getCell (m : Memory) (addr : Int) : Int := m addr

/-- Modelled from the spec: `Runtime::setCell(addr, value)`, also the store
`(*runtime)[addr].asData = value`. -/
def setCell (m : Memory) (addr value : Int) : Memory :=
  fun a => if a = addr then value else m a

/-- Store of a whole instruction, `(*runtime)[addr].asInstruction = ins` or
`word->referenceInstruction = ins`: opcode first, operand `dataOff` later,
each at the address of its first unit.  `Machine.setInstruction` below fills
every unit of the two scalars. -/
def setInstruction (L : Layout) (m : Memory) (addr : Int) (ins : Instruction) : Memory :=
  setCell (setCell m addr ins.opcode.toInt) (addr + L.dataOff) ins.data

/-- The store `(*runtime)[addr].asInstruction.data = value`, at the address
of the operand's first unit.  `Machine.setInstructionData` below fills the
four units of the operand. -/
def setInstructionData (L : Layout) (m : Memory) (addr value : Int) : Memory :=
  setCell m (addr + L.dataOff) value

/-- The instruction read back from the cell at `addr`, if its first unit
encodes an opcode. -/
def getInstruction (L : Layout) (m : Memory) (addr : Int) : Option Instruction :=
  (OpCode.ofInt (m addr)).map fun o => ⟨o, m (addr + L.dataOff)⟩

/-- Stores the characters of `cs` at consecutive addresses from `addr`. -/
def writeChars (m : Memory) (addr : Int) : List Char → Memory
  | [] => m
  | c :: cs => writeChars (setCell m addr (c.toNat : Int)) (addr + 1) cs

/-- Modelled from the spec: `CountedString::fromCString(name, field, cap)`
(declared in the missing `CountedString.hpp`): the count, then the characters;
a name that does not fit is cut to the `cap - 1` characters that do (the spec:
"the reference behavior truncates"). -/
def fromCString (name : Name) (m : Memory) (field cap : Int) : Memory :=
  let kept := name.take (cap - 1).toNat
  writeChars (setCell m field (kept.length : Int)) (field + 1) kept

/-- Modelled from the spec: `CountedString::toCString(field)`, the decoder of
`fromCString`: reads the count, then that many characters. -/
def toCString (m : Memory) (field : Int) : Name :=
  (List.range (m field).toNat).map fun (i : Nat) => Char.ofNat (m (field + 1 + (i : Int))).toNat

/-! ## The compiler state -/

/-- Errors of the mark stack. -/
inductive CompileError where
  | UnbalancedControlFlow
  deriving DecidableEq, Repr

instance : DecidableEq (Except CompileError Int)
  | .ok a, .ok b => if h : a = b then isTrue (by rw [h]) else isFalse (by intro e; cases e; exact h rfl)
  | .error a, .error b =>
    if h : a = b then isTrue (by rw [h]) else isFalse (by intro e; cases e; exact h rfl)
  | .ok _, .error _ => isFalse (by intro e; cases e)
  | .error _, .ok _ => isFalse (by intro e; cases e)

/-- The members of `Compiler` that `Compiler.cpp` touches, with the image of
its `runtime` and the mark stack (top first). -/
structure Compiler where
  runtime : Memory
  dictionaryPtrAddr : Int
  lastWordPtrAddr : Int
  marks : List Int

/-- Modelled from the spec: `getDictionaryPtr()` (declared in the missing
`Compiler.hpp`), the current frontier, as `allocate` reads it. -/
def getDictionaryPtr (c : Compiler) : Int := getCell c.runtime c.dictionaryPtrAddr

/-- Modelled from the spec: `pushMark(addr)` (declared in the missing
`Compiler.hpp`) pushes on the last-in-first-out PatchMark stack. -/
def pushMark (c : Compiler) (addr : Int) : Compiler := { c with marks := addr :: c.marks }

/-- Modelled from the spec: `popMark()` (declared in the missing
`Compiler.hpp`) pops the top mark; "popping an empty stack is a compile-time
structural error, `UnbalancedControlFlow`". -/
def popMark (c : Compiler) : Except CompileError Int × Compiler :=
  match c.marks with
  | [] => (.error .UnbalancedControlFlow, c)
  | m :: ms => (.ok m, { c with marks := ms })

/-! ## `Compiler.cpp` -/

/-- Source function `Compiler::allocate`, with the sum `dp + size` taken in the integers: that
is the sum of the program as long as it does not exceed `INT_MAX`.
`Machine.allocate` below reduces the sum into the range of `int`. -/
def allocate (c : Compiler) (size : Int) : Int × Compiler :=
  let dp := getCell c.runtime c.dictionaryPtrAddr
  (dp, { c with runtime := setCell c.runtime c.dictionaryPtrAddr (dp + size) })

/-- Source function `Compiler::reset`. -/
def reset (L : Layout) (c : Compiler) : Compiler :=
  let c := { c with dictionaryPtrAddr := 0 }
  let c := { c with runtime := setCell c.runtime c.dictionaryPtrAddr 0 }
  let r := allocate c L.cellSize
  let c := { r.2 with dictionaryPtrAddr := r.1 }
  let r := allocate c L.cellSize
  let c := { r.2 with lastWordPtrAddr := r.1 }
  { c with runtime := setCell c.runtime c.lastWordPtrAddr 0 }

/-- Source function `Compiler::createWord(name, refInstruction)`. -/
def createWord (L : Layout) (c : Compiler) (name : Name) (refInstruction : Instruction) :
    Int × Compiler :=
  let r := allocate c L.wordSize
  let result := r.1
  let c := r.2
  let m := setCell c.runtime (result + L.prevOff) (getCell c.runtime c.lastWordPtrAddr)
  let m := fromCString name m (result + L.nameOff) L.nameCap
  let m := setInstruction L m (result + L.refOff) refInstruction
  let m := setCell m c.lastWordPtrAddr result
  (result, { c with runtime := m })

/-- Source function `Compiler::createWord(name)`. -/
def createWord1 (L : Layout) (c : Compiler) (name : Name) : Int × Compiler :=
  createWord L c name ⟨.INVALID, 0⟩

/-- Source function `Compiler::createWord(name, opcode, value)`. -/
def createWord3 (L : Layout) (c : Compiler) (name : Name) (opcode : OpCode) (value : Int) :
    Int × Compiler :=
  createWord L c name ⟨opcode, value⟩

/-- Source function `Compiler::compileWord(name)`. -/
def compileWord1 (L : Layout) (c : Compiler) (name : Name) : Int × Compiler :=
  createWord1 L c name

/-- Source function `Compiler::compileWord(name, opcode, value)`. -/
def compileWord3 (L : Layout) (c : Compiler) (name : Name) (opcode : OpCode) (value : Int) :
    Int × Compiler :=
  createWord3 L c name opcode value

/-- Source function `Compiler::compileWord(name, refInstruction)`. -/
def compileWord (L : Layout) (c : Compiler) (name : Name) (refInstruction : Instruction) :
    Int × Compiler :=
  createWord L c name refInstruction

/-- Source function `Compiler::compileInstruction`. -/
def compileInstruction (L : Layout) (c : Compiler) (ins : Instruction) : Int × Compiler :=
  let r := allocate c L.cellSize
  (r.1, { r.2 with runtime := setInstruction L r.2.runtime r.1 ins })

/-- Source function `Compiler::compileLiteral`. -/
def compileLiteral (L : Layout) (c : Compiler) (value : Int) : Int × Compiler :=
  compileInstruction L c ⟨.DoLit, value⟩

/-- Source function `Compiler::compileData`. -/
def compileData (L : Layout) (c : Compiler) (addr : Int) : Int × Compiler :=
  let r := allocate c L.cellSize
  (r.1, { r.2 with runtime := setCell r.2.runtime r.1 addr })

/-- Source function `Compiler::compileVariable`. -/
def compileVariable (L : Layout) (c : Compiler) (name : Name) (initialValue : Int) :
    Int × Compiler :=
  let r := createWord1 L c name
  let addr := r.1
  let d := compileData L r.2 initialValue
  (addr, { d.2 with runtime := setInstruction L d.2.runtime (addr + L.refOff) ⟨.DoVariable, d.1⟩ })

/-- Source function `Compiler::compileConstant`: the body ends without a `return`, so the call
yields no defined value (`none`). -/
def compileConstant (L : Layout) (c : Compiler) (name : Name) (value : Int) :
    Option Int × Compiler :=
  let r := createWord3 L c name .DoConstant value
  (none, r.2)

/-- Source function `Compiler::compileStartColonWord`. -/
def compileStartColonWord (L : Layout) (c : Compiler) (name : Name) : Int × Compiler :=
  let r := createWord1 L c name
  let addr := r.1
  (addr, { r.2 with
    runtime := setInstruction L r.2.runtime (addr + L.refOff) ⟨.DoColon, addr + L.wordSize⟩ })

/-- The loop of `Compiler::findWord`, started at `wordAddr`; `none` when the
walk is still running after `fuel` iterations. -/
def findWordLoop (L : Layout) (m : Memory) (name : Name) : Nat → Int → Option Int
  | 0, _ => none
  | fuel + 1, wordAddr =>
    if wordAddr = 0 then some (-1)
    else if name = toCString m (wordAddr + L.nameOff) then some wordAddr
    else findWordLoop L m name fuel (m (wordAddr + L.prevOff))

/-- Source function `Compiler::findWord`. -/
def findWord (L : Layout) (fuel : Nat) (c : Compiler) (name : Name) : Option Int :=
  findWordLoop L c.runtime name fuel (getCell c.runtime c.lastWordPtrAddr)

/-- The call `findWord(name)` as a step of a session: the value it returns
and the state after it.  The body of `Compiler::findWord` reads (`getCell`,
`asPtr`, `toCString`, `lastWord->previous`); it has no store, no `pushMark` and
no `popMark`, so the state after the call is the state before it. -/
def findWordCall (L : Layout) (fuel : Nat) (c : Compiler) (name : Name) :
    Option (Int × Compiler) :=
  (findWord L fuel c name).map fun w => (w, c)

/-- Source function `Compiler::compileReference`; `none` when `findWord` does not return
within `fuel` iterations. -/
def compileReference (L : Layout) (fuel : Nat) (c : Compiler) (name : Name) :
    Option (Int × Compiler) :=
  (findWord L fuel c name).map fun w => compileInstruction L c ⟨.DoColon, w⟩

/-- Source function `Compiler::compileEndWord`. -/
def compileEndWord (L : Layout) (c : Compiler) : Int × Compiler :=
  compileInstruction L c (Instruction.ofOpCode .DoSemicolon)

/-- Source function `Compiler::compileBegin`. -/
def compileBegin (c : Compiler) : Int × Compiler :=
  let c := pushMark c (getDictionaryPtr c)
  (getDictionaryPtr c, c)

/-- Source function `Compiler::compileIf`. -/
def compileIf (L : Layout) (c : Compiler) : Int × Compiler :=
  let c := pushMark c (getDictionaryPtr c)
  compileInstruction L c (Instruction.ofOpCode .ZeroBranch)

/-- Source function `Compiler::compileElse`.  The statement after `compileInstruction` is the
comma expression `(*runtime)[ifMark].asInstruction.data, getDictionaryPtr();`:
it reads two values and stores nothing. -/
def compileElse (L : Layout) (c : Compiler) : Except CompileError Int × Compiler :=
  match popMark c with
  | (.error e, c) => (.error e, c)
  | (.ok _ifMark, c) =>
    let c := pushMark c (getDictionaryPtr c)
    let r := compileInstruction L c (Instruction.ofOpCode .Branch)
    (.ok r.1, r.2)

/-- Source function `Compiler::compileEndif`. -/
def compileEndif (L : Layout) (c : Compiler) : Except CompileError Int × Compiler :=
  match popMark c with
  | (.error e, c) => (.error e, c)
  | (.ok result, c) =>
    (.ok result, { c with runtime := setInstructionData L c.runtime result (getDictionaryPtr c) })

/-- Source function `Compiler::compileAgain`; the argument `popMark()` is evaluated before
`compileInstruction` is entered. -/
def compileAgain (L : Layout) (c : Compiler) : Except CompileError Int × Compiler :=
  match popMark c with
  | (.error e, c) => (.error e, c)
  | (.ok mark, c) =>
    let r := compileInstruction L c ⟨.Branch, mark⟩
    (.ok r.1, r.2)

/-! ## Sequences of compiler calls -/

/-- The word-defining and appending calls (everything but the control-flow
words and `reset`). -/
inductive Op where
  | createWord (name : Name) (refInstruction : Instruction)
  | compileWord1 (name : Name)
  | compileWord3 (name : Name) (opcode : OpCode) (value : Int)
  | compileWord (name : Name) (refInstruction : Instruction)
  | compileInstruction (ins : Instruction)
  | compileLiteral (value : Int)
  | compileData (value : Int)
  | compileVariable (name : Name) (initialValue : Int)
  | compileConstant (name : Name) (value : Int)
  | compileStartColonWord (name : Name)
  | compileReference (name : Name)
  | compileEndWord
  deriving DecidableEq

/-- One call: the value it returns (if it returns one) and the state after
it; `none` when the call is still running after `fuel` loop iterations. -/
def Op.run (L : Layout) (fuel : Nat) : Op → Compiler → Option (Option Int × Compiler)
  | .createWord n i, c => let r := ItsyForth.createWord L c n i; some (some r.1, r.2)
  | .compileWord1 n, c => let r := ItsyForth.compileWord1 L c n; some (some r.1, r.2)
  | .compileWord3 n o v, c => let r := ItsyForth.compileWord3 L c n o v; some (some r.1, r.2)
  | .compileWord n i, c => let r := ItsyForth.compileWord L c n i; some (some r.1, r.2)
  | .compileInstruction i, c => let r := ItsyForth.compileInstruction L c i; some (some r.1, r.2)
  | .compileLiteral v, c => let r := ItsyForth.compileLiteral L c v; some (some r.1, r.2)
  | .compileData v, c => let r := ItsyForth.compileData L c v; some (some r.1, r.2)
  | .compileVariable n v, c => let r := ItsyForth.compileVariable L c n v; some (some r.1, r.2)
  | .compileConstant n v, c => some (ItsyForth.compileConstant L c n v)
  | .compileStartColonWord n, c => let r := ItsyForth.compileStartColonWord L c n; some (some r.1, r.2)
  | .compileReference n, c => (ItsyForth.compileReference L fuel c n).map fun r => (some r.1, r.2)
  | .compileEndWord, c => let r := ItsyForth.compileEndWord L c; some (some r.1, r.2)

/-- The name a call defines, if it defines one. -/
def Op.defines : Op → Option Name
  | .createWord n _ => some n
  | .compileWord1 n => some n
  | .compileWord3 n _ _ => some n
  | .compileWord n _ => some n
  | .compileVariable n _ => some n
  | .compileConstant n _ => some n
  | .compileStartColonWord n => some n
  | _ => none

/-- A run of calls, with the record of each call: the call, the frontier it
started from, and the value it returned. -/
def runOps (L : Layout) (fuel : Nat) :
    List Op → Compiler → Option (List (Op × Int × Option Int) × Compiler)
  | [], c => some ([], c)
  | o :: os, c =>
    match o.run L fuel c with
    | none => none
    | some (r, c1) =>
      match runOps L fuel os c1 with
      | none => none
      | some (tr, c2) => some ((o, getDictionaryPtr c, r) :: tr, c2)

/-- The most recent call of a record that defined `name`. -/
def lastDefinition (name : Name) (tr : List (Op × Int × Option Int)) :
    Option (Op × Int × Option Int) :=
  tr.reverse.find? fun e => decide (e.1.defines = some name)

/-- The units of a source program: a plain call or a control-flow word. -/
inductive Tok where
  | op (o : Op)
  | BEGIN
  | IF
  | ELSE
  | ENDIF
  | AGAIN
  deriving DecidableEq

/-- One unit of a program: the result of the call and the state after it. -/
def Tok.run (L : Layout) (fuel : Nat) :
    Tok → Compiler → Option (Except CompileError (Option Int) × Compiler)
  | .op o, c => (o.run L fuel c).map fun r => (.ok r.1, r.2)
  | .BEGIN, c => let r := compileBegin c; some (.ok (some r.1), r.2)
  | .IF, c => let r := compileIf L c; some (.ok (some r.1), r.2)
  | .ELSE, c => let r := compileElse L c; some (r.1.map some, r.2)
  | .ENDIF, c => let r := compileEndif L c; some (r.1.map some, r.2)
  | .AGAIN, c => let r := compileAgain L c; some (r.1.map some, r.2)

/-- A program, call after call, until it ends or a call fails. -/
def runToks (L : Layout) (fuel : Nat) :
    List Tok → Compiler → Option (Except CompileError Unit × Compiler)
  | [], c => some (.ok (), c)
  | t :: ts, c =>
    match t.run L fuel c with
    | none => none
    | some (.error e, c1) => some (.error e, c1)
    | some (.ok _, c1) => runToks L fuel ts c1

/-- Well-formed programs:
`S ::= empty | op S | BEGIN S AGAIN S | IF S ENDIF S | IF S ELSE S ENDIF S`. -/
inductive WellFormed : List Tok → Prop where
  | empty : WellFormed []
  | op (o : Op) (S : List Tok) : WellFormed S → WellFormed (Tok.op o :: S)
  | loop (A S : List Tok) : WellFormed A → WellFormed S →
      WellFormed (Tok.BEGIN :: (A ++ Tok.AGAIN :: S))
  | ifEndif (A S : List Tok) : WellFormed A → WellFormed S →
      WellFormed (Tok.IF :: (A ++ Tok.ENDIF :: S))
  | ifElse (A B S : List Tok) : WellFormed A → WellFormed B → WellFormed S →
      WellFormed (Tok.IF :: (A ++ Tok.ELSE :: (B ++ Tok.ENDIF :: S)))

/-! ## Invariants -/

/-- The dictionary list seen from the link value `w`: the entries (address,
stored name) met by following `previous` down to zero.  Every entry lies
between the bootstrap cells and `hi`, and below the entry that links to it. -/
def Chain (L : Layout) (m : Memory) : Int → Int → List (Int × Name) → Prop
  | _, w, [] => w = 0
  | hi, w, e :: es =>
    w = e.1 ∧ 2 * L.cellSize ≤ e.1 ∧ e.1 + L.wordSize ≤ hi ∧
    toCString m (e.1 + L.nameOff) = e.2 ∧ (e.2.length : Int) < L.nameCap ∧
    Chain L m e.1 (m (e.1 + L.prevOff)) es

/-- The state of a session: the bootstrap cells are where `reset` put them,
the frontier lies behind them, and the dictionary list is `es`. -/
def Good (L : Layout) (c : Compiler) (es : List (Int × Name)) : Prop :=
  c.dictionaryPtrAddr = 0 ∧ c.lastWordPtrAddr = L.cellSize ∧
  2 * L.cellSize ≤ c.runtime 0 ∧
  Chain L c.runtime (c.runtime 0) (c.runtime L.cellSize) es

/-- The address found for `name` in a dictionary list, most recent first. -/
def lookup (name : Name) : List (Int × Name) → Int
  | [] => -1
  | e :: es => if name = e.2 then e.1 else lookup name es

/-- The name found in the name field of a new entry. -/
def stored (L : Layout) (name : Name) : Name := name.take (L.nameCap - 1).toNat

/-- The entries a call adds to the dictionary list, given the frontier it
starts from. -/
def Op.entries (L : Layout) (f : Int) (o : Op) : List (Int × Name) :=
  match o.defines with
  | some n => [(f, stored L n)]
  | none => []

/-- What a run of calls does to a session with dictionary list `es`: the
session stays good and gains the entries `new`, all of them at or behind the
old frontier; the frontier does not move back; and below the old frontier
only the two bootstrap cells change. -/
def Step (L : Layout) (c c2 : Compiler) (es new : List (Int × Name)) : Prop :=
  Good L c2 (new ++ es) ∧ (∀ e ∈ new, c.runtime 0 ≤ e.1) ∧ c.runtime 0 ≤ c2.runtime 0 ∧
  ∀ k, k < c.runtime 0 → k ≠ 0 → k ≠ L.cellSize → c2.runtime k = c.runtime k

/-- The dictionary entries that a record of calls created, most recent
first. -/
def recorded (L : Layout) : List (Op × Int × Option Int) → List (Int × Name)
  | [] => []
  | e :: tr => recorded L tr ++ e.1.entries L e.2.1

/-- The bootstrap cells are where `reset` put them and the frontier lies
behind them. -/
def Booted (L : Layout) (c : Compiler) : Prop :=
  c.dictionaryPtrAddr = 0 ∧ c.lastWordPtrAddr = L.cellSize ∧ 2 * L.cellSize ≤ c.runtime 0

/-- Any sequence of calls, one after the other; a call that fails leaves the
state it failed in and the sequence goes on.  The result is `none` when a call
is still running after `fuel` loop iterations. -/
def runAny (L : Layout) (fuel : Nat) : List Tok → Compiler → Option Compiler
  | [], c => some c
  | t :: ts, c =>
    match t.run L fuel c with
    | none => none
    | some r => runAny L fuel ts r.2

/-! ## The image unit by unit

The definitions above keep every scalar at the address of its first unit and
add addresses as unbounded integers.  That is exact for what a call stores
where and for the values read back, as long as no sum leaves the range of
`int` and no store lands on units that belong to another object.  Statements
about the order of the frontier's values and about which units a call leaves
untouched depend on exactly those two points, so the functions of
`Compiler.cpp` are given a second time, over the storage units of the image:
an `int` is 32 bits wide, it occupies four units, least significant first, and
a sum of `int`s is reduced into the range of `int`.  The mark stack, the calls
and the errors are those of the first embedding. -/

namespace Machine

/-- The largest value of an `int`, taken to be 32 bits wide. -/
def intMax : Int := 2147483647

/-- The conversion of a value to `int`: the value modulo 2^32, taken in
`[-2^31, 2^31)`. -/
def toInt32 (x : Int) : Int := (x + 2147483648) % 4294967296 - 2147483648

/-- Store of one unit. -/
def setUnit (m : Memory) (addr value : Int) : Memory :=
  fun a => if a = addr then value else m a

/-- Modelled from the spec: `Runtime::getCell(addr)` read as an `int`
(`getCell(address) -> integer`): the four units from `addr`, least significant
first. -/
def getCell (m : Memory) (addr : Int) : Int :=
  toInt32 (m addr % 256 + 256 * (m (addr + 1) % 256) + 65536 * (m (addr + 2) % 256) +
    16777216 * (m (addr + 3) % 256))

/-- Modelled from the spec: `Runtime::setCell(addr, value)`, also the store
`(*runtime)[addr].asData = value` and the store of any other `int`: it fills
the four units from `addr`. -/
def setCell (m : Memory) (addr value : Int) : Memory :=
  setUnit (setUnit (setUnit (setUnit m addr (value % 256)) (addr + 1) (value / 256 % 256))
    (addr + 2) (value / 65536 % 256)) (addr + 3) (value / 16777216 % 256)

/-- Store of a whole instruction, `(*runtime)[addr].asInstruction = ins` or
`word->referenceInstruction = ins`: the opcode (stored as an `int`) first, the
operand `dataOff` later. -/
def setInstruction (L : Layout) (m : Memory) (addr : Int) (ins : Instruction) : Memory :=
  setCell (setCell m addr ins.opcode.toInt) (addr + L.dataOff) ins.data

/-- The store `(*runtime)[addr].asInstruction.data = value`: the four units of
the operand. -/
def setInstructionData (L : Layout) (m : Memory) (addr value : Int) : Memory :=
  setCell m (addr + L.dataOff) value

/-- The instruction read back from the cell at `addr`, if its first `int`
encodes an opcode. -/
def getInstruction (L : Layout) (m : Memory) (addr : Int) : Option Instruction :=
  (OpCode.ofInt (getCell m addr)).map fun o => ⟨o, getCell m (addr + L.dataOff)⟩

/-- Stores the characters of `cs`, one unit each, from `addr`. -/
def writeChars (m : Memory) (addr : Int) : List Char → Memory
  | [] => m
  | c :: cs => writeChars (setUnit m addr ((c.toNat : Int) % 256)) (addr + 1) cs

/-- Modelled from the spec: `CountedString::fromCString(name, field, cap)`
(declared in the missing `CountedString.hpp`): the count in the first unit,
then the characters; a name that does not fit is cut to the `cap - 1`
characters that do (the spec: "the reference behavior truncates"). -/
def fromCString (name : Name) (m : Memory) (field cap : Int) : Memory :=
  let kept := name.take (cap - 1).toNat
  writeChars (setUnit m field ((kept.length : Int) % 256)) (field + 1) kept

/-- Modelled from the spec: `CountedString::toCString(field)`, the decoder of
`fromCString`: reads the count, then that many characters. -/
def toCString (m : Memory) (field : Int) : Name :=
  (List.range (m field % 256).toNat).map fun (i : Nat) =>
    Char.ofNat (m (field + 1 + (i : Int)) % 256).toNat

/-- Modelled from the spec: `getDictionaryPtr()` (declared in the missing
`Compiler.hpp`), the current frontier, as `allocate` reads it. -/
def getDictionaryPtr (c : Compiler) : Int := getCell c.runtime c.dictionaryPtrAddr

/-- Source function `Compiler::allocate`; the sum `dp + size` is an `int`. -/
def allocate (c : Compiler) (size : Int) : Int × Compiler :=
  let dp := getCell c.runtime c.dictionaryPtrAddr
  (dp, { c with runtime := setCell c.runtime c.dictionaryPtrAddr (toInt32 (dp + size)) })

/-- Source function `Compiler::reset`. -/
def reset (L : Layout) (c : Compiler) : Compiler :=
  let c := { c with dictionaryPtrAddr := 0 }
  let c := { c with runtime := setCell c.runtime c.dictionaryPtrAddr 0 }
  let r := allocate c L.cellSize
  let c := { r.2 with dictionaryPtrAddr := r.1 }
  let r := allocate c L.cellSize
  let c := { r.2 with lastWordPtrAddr := r.1 }
  { c with runtime := setCell c.runtime c.lastWordPtrAddr 0 }

/-- Source function `Compiler::createWord(name, refInstruction)`. -/
def createWord (L : Layout) (c : Compiler) (name : Name) (refInstruction : Instruction) :
    Int × Compiler :=
  let r := allocate c L.wordSize
  let result := r.1
  let c := r.2
  let m := setCell c.runtime (result + L.prevOff) (getCell c.runtime c.lastWordPtrAddr)
  let m := fromCString name m (result + L.nameOff) L.nameCap
  let m := setInstruction L m (result + L.refOff) refInstruction
  let m := setCell m c.lastWordPtrAddr result
  (result, { c with runtime := m })

/-- Source function `Compiler::createWord(name)`. -/
def createWord1 (L : Layout) (c : Compiler) (name : Name) : Int × Compiler :=
  createWord L c name ⟨.INVALID, 0⟩

/-- Source function `Compiler::createWord(name, opcode, value)`. -/
def createWord3 (L : Layout) (c : Compiler) (name : Name) (opcode : OpCode) (value : Int) :
    Int × Compiler :=
  createWord L c name ⟨opcode, value⟩

/-- Source function `Compiler::compileWord(name)`. -/
def compileWord1 (L : Layout) (c : Compiler) (name : Name) : Int × Compiler :=
  createWord1 L c name

/-- Source function `Compiler::compileWord(name, opcode, value)`. -/
def compileWord3 (L : Layout) (c : Compiler) (name : Name) (opcode : OpCode) (value : Int) :
    Int × Compiler :=
  createWord3 L c name opcode value

/-- Source function `Compiler::compileWord(name, refInstruction)`. -/
def compileWord (L : Layout) (c : Compiler) (name : Name) (refInstruction : Instruction) :
    Int × Compiler :=
  createWord L c name refInstruction

/-- Source function `Compiler::compileInstruction`. -/
def compileInstruction (L : Layout) (c : Compiler) (ins : Instruction) : Int × Compiler :=
  let r := allocate c L.cellSize
  (r.1, { r.2 with runtime := setInstruction L r.2.runtime r.1 ins })

/-- Source function `Compiler::compileLiteral`. -/
def compileLiteral (L : Layout) (c : Compiler) (value : Int) : Int × Compiler :=
  compileInstruction L c ⟨.DoLit, value⟩

/-- Source function `Compiler::compileData`. -/
def compileData (L : Layout) (c : Compiler) (addr : Int) : Int × Compiler :=
  let r := allocate c L.cellSize
  (r.1, { r.2 with runtime := setCell r.2.runtime r.1 addr })

/-- Source function `Compiler::compileVariable`. -/
def compileVariable (L : Layout) (c : Compiler) (name : Name) (initialValue : Int) :
    Int × Compiler :=
  let r := createWord1 L c name
  let addr := r.1
  let d := compileData L r.2 initialValue
  (addr, { d.2 with runtime := setInstruction L d.2.runtime (addr + L.refOff) ⟨.DoVariable, d.1⟩ })

/-- Source function `Compiler::compileConstant`: the body ends without a `return`, so the call
yields no defined value (`none`). -/
def compileConstant (L : Layout) (c : Compiler) (name : Name) (value : Int) :
    Option Int × Compiler :=
  let r := createWord3 L c name .DoConstant value
  (none, r.2)

/-- Source function `Compiler::compileStartColonWord`; the operand
`addr + sizeof(DictionaryWord)` is converted to `int`. -/
def compileStartColonWord (L : Layout) (c : Compiler) (name : Name) : Int × Compiler :=
  let r := createWord1 L c name
  let addr := r.1
  (addr, { r.2 with
    runtime := setInstruction L r.2.runtime (addr + L.refOff)
      ⟨.DoColon, toInt32 (addr + L.wordSize)⟩ })

/-- The loop of `Compiler::findWord`, started at `wordAddr`; `none` when the
walk is still running after `fuel` iterations. -/
def findWordLoop (L : Layout) (m : Memory) (name : Name) : Nat → Int → Option Int
  | 0, _ => none
  | fuel + 1, wordAddr =>
    if wordAddr = 0 then some (-1)
    else if name = toCString m (wordAddr + L.nameOff) then some wordAddr
    else findWordLoop L m name fuel (getCell m (wordAddr + L.prevOff))

/-- Source function `Compiler::findWord`. -/
def findWord (L : Layout) (fuel : Nat) (c : Compiler) (name : Name) : Option Int :=
  findWordLoop L c.runtime name fuel (getCell c.runtime c.lastWordPtrAddr)

/-- Source function `Compiler::compileReference`; `none` when `findWord` does not return
within `fuel` iterations. -/
def compileReference (L : Layout) (fuel : Nat) (c : Compiler) (name : Name) :
    Option (Int × Compiler) :=
  (findWord L fuel c name).map fun w => compileInstruction L c ⟨.DoColon, w⟩

/-- Source function `Compiler::compileEndWord`. -/
def compileEndWord (L : Layout) (c : Compiler) : Int × Compiler :=
  compileInstruction L c (Instruction.ofOpCode .DoSemicolon)

/-- Source function `Compiler::compileBegin`. -/
def compileBegin (c : Compiler) : Int × Compiler :=
  let c := pushMark c (getDictionaryPtr c)
  (getDictionaryPtr c, c)

/-- Source function `Compiler::compileIf`. -/
def compileIf (L : Layout) (c : Compiler) : Int × Compiler :=
  let c := pushMark c (getDictionaryPtr c)
  compileInstruction L c (Instruction.ofOpCode .ZeroBranch)

/-- Source function `Compiler::compileElse`.  The statement after `compileInstruction` is the
comma expression `(*runtime)[ifMark].asInstruction.data, getDictionaryPtr();`:
it reads two values and stores nothing. -/
def compileElse (L : Layout) (c : Compiler) : Except CompileError Int × Compiler :=
  match popMark c with
  | (.error e, c) => (.error e, c)
  | (.ok _ifMark, c) =>
    let c := pushMark c (getDictionaryPtr c)
    let r := compileInstruction L c (Instruction.ofOpCode .Branch)
    (.ok r.1, r.2)

/-- Source function `Compiler::compileEndif`. -/
def compileEndif (L : Layout) (c : Compiler) : Except CompileError Int × Compiler :=
  match popMark c with
  | (.error e, c) => (.error e, c)
  | (.ok result, c) =>
    (.ok result, { c with runtime := setInstructionData L c.runtime result (getDictionaryPtr c) })

/-- Source function `Compiler::compileAgain`; the argument `popMark()` is evaluated before
`compileInstruction` is entered. -/
def compileAgain (L : Layout) (c : Compiler) : Except CompileError Int × Compiler :=
  match popMark c with
  | (.error e, c) => (.error e, c)
  | (.ok mark, c) =>
    let r := compileInstruction L c ⟨.Branch, mark⟩
    (.ok r.1, r.2)

/-- Source function `Compiler::Compiler`: the members as the constructor finds them over the
image `m` (modelled from the spec: the PatchMark stack starts empty), then `reset`. -/
def construct (L : Layout) (m : Memory) : Compiler :=
  reset L { runtime := m, dictionaryPtrAddr := 0, lastWordPtrAddr := 0, marks := [] }

/-- One call of the word-defining and appending functions: the value it
returns (if it returns one) and the state after it; `none` when the call is
still running after `fuel` loop iterations. -/
def opRun (L : Layout) (fuel : Nat) : Op → Compiler → Option (Option Int × Compiler)
  | .createWord n i, c => let r := createWord L c n i; some (some r.1, r.2)
  | .compileWord1 n, c => let r := compileWord1 L c n; some (some r.1, r.2)
  | .compileWord3 n o v, c => let r := compileWord3 L c n o v; some (some r.1, r.2)
  | .compileWord n i, c => let r := compileWord L c n i; some (some r.1, r.2)
  | .compileInstruction i, c => let r := compileInstruction L c i; some (some r.1, r.2)
  | .compileLiteral v, c => let r := compileLiteral L c v; some (some r.1, r.2)
  | .compileData v, c => let r := compileData L c v; some (some r.1, r.2)
  | .compileVariable n v, c => let r := compileVariable L c n v; some (some r.1, r.2)
  | .compileConstant n v, c => some (compileConstant L c n v)
  | .compileStartColonWord n, c => let r := compileStartColonWord L c n; some (some r.1, r.2)
  | .compileReference n, c => (compileReference L fuel c n).map fun r => (some r.1, r.2)
  | .compileEndWord, c => let r := compileEndWord L c; some (some r.1, r.2)

/-- One unit of a program: the result of the call and the state after it. -/
def tokRun (L : Layout) (fuel : Nat) :
    Tok → Compiler → Option (Except CompileError (Option Int) × Compiler)
  | .op o, c => (opRun L fuel o c).map fun r => (.ok r.1, r.2)
  | .BEGIN, c => let r := compileBegin c; some (.ok (some r.1), r.2)
  | .IF, c => let r := compileIf L c; some (.ok (some r.1), r.2)
  | .ELSE, c => let r := compileElse L c; some (r.1.map some, r.2)
  | .ENDIF, c => let r := compileEndif L c; some (r.1.map some, r.2)
  | .AGAIN, c => let r := compileAgain L c; some (r.1.map some, r.2)

end Machine

/-- A call on a constructed compiler: `reset()` or one of the compiling
functions. -/
inductive Call where
  | reset
  | tok (t : Tok)
  deriving DecidableEq

/-- The units that a word-defining or appending call allocates. -/
def Op.size (L : Layout) : Op → Int
  | .createWord _ _ => L.wordSize
  | .compileWord1 _ => L.wordSize
  | .compileWord3 _ _ _ => L.wordSize
  | .compileWord _ _ => L.wordSize
  | .compileConstant _ _ => L.wordSize
  | .compileStartColonWord _ => L.wordSize
  | .compileVariable _ _ => L.wordSize + L.cellSize
  | .compileInstruction _ => L.cellSize
  | .compileLiteral _ => L.cellSize
  | .compileData _ => L.cellSize
  | .compileReference _ => L.cellSize
  | .compileEndWord => L.cellSize

/-- The units that a call allocates when it is made with the marks `marks`
pending: `compileBegin` and `compileEndif` allocate nothing, `compileElse` and
`compileAgain` allocate a cell unless they fail at the pop. -/
def Tok.size (L : Layout) (marks : List Int) : Tok → Int
  | .op o => o.size L
  | .BEGIN => 0
  | .IF => L.cellSize
  | .ELSE => if marks = [] then 0 else L.cellSize
  | .ENDIF => 0
  | .AGAIN => if marks = [] then 0 else L.cellSize

namespace Machine

/-- One call, `reset()` included. -/
def callRun (L : Layout) (fuel : Nat) :
    Call → Compiler → Option (Except CompileError (Option Int) × Compiler)
  | .reset, c => some (.ok none, reset L c)
  | .tok t, c => tokRun L fuel t c

/-- The side condition "no sum leaves `int`": the frontier plus the units
the call allocates does not exceed `INT_MAX` (`reset()` starts from zero). -/
def inRange (L : Layout) (c : Compiler) : Call → Bool
  | .reset => true
  | .tok t => decide (getDictionaryPtr c + t.size L c.marks ≤ intMax)

/-- The side condition "no sum leaves `int`, and `reset()` is called only
while no mark is pending". -/
def tidy (L : Layout) (c : Compiler) : Call → Bool
  | .reset => decide (c.marks = [])
  | .tok t => inRange L c (.tok t)

/-- A session: the calls `ks` one after the other, as long as each call
meets the side condition `ok` in the state it is made in; a call that fails
leaves the state it failed in and the session goes on.  The result is `none`
when a call does not meet `ok` or is still running after `fuel` loop
iterations. -/
def runCalls (L : Layout) (fuel : Nat) (ok : Compiler → Call → Bool) :
    List Call → Compiler → Option Compiler
  | [], c => some c
  | k :: ks, c =>
    if ok c k then
      match callRun L fuel k c with
      | none => none
      | some r => runCalls L fuel ok ks r.2
    else none

/-- What every C++ layout of these types satisfies when `int` and `OpCode`
take four units: a cell holds an opcode and an operand; a dictionary word
holds, without overlap, a link, `nameCap` name units and a reference
instruction; and the sizes are values of `int`. -/
def WF (L : Layout) : Prop :=
  4 ≤ L.dataOff ∧ L.dataOff + 4 ≤ L.cellSize ∧
  0 ≤ L.prevOff ∧ L.prevOff + 4 ≤ L.wordSize ∧
  0 ≤ L.nameOff ∧ L.nameOff + L.nameCap ≤ L.wordSize ∧ 0 < L.nameCap ∧
  0 ≤ L.refOff ∧ L.refOff + L.dataOff + 4 ≤ L.wordSize ∧
  (L.prevOff + 4 ≤ L.nameOff ∨ L.nameOff + L.nameCap ≤ L.prevOff) ∧
  (L.refOff + L.dataOff + 4 ≤ L.nameOff ∨ L.nameOff + L.nameCap ≤ L.refOff) ∧
  (L.prevOff + 4 ≤ L.refOff ∨ L.refOff + L.dataOff + 4 ≤ L.prevOff) ∧
  L.wordSize + 2 * L.cellSize ≤ intMax

instance (L : Layout) : Decidable (WF L) := by
  unfold WF; infer_instance

/-- The bootstrap cells are where `reset` put them. -/
def Placed (L : Layout) (c : Compiler) : Prop :=
  c.dictionaryPtrAddr = 0 ∧ c.lastWordPtrAddr = L.cellSize

/-- The bootstrap cells are where `reset` put them, the frontier lies behind
them, and every pending mark lies behind them too. -/
def Tame (L : Layout) (c : Compiler) : Prop :=
  Placed L c ∧ 2 * L.cellSize ≤ getCell c.runtime 0 ∧ ∀ m ∈ c.marks, 2 * L.cellSize ≤ m

/-- The addresses met from the link value `w` by following `previous` down
to zero: each lies behind the bootstrap cells, ends before `hi`, and ends
before the entry that links to it begins. -/
def Links (L : Layout) (m : Memory) : Int → Int → List Int → Prop
  | _, w, [] => w = 0
  | hi, w, a :: as =>
    w = a ∧ 2 * L.cellSize ≤ a ∧ a + L.wordSize ≤ hi ∧
      Links L m a (getCell m (a + L.prevOff)) as

/-- A tame state whose dictionary list has the addresses `as`: every pending
mark is the frontier still or the address of something allocated since, and
the operand units that a pending mark will have patched meet the link field of
no entry. -/
def Linked (L : Layout) (c : Compiler) (as : List Int) : Prop :=
  Tame L c ∧
  (∀ m ∈ c.marks, m = getCell c.runtime 0 ∨ m + L.dataOff + 4 ≤ getCell c.runtime 0) ∧
  Links L c.runtime (getCell c.runtime 0) (getCell c.runtime L.cellSize) as ∧
  ∀ m ∈ c.marks, ∀ a ∈ as,
    m + L.dataOff + 4 ≤ a + L.prevOff ∨ a + L.prevOff + 4 ≤ m + L.dataOff

end Machine

/-! ## Concrete data for closed statements -/

/-- A layout with 4-unit scalars: an 8-unit cell, and a 44-unit dictionary
word made of a link, 32 name units and the reference instruction. -/
def layout44 : Layout :=
  { cellSize := 8, dataOff := 4, wordSize := 44, prevOff := 0, nameOff := 4, refOff := 36,
    nameCap := 32 }

/-- A compiler over a zeroed image, before the constructor calls `reset`. -/
def blank : Compiler :=
  { runtime := fun _ => 0, dictionaryPtrAddr := 0, lastWordPtrAddr := 0, marks := [] }

/-- The compiler as constructed: `Compiler::Compiler` calls `reset`. -/
def fresh (L : Layout) : Compiler := reset L blank

/-- The compiler as constructed over a zeroed image, unit by unit. -/
def Machine.fresh (L : Layout) : Compiler := Machine.construct L (fun _ => 0)

end ItsyForth

namespace ItsyForth

/-! ## The image: reads after writes -/

theorem setCell_same (m : Memory) (a v : Int) : setCell m a v a = v := by
  simp [setCell]

theorem setCell_other (m : Memory) (a v k : Int) (h : k ≠ a) : setCell m a v k = m k := by
  simp [setCell, h]

theorem writeChars_frame (cs : List Char) :
    ∀ (m : Memory) (addr k : Int), (k < addr ∨ addr + cs.length ≤ k) →
      writeChars m addr cs k = m k := by
  induction cs with
  | nil => intro m addr k _; rfl
  | cons c cs ih =>
    intro m addr k h
    simp only [writeChars, List.length_cons, Nat.cast_add, Nat.cast_one] at h ⊢
    rw [ih _ _ _ (by omega), setCell_other _ _ _ _ (by omega)]

theorem writeChars_read (cs : List Char) :
    ∀ (m : Memory) (addr : Int) (i : Nat) (h : i < cs.length),
      writeChars m addr cs (addr + i) = ((cs.get ⟨i, h⟩).toNat : Int) := by
  induction cs with
  | nil => intro m addr i h; simp at h
  | cons c cs ih =>
    intro m addr i h
    cases i with
    | zero =>
      simp only [writeChars, Nat.cast_zero, add_zero, List.get_eq_getElem, List.getElem_cons_zero]
      rw [writeChars_frame _ _ _ _ (by omega), setCell_same]
    | succ i =>
      have h2 : i < cs.length := by simpa using h
      have := ih (setCell m addr (c.toNat : Int)) (addr + 1) i h2
      simp only [writeChars, Nat.cast_add, Nat.cast_one, List.get_eq_getElem,
        List.getElem_cons_succ] at this ⊢
      rw [← this]; congr 1; omega

theorem stored_length (L : Layout) (name : Name) (h : 0 < L.nameCap) :
    ((stored L name).length : Int) < L.nameCap := by
  have : (stored L name).length ≤ (L.nameCap - 1).toNat := by
    simp [stored, List.length_take]
  omega

theorem stored_of_fits (L : Layout) (name : Name) (h : fits L name) : stored L name = name := by
  unfold fits at h
  unfold stored
  apply List.take_of_length_le
  omega

theorem fromCString_frame (name : Name) (m : Memory) (field cap k : Int) (hc : 0 < cap)
    (h : k < field ∨ field + cap ≤ k) : fromCString name m field cap k = m k := by
  have hl : (name.take (cap - 1).toNat).length ≤ (cap - 1).toNat := by
    simp [List.length_take]
  simp only [fromCString]
  rw [writeChars_frame _ _ _ _ (by omega), setCell_other _ _ _ _ (by omega)]

theorem toCString_fromCString (name : Name) (m : Memory) (field cap : Int) :
    toCString (fromCString name m field cap) field = name.take (cap - 1).toNat := by
  simp only [fromCString, toCString]
  rw [writeChars_frame _ _ _ _ (by omega), setCell_same]
  apply List.ext_get
  · simp only [Int.toNat_ofNat, List.length_map, List.length_range]
  · intro i h1 h2
    simp only [List.get_eq_getElem, List.getElem_map, List.getElem_range]
    have := writeChars_read (name.take (cap - 1).toNat)
      (setCell m field ((name.take (cap - 1).toNat).length : Int)) (field + 1) i h2
    rw [this]
    simp

theorem toCString_length (m : Memory) (field : Int) :
    (toCString m field).length = (m field).toNat := by
  simp [toCString]

theorem toCString_congr (m m2 : Memory) (field cap : Int)
    (hlen : ((toCString m field).length : Int) < cap)
    (h : ∀ k, field ≤ k → k < field + cap → m2 k = m k) :
    toCString m2 field = toCString m field := by
  rw [toCString_length] at hlen
  have h0 : m2 field = m field := h field (by omega) (by omega)
  simp only [toCString, h0]
  apply List.map_congr_left
  intro i hi
  rw [List.mem_range] at hi
  rw [h _ (by omega) (by omega)]

/-! ## The dictionary list -/

theorem chain_congr (L : Layout) (hL : L.WF) (m m2 : Memory) (es : List (Int × Name)) :
    ∀ (hi w : Int), Chain L m hi w es →
      (∀ e ∈ es, ∀ k, e.1 ≤ k → k < e.1 + L.wordSize → m2 k = m k) →
      Chain L m2 hi w es := by
  obtain ⟨_, _, _, _, _, _, _, _, _, _, _, _, _⟩ := hL
  induction es with
  | nil => intro hi w h _; exact h
  | cons e es ih =>
    intro hi w h hm
    obtain ⟨h1, h2, h3, h4, h5, h6⟩ := h
    have he := hm e (List.mem_cons_self _ _)
    refine ⟨h1, h2, h3, ?_, h5, ?_⟩
    · rw [← h4]
      apply toCString_congr _ _ _ L.nameCap (by rw [h4]; exact h5)
      intro k hk1 hk2
      exact he k (by omega) (by omega)
    · rw [he _ (by omega) (by omega)]
      exact ih _ _ h6 (fun e2 he2 => hm e2 (List.mem_cons_of_mem _ he2))

theorem chain_bound (L : Layout) (m : Memory) (es : List (Int × Name)) :
    ∀ (hi w : Int), Chain L m hi w es → 0 ≤ L.wordSize →
      ∀ e ∈ es, 2 * L.cellSize ≤ e.1 ∧ e.1 + L.wordSize ≤ hi := by
  induction es with
  | nil => intro hi w _ _ e he; simp at he
  | cons e es ih =>
    intro hi w h hw e2 he2
    obtain ⟨_, h2, h3, _, _, h6⟩ := h
    rcases List.mem_cons.1 he2 with rfl | he2
    · exact ⟨h2, h3⟩
    · have := ih _ _ h6 hw e2 he2
      exact ⟨this.1, by omega⟩

theorem chain_mono (L : Layout) (m : Memory) (es : List (Int × Name)) (hi hi2 w : Int)
    (h : Chain L m hi w es) (hle : hi ≤ hi2) : Chain L m hi2 w es := by
  cases es with
  | nil => exact h
  | cons e es =>
    obtain ⟨h1, h2, h3, h4, h5, h6⟩ := h
    exact ⟨h1, h2, by omega, h4, h5, h6⟩

theorem chain_frame (L : Layout) (hL : L.WF) (m m2 : Memory) (es : List (Int × Name))
    (hi w : Int) (h : Chain L m hi w es)
    (hm : ∀ k, 2 * L.cellSize ≤ k → k < hi → m2 k = m k) : Chain L m2 hi w es := by
  have hw : 0 ≤ L.wordSize := by
    obtain ⟨_, _, _, _, _, _, _, _, _, _, _, _, _⟩ := hL
    omega
  apply chain_congr L hL m m2 es hi w h
  intro e he k hk1 hk2
  have := chain_bound L m es hi w h hw e he
  exact hm k (by omega) (by omega)

theorem findWordLoop_chain (L : Layout) (m : Memory) (name : Name) (hc : 0 < L.cellSize)
    (es : List (Int × Name)) :
    ∀ (hi w : Int) (fuel : Nat), Chain L m hi w es → es.length < fuel →
      findWordLoop L m name fuel w = some (lookup name es) := by
  induction es with
  | nil =>
    intro hi w fuel h hf
    cases fuel with
    | zero => simp at hf
    | succ fuel =>
      have hw : w = 0 := h
      simp [findWordLoop, hw, lookup]
  | cons e es ih =>
    intro hi w fuel h hf
    obtain ⟨h1, h2, h3, h4, h5, h6⟩ := h
    cases fuel with
    | zero => simp at hf
    | succ fuel =>
      have hw : e.1 ≠ 0 := by omega
      subst h1
      simp only [findWordLoop, hw, if_false, lookup, h4]
      by_cases hn : name = e.2
      · simp [hn]
      · simp only [hn, if_false]
        exact ih _ _ _ h6 (by simpa using hf)

theorem good_findWord (L : Layout) (hL : L.WF) (c : Compiler) (es : List (Int × Name))
    (h : Good L c es) (name : Name) (fuel : Nat) (hf : es.length < fuel) :
    findWord L fuel c name = some (lookup name es) := by
  obtain ⟨h1, h2, h3, h4⟩ := h
  have hc : 0 < L.cellSize := by
    obtain ⟨_, _, _, _, _, _, _, _, _, _, _, _, _⟩ := hL
    omega
  unfold ItsyForth.findWord getCell
  rw [h2]
  exact findWordLoop_chain L c.runtime name hc es _ _ fuel h4 hf

/-! ## What one call does to the image -/

theorem createWord_mem (L : Layout) (hL : L.WF) (c : Compiler) (n : Name) (i : Instruction)
    (hd : c.dictionaryPtrAddr = 0) (hl : c.lastWordPtrAddr = L.cellSize)
    (hf : 2 * L.cellSize ≤ c.runtime 0) :
    (createWord L c n i).2.runtime 0 = c.runtime 0 + L.wordSize ∧
    (createWord L c n i).2.runtime L.cellSize = c.runtime 0 ∧
    (createWord L c n i).2.runtime (c.runtime 0 + L.prevOff) = c.runtime L.cellSize ∧
    toCString (createWord L c n i).2.runtime (c.runtime 0 + L.nameOff) = stored L n ∧
    (createWord L c n i).2.runtime (c.runtime 0 + L.refOff) = i.opcode.toInt ∧
    (createWord L c n i).2.runtime (c.runtime 0 + L.refOff + L.dataOff) = i.data ∧
    (∀ k, (k < c.runtime 0 ∨ c.runtime 0 + L.wordSize ≤ k) → k ≠ 0 → k ≠ L.cellSize →
      (createWord L c n i).2.runtime k = c.runtime k) := by
  obtain ⟨w1, w2, w3, w4, w5, w6, w7, w8, w9, w10, w11, w12, w13⟩ := hL
  simp only [createWord, allocate, getCell, setInstruction, hd, hl]
  refine ⟨?_, ?_, ?_, ?_, ?_, ?_, ?_⟩
  · rw [setCell_other _ _ _ _ (by omega), setCell_other _ _ _ _ (by omega),
      setCell_other _ _ _ _ (by omega), fromCString_frame _ _ _ _ _ w7 (by omega),
      setCell_other _ _ _ _ (by omega), setCell_same]
  · rw [setCell_same]
  · rw [setCell_other _ _ _ _ (by omega), setCell_other _ _ _ _ (by omega),
      setCell_other _ _ _ _ (by omega), fromCString_frame _ _ _ _ _ w7 (by omega),
      setCell_same, setCell_other _ _ _ _ (by omega)]
  · have hs := stored_length L n w7
    have he := toCString_fromCString n
      (setCell (setCell c.runtime 0 (c.runtime 0 + L.wordSize)) (c.runtime 0 + L.prevOff)
        (setCell c.runtime 0 (c.runtime 0 + L.wordSize) L.cellSize))
      (c.runtime 0 + L.nameOff) L.nameCap
    change _ = stored L n at he
    rw [← he] at hs ⊢
    apply toCString_congr _ _ _ L.nameCap hs
    intro k hk1 hk2
    rw [setCell_other _ _ _ _ (by omega), setCell_other _ _ _ _ (by omega),
      setCell_other _ _ _ _ (by omega)]
  · rw [setCell_other _ _ _ _ (by omega), setCell_other _ _ _ _ (by omega), setCell_same]
  · rw [setCell_other _ _ _ _ (by omega), setCell_same]
  · intro k hk h0 hcs
    rw [setCell_other _ _ _ _ (by omega), setCell_other _ _ _ _ (by omega),
      setCell_other _ _ _ _ (by omega), fromCString_frame _ _ _ _ _ w7 (by omega),
      setCell_other _ _ _ _ (by omega), setCell_other _ _ _ _ (by omega)]

theorem compileInstruction_mem (L : Layout) (hL : L.WF) (c : Compiler) (i : Instruction)
    (hd : c.dictionaryPtrAddr = 0) (hf : 2 * L.cellSize ≤ c.runtime 0) :
    (compileInstruction L c i).2.runtime 0 = c.runtime 0 + L.cellSize ∧
    (compileInstruction L c i).2.runtime (c.runtime 0) = i.opcode.toInt ∧
    (compileInstruction L c i).2.runtime (c.runtime 0 + L.dataOff) = i.data ∧
    (∀ k, (k < c.runtime 0 ∨ c.runtime 0 + L.cellSize ≤ k) → k ≠ 0 →
      (compileInstruction L c i).2.runtime k = c.runtime k) := by
  obtain ⟨w1, w2, w3, w4, w5, w6, w7, w8, w9, w10, w11, w12, w13⟩ := hL
  simp only [compileInstruction, allocate, getCell, setInstruction, hd]
  refine ⟨?_, ?_, ?_, ?_⟩
  · rw [setCell_other _ _ _ _ (by omega), setCell_other _ _ _ _ (by omega), setCell_same]
  · rw [setCell_other _ _ _ _ (by omega), setCell_same]
  · rw [setCell_same]
  · intro k hk h0
    rw [setCell_other _ _ _ _ (by omega), setCell_other _ _ _ _ (by omega),
      setCell_other _ _ _ _ (by omega)]

theorem compileData_mem (L : Layout) (hL : L.WF) (c : Compiler) (v : Int)
    (hd : c.dictionaryPtrAddr = 0) (hf : 2 * L.cellSize ≤ c.runtime 0) :
    (compileData L c v).2.runtime 0 = c.runtime 0 + L.cellSize ∧
    (compileData L c v).2.runtime (c.runtime 0) = v ∧
    (∀ k, k ≠ c.runtime 0 → k ≠ 0 → (compileData L c v).2.runtime k = c.runtime k) := by
  obtain ⟨w1, w2, w3, w4, w5, w6, w7, w8, w9, w10, w11, w12, w13⟩ := hL
  simp only [compileData, allocate, getCell, hd]
  refine ⟨?_, ?_, ?_⟩
  · rw [setCell_other _ _ _ _ (by omega), setCell_same]
  · rw [setCell_same]
  · intro k hk h0
    rw [setCell_other _ _ _ _ (by omega), setCell_other _ _ _ _ (by omega)]

/-! ## Calls keep the session good -/

theorem good_define (L : Layout) (hL : L.WF) (c c2 : Compiler) (es : List (Int × Name))
    (n : Name) (h : Good L c es)
    (hd : c2.dictionaryPtrAddr = 0) (hl : c2.lastWordPtrAddr = L.cellSize)
    (h0 : c.runtime 0 + L.wordSize ≤ c2.runtime 0) (h1 : c2.runtime L.cellSize = c.runtime 0)
    (h2 : c2.runtime (c.runtime 0 + L.prevOff) = c.runtime L.cellSize)
    (h3 : toCString c2.runtime (c.runtime 0 + L.nameOff) = n) (h4 : (n.length : Int) < L.nameCap)
    (h5 : ∀ k, 2 * L.cellSize ≤ k → k < c.runtime 0 → c2.runtime k = c.runtime k) :
    Good L c2 ((c.runtime 0, n) :: es) := by
  obtain ⟨g1, g2, g3, g4⟩ := h
  have hw : 0 < L.wordSize := by
    obtain ⟨_, _, _, _, _, _, _, _, _, _, _, _, _⟩ := hL
    omega
  refine ⟨hd, hl, by omega, h1, g3, h0, h3, h4, ?_⟩
  show Chain L c2.runtime (c.runtime 0) (c2.runtime (c.runtime 0 + L.prevOff)) es
  rw [h2]
  exact chain_frame L hL c.runtime c2.runtime es _ _ g4 h5

theorem good_frame (L : Layout) (hL : L.WF) (c c2 : Compiler) (es : List (Int × Name))
    (h : Good L c es)
    (hd : c2.dictionaryPtrAddr = 0) (hl : c2.lastWordPtrAddr = L.cellSize)
    (h0 : c.runtime 0 ≤ c2.runtime 0) (h1 : c2.runtime L.cellSize = c.runtime L.cellSize)
    (h5 : ∀ k, 2 * L.cellSize ≤ k → k < c.runtime 0 → c2.runtime k = c.runtime k) :
    Good L c2 es := by
  obtain ⟨g1, g2, g3, g4⟩ := h
  refine ⟨hd, hl, by omega, ?_⟩
  rw [h1]
  exact chain_mono L _ es _ _ _ (chain_frame L hL c.runtime c2.runtime es _ _ g4 h5) h0

theorem step_refl (L : Layout) (c : Compiler) (es : List (Int × Name)) (h : Good L c es) :
    Step L c c es [] :=
  ⟨h, by simp, le_refl _, fun _ _ _ _ => rfl⟩

theorem step_trans (L : Layout) (c c1 c2 : Compiler) (es n1 n2 : List (Int × Name))
    (h1 : Step L c c1 es n1) (h2 : Step L c1 c2 (n1 ++ es) n2) :
    Step L c c2 es (n2 ++ n1) := by
  obtain ⟨a1, a2, a3, a4⟩ := h1
  obtain ⟨b1, b2, b3, b4⟩ := h2
  refine ⟨by simpa using b1, ?_, by omega, ?_⟩
  · intro e he
    rcases List.mem_append.1 he with he | he
    · have := b2 e he; omega
    · exact a2 e he
  · intro k hk h0 hcs
    rw [b4 k (by omega) h0 hcs, a4 k hk h0 hcs]

theorem createWord_step (L : Layout) (hL : L.WF) (c : Compiler) (es : List (Int × Name))
    (h : Good L c es) (n : Name) (i : Instruction) :
    Step L c (createWord L c n i).2 es [(c.runtime 0, stored L n)] := by
  have hw := hL
  obtain ⟨w1, w2, w3, w4, w5, w6, w7, w8, w9, w10, w11, w12, w13⟩ := hw
  obtain ⟨m1, m2, m3, m4, m5, m6, m7⟩ := createWord_mem L hL c n i h.1 h.2.1 h.2.2.1
  refine ⟨?_, ?_, by omega, ?_⟩
  · exact good_define L hL c _ es _ h h.1 h.2.1 (by omega) m2 m3 m4 (stored_length L n w7)
      (fun k hk1 hk2 => m7 k (Or.inl hk2) (by omega) (by omega))
  · intro e he
    simp only [List.mem_singleton] at he
    rw [he]
  · intro k hk h0 hcs
    exact m7 k (Or.inl hk) h0 hcs

theorem compileInstruction_step (L : Layout) (hL : L.WF) (c : Compiler)
    (es : List (Int × Name)) (h : Good L c es) (i : Instruction) :
    Step L c (compileInstruction L c i).2 es [] := by
  have hw := hL
  obtain ⟨w1, w2, w3, w4, w5, w6, w7, w8, w9, w10, w11, w12, w13⟩ := hw
  have g3 := h.2.2.1
  obtain ⟨m1, m2, m3, m4⟩ := compileInstruction_mem L hL c i h.1 h.2.2.1
  refine ⟨?_, by simp, by omega, fun k hk h0 _ => m4 k (Or.inl hk) h0⟩
  exact good_frame L hL c _ es h h.1 h.2.1 (by omega) (m4 _ (Or.inl (by omega)) (by omega))
    (fun k hk1 hk2 => m4 k (Or.inl hk2) (by omega))

theorem compileData_step (L : Layout) (hL : L.WF) (c : Compiler)
    (es : List (Int × Name)) (h : Good L c es) (v : Int) :
    Step L c (compileData L c v).2 es [] := by
  have hw := hL
  obtain ⟨w1, w2, w3, w4, w5, w6, w7, w8, w9, w10, w11, w12, w13⟩ := hw
  have g3 := h.2.2.1
  obtain ⟨m1, m2, m4⟩ := compileData_mem L hL c v h.1 h.2.2.1
  refine ⟨?_, by simp, by omega, fun k hk h0 _ => m4 k (by omega) h0⟩
  exact good_frame L hL c _ es h h.1 h.2.1 (by omega) (m4 _ (by omega) (by omega))
    (fun k hk1 hk2 => m4 k (by omega) (by omega))

theorem opCode_ofInt_toInt (o : OpCode) : OpCode.ofInt o.toInt = some o := by
  cases o <;> rfl

theorem getInstruction_eq (L : Layout) (m : Memory) (a : Int) (i : Instruction)
    (h1 : m a = i.opcode.toInt) (h2 : m (a + L.dataOff) = i.data) :
    getInstruction L m a = some i := by
  simp [getInstruction, h1, h2, opCode_ofInt_toInt]

theorem compileStartColonWord_mem (L : Layout) (hL : L.WF) (c : Compiler) (n : Name)
    (hd : c.dictionaryPtrAddr = 0) (hl : c.lastWordPtrAddr = L.cellSize)
    (hf : 2 * L.cellSize ≤ c.runtime 0) :
    (compileStartColonWord L c n).2.runtime 0 = c.runtime 0 + L.wordSize ∧
    (compileStartColonWord L c n).2.runtime L.cellSize = c.runtime 0 ∧
    (compileStartColonWord L c n).2.runtime (c.runtime 0 + L.prevOff) = c.runtime L.cellSize ∧
    toCString (compileStartColonWord L c n).2.runtime (c.runtime 0 + L.nameOff) = stored L n ∧
    getInstruction L (compileStartColonWord L c n).2.runtime (c.runtime 0 + L.refOff) =
      some ⟨.DoColon, c.runtime 0 + L.wordSize⟩ ∧
    (∀ k, (k < c.runtime 0 ∨ c.runtime 0 + L.wordSize ≤ k) → k ≠ 0 → k ≠ L.cellSize →
      (compileStartColonWord L c n).2.runtime k = c.runtime k) := by
  have hw := hL
  obtain ⟨w1, w2, w3, w4, w5, w6, w7, w8, w9, w10, w11, w12, w13⟩ := hw
  obtain ⟨m1, m2, m3, m4, m5, m6, m7⟩ := createWord_mem L hL c n ⟨.INVALID, 0⟩ hd hl hf
  have hfst : (createWord L c n ⟨.INVALID, 0⟩).1 = c.runtime 0 := by
    simp [createWord, allocate, getCell, hd]
  simp only [compileStartColonWord, createWord1, setInstruction, hfst]
  refine ⟨?_, ?_, ?_, ?_, ?_, ?_⟩
  · rw [setCell_other _ _ _ _ (by omega), setCell_other _ _ _ _ (by omega), m1]
  · rw [setCell_other _ _ _ _ (by omega), setCell_other _ _ _ _ (by omega), m2]
  · rw [setCell_other _ _ _ _ (by omega), setCell_other _ _ _ _ (by omega), m3]
  · have hs := stored_length L n w7
    rw [← m4] at hs ⊢
    apply toCString_congr _ _ _ L.nameCap hs
    intro k hk1 hk2
    rw [setCell_other _ _ _ _ (by omega), setCell_other _ _ _ _ (by omega)]
  · apply getInstruction_eq
    · rw [setCell_other _ _ _ _ (by omega), setCell_same]
    · rw [setCell_same]
  · intro k hk h0 hcs
    rw [setCell_other _ _ _ _ (by omega), setCell_other _ _ _ _ (by omega), m7 k hk h0 hcs]

theorem compileVariable_mem (L : Layout) (hL : L.WF) (c : Compiler) (n : Name) (v : Int)
    (hd : c.dictionaryPtrAddr = 0) (hl : c.lastWordPtrAddr = L.cellSize)
    (hf : 2 * L.cellSize ≤ c.runtime 0) :
    (compileVariable L c n v).2.runtime 0 = c.runtime 0 + L.wordSize + L.cellSize ∧
    (compileVariable L c n v).2.runtime L.cellSize = c.runtime 0 ∧
    (compileVariable L c n v).2.runtime (c.runtime 0 + L.prevOff) = c.runtime L.cellSize ∧
    toCString (compileVariable L c n v).2.runtime (c.runtime 0 + L.nameOff) = stored L n ∧
    getInstruction L (compileVariable L c n v).2.runtime (c.runtime 0 + L.refOff) =
      some ⟨.DoVariable, c.runtime 0 + L.wordSize⟩ ∧
    (compileVariable L c n v).2.runtime (c.runtime 0 + L.wordSize) = v ∧
    (∀ k, (k < c.runtime 0 ∨ c.runtime 0 + L.wordSize < k) → k ≠ 0 → k ≠ L.cellSize →
      (compileVariable L c n v).2.runtime k = c.runtime k) := by
  have hw := hL
  obtain ⟨w1, w2, w3, w4, w5, w6, w7, w8, w9, w10, w11, w12, w13⟩ := hw
  obtain ⟨m1, m2, m3, m4, m5, m6, m7⟩ := createWord_mem L hL c n ⟨.INVALID, 0⟩ hd hl hf
  have hfst : (createWord L c n ⟨.INVALID, 0⟩).1 = c.runtime 0 := by
    simp [createWord, allocate, getCell, hd]
  have hd1 : (createWord L c n ⟨.INVALID, 0⟩).2.dictionaryPtrAddr = 0 := hd
  obtain ⟨d1, d2, d3⟩ := compileData_mem L hL (createWord L c n ⟨.INVALID, 0⟩).2 v hd1
    (by rw [m1]; omega)
  have hdf : (compileData L (createWord L c n ⟨.INVALID, 0⟩).2 v).1 =
      c.runtime 0 + L.wordSize := by
    simp only [compileData, allocate, getCell, hd1, m1]
  rw [m1] at d1 d2 d3
  simp only [compileVariable, createWord1, setInstruction, hfst, hdf]
  refine ⟨?_, ?_, ?_, ?_, ?_, ?_, ?_⟩
  · rw [setCell_other _ _ _ _ (by omega), setCell_other _ _ _ _ (by omega), d1]
  · rw [setCell_other _ _ _ _ (by omega), setCell_other _ _ _ _ (by omega),
      d3 _ (by omega) (by omega), m2]
  · rw [setCell_other _ _ _ _ (by omega), setCell_other _ _ _ _ (by omega),
      d3 _ (by omega) (by omega), m3]
  · have hs := stored_length L n w7
    rw [← m4] at hs ⊢
    apply toCString_congr _ _ _ L.nameCap hs
    intro k hk1 hk2
    rw [setCell_other _ _ _ _ (by omega), setCell_other _ _ _ _ (by omega),
      d3 _ (by omega) (by omega)]
  · apply getInstruction_eq
    · rw [setCell_other _ _ _ _ (by omega), setCell_same]
    · rw [setCell_same]
  · rw [setCell_other _ _ _ _ (by omega), setCell_other _ _ _ _ (by omega), d2]
  · intro k hk h0 hcs
    rw [setCell_other _ _ _ _ (by omega), setCell_other _ _ _ _ (by omega),
      d3 _ (by omega) (by omega)]
    rcases hk with hk | hk
    · exact m7 k (Or.inl hk) h0 hcs
    · by_cases hk2 : c.runtime 0 + L.wordSize ≤ k
      · exact m7 k (Or.inr hk2) h0 hcs
      · omega

theorem compileStartColonWord_step (L : Layout) (hL : L.WF) (c : Compiler)
    (es : List (Int × Name)) (h : Good L c es) (n : Name) :
    Step L c (compileStartColonWord L c n).2 es [(c.runtime 0, stored L n)] := by
  have hw := hL
  obtain ⟨w1, w2, w3, w4, w5, w6, w7, w8, w9, w10, w11, w12, w13⟩ := hw
  obtain ⟨m1, m2, m3, m4, _, m7⟩ := compileStartColonWord_mem L hL c n h.1 h.2.1 h.2.2.1
  refine ⟨?_, ?_, by omega, ?_⟩
  · exact good_define L hL c _ es _ h h.1 h.2.1 (by omega) m2 m3 m4 (stored_length L n w7)
      (fun k hk1 hk2 => m7 k (Or.inl hk2) (by omega) (by omega))
  · intro e he
    simp only [List.mem_singleton] at he
    rw [he]
  · intro k hk h0 hcs
    exact m7 k (Or.inl hk) h0 hcs

theorem compileVariable_step (L : Layout) (hL : L.WF) (c : Compiler)
    (es : List (Int × Name)) (h : Good L c es) (n : Name) (v : Int) :
    Step L c (compileVariable L c n v).2 es [(c.runtime 0, stored L n)] := by
  have hw := hL
  obtain ⟨w1, w2, w3, w4, w5, w6, w7, w8, w9, w10, w11, w12, w13⟩ := hw
  obtain ⟨m1, m2, m3, m4, _, _, m7⟩ := compileVariable_mem L hL c n v h.1 h.2.1 h.2.2.1
  refine ⟨?_, ?_, by omega, ?_⟩
  · exact good_define L hL c _ es _ h h.1 h.2.1 (by omega) m2 m3 m4 (stored_length L n w7)
      (fun k hk1 hk2 => m7 k (Or.inl hk2) (by omega) (by omega))
  · intro e he
    simp only [List.mem_singleton] at he
    rw [he]
  · intro k hk h0 hcs
    exact m7 k (Or.inl hk) h0 hcs

theorem opRun_step (L : Layout) (hL : L.WF) (o : Op) (c : Compiler) (es : List (Int × Name))
    (h : Good L c es) (fuel : Nat) (hf : es.length < fuel) :
    ∃ r c2, o.run L fuel c = some (r, c2) ∧ c2.marks = c.marks ∧
      Step L c c2 es (o.entries L (c.runtime 0)) ∧
      (r = some (c.runtime 0) ∨ (r = none ∧ ∃ n v, o = .compileConstant n v)) := by
  have hd := h.1
  cases o with
  | createWord n i =>
    exact ⟨_, _, rfl, rfl, createWord_step L hL c es h n i,
      Or.inl (by simp [createWord, allocate, getCell, hd])⟩
  | compileWord1 n =>
    exact ⟨_, _, rfl, rfl, createWord_step L hL c es h n _,
      Or.inl (by simp [compileWord1, createWord1, createWord, allocate, getCell, hd])⟩
  | compileWord3 n o v =>
    exact ⟨_, _, rfl, rfl, createWord_step L hL c es h n _,
      Or.inl (by simp [compileWord3, createWord3, createWord, allocate, getCell, hd])⟩
  | compileWord n i =>
    exact ⟨_, _, rfl, rfl, createWord_step L hL c es h n i,
      Or.inl (by simp [compileWord, createWord, allocate, getCell, hd])⟩
  | compileInstruction i =>
    exact ⟨_, _, rfl, rfl, compileInstruction_step L hL c es h i,
      Or.inl (by simp [compileInstruction, allocate, getCell, hd])⟩
  | compileLiteral v =>
    exact ⟨_, _, rfl, rfl, compileInstruction_step L hL c es h _,
      Or.inl (by simp [compileLiteral, compileInstruction, allocate, getCell, hd])⟩
  | compileData v =>
    exact ⟨_, _, rfl, rfl, compileData_step L hL c es h v,
      Or.inl (by simp [compileData, allocate, getCell, hd])⟩
  | compileVariable n v =>
    exact ⟨_, _, rfl, rfl, compileVariable_step L hL c es h n v,
      Or.inl (by simp [compileVariable, createWord1, createWord, allocate, getCell, hd])⟩
  | compileConstant n v =>
    exact ⟨_, _, rfl, rfl, createWord_step L hL c es h n _, Or.inr ⟨rfl, n, v, rfl⟩⟩
  | compileStartColonWord n =>
    exact ⟨_, _, rfl, rfl, compileStartColonWord_step L hL c es h n,
      Or.inl (by simp [compileStartColonWord, createWord1, createWord, allocate, getCell, hd])⟩
  | compileReference n =>
    have hfw := good_findWord L hL c es h n fuel hf
    refine ⟨some (c.runtime 0), (compileInstruction L c ⟨.DoColon, lookup n es⟩).2, ?_, rfl,
      compileInstruction_step L hL c es h _, Or.inl rfl⟩
    simp [Op.run, compileReference, hfw, compileInstruction, allocate, getCell, hd]
  | compileEndWord =>
    exact ⟨_, _, rfl, rfl, compileInstruction_step L hL c es h _,
      Or.inl (by simp [compileEndWord, compileInstruction, allocate, getCell, hd])⟩

/-! ## Control-flow words -/

theorem good_marks (L : Layout) (c : Compiler) (es : List (Int × Name)) (ms : List Int)
    (h : Good L c es) : Good L { c with marks := ms } es := h

theorem step_marks (L : Layout) (c c2 : Compiler) (es new : List (Int × Name)) (ms : List Int)
    (h : Step L c c2 es new) : Step L c { c2 with marks := ms } es new := h

theorem step_ofMarks (L : Layout) (c c2 : Compiler) (es new : List (Int × Name)) (ms : List Int)
    (h : Step L { c with marks := ms } c2 es new) : Step L c c2 es new := h

theorem compileIf_step (L : Layout) (hL : L.WF) (c : Compiler) (es : List (Int × Name))
    (h : Good L c es) :
    (compileIf L c).1 = c.runtime 0 ∧
    (compileIf L c).2.marks = c.runtime 0 :: c.marks ∧
    Step L c (compileIf L c).2 es [] ∧
    (compileIf L c).2.runtime 0 = c.runtime 0 + L.cellSize ∧
    getInstruction L (compileIf L c).2.runtime (c.runtime 0) = some ⟨.ZeroBranch, 0⟩ := by
  have hd := h.1
  have hg : Good L (pushMark c (getDictionaryPtr c)) es := h
  obtain ⟨m1, m2, m3, m4⟩ := compileInstruction_mem L hL (pushMark c (getDictionaryPtr c))
    (Instruction.ofOpCode .ZeroBranch) h.1 h.2.2.1
  refine ⟨?_, ?_, ?_, m1, getInstruction_eq L _ _ _ m2 m3⟩
  · simp [compileIf, compileInstruction, allocate, getCell, pushMark, hd]
  · simp [compileIf, compileInstruction, allocate, getCell, pushMark, getDictionaryPtr, hd]
  · exact compileInstruction_step L hL _ es hg _

theorem compileAgain_step (L : Layout) (hL : L.WF) (c : Compiler) (es : List (Int × Name))
    (h : Good L c es) (b : Int) (ms : List Int) (hm : c.marks = b :: ms) :
    (compileAgain L c).1 = .ok (c.runtime 0) ∧
    (compileAgain L c).2.marks = ms ∧
    Step L c (compileAgain L c).2 es [] ∧
    (compileAgain L c).2.runtime 0 = c.runtime 0 + L.cellSize ∧
    getInstruction L (compileAgain L c).2.runtime (c.runtime 0) = some ⟨.Branch, b⟩ ∧
    (∀ k, (k < c.runtime 0 ∨ c.runtime 0 + L.cellSize ≤ k) → k ≠ 0 →
      (compileAgain L c).2.runtime k = c.runtime k) := by
  have hd := h.1
  have hg : Good L { c with marks := ms } es := h
  obtain ⟨m1, m2, m3, m4⟩ := compileInstruction_mem L hL { c with marks := ms }
    ⟨.Branch, b⟩ h.1 h.2.2.1
  have he : compileAgain L c =
      (.ok (compileInstruction L { c with marks := ms } ⟨.Branch, b⟩).1,
        (compileInstruction L { c with marks := ms } ⟨.Branch, b⟩).2) := by
    simp [compileAgain, popMark, hm]
  rw [he]
  refine ⟨?_, rfl, compileInstruction_step L hL _ es hg _, m1, getInstruction_eq L _ _ _ m2 m3,
    m4⟩
  simp [compileInstruction, allocate, getCell, hd]

theorem compileElse_step (L : Layout) (hL : L.WF) (c : Compiler) (es : List (Int × Name))
    (h : Good L c es) (b : Int) (ms : List Int) (hm : c.marks = b :: ms) :
    (compileElse L c).1 = .ok (c.runtime 0) ∧
    (compileElse L c).2.marks = c.runtime 0 :: ms ∧
    Step L c (compileElse L c).2 es [] ∧
    (compileElse L c).2.runtime 0 = c.runtime 0 + L.cellSize ∧
    getInstruction L (compileElse L c).2.runtime (c.runtime 0) = some ⟨.Branch, 0⟩ ∧
    (∀ k, (k < c.runtime 0 ∨ c.runtime 0 + L.cellSize ≤ k) → k ≠ 0 →
      (compileElse L c).2.runtime k = c.runtime k) := by
  have hd := h.1
  have hg : Good L { c with marks := c.runtime 0 :: ms } es := h
  obtain ⟨m1, m2, m3, m4⟩ := compileInstruction_mem L hL { c with marks := c.runtime 0 :: ms }
    (Instruction.ofOpCode .Branch) h.1 h.2.2.1
  have he : compileElse L c =
      (.ok (compileInstruction L { c with marks := c.runtime 0 :: ms }
          (Instruction.ofOpCode .Branch)).1,
        (compileInstruction L { c with marks := c.runtime 0 :: ms }
          (Instruction.ofOpCode .Branch)).2) := by
    simp [compileElse, popMark, hm, pushMark, getDictionaryPtr, getCell, hd]
  rw [he]
  refine ⟨?_, rfl, compileInstruction_step L hL _ es hg _, m1,
    getInstruction_eq L _ _ _ m2 m3, m4⟩
  simp [compileInstruction, allocate, getCell, hd]

theorem compileEndif_eq (L : Layout) (c : Compiler) (b : Int) (ms : List Int)
    (hm : c.marks = b :: ms) :
    compileEndif L c = (.ok b, { c with
      marks := ms, runtime := setCell c.runtime (b + L.dataOff) (getDictionaryPtr c) }) := by
  simp [compileEndif, popMark, hm, setInstructionData, getDictionaryPtr]

theorem patch_step (L : Layout) (hL : L.WF) (c c1 c2 : Compiler) (es new : List (Int × Name))
    (h : Good L c es) (h1 : Step L c c1 es []) (hf : c1.runtime 0 = c.runtime 0 + L.cellSize)
    (h2 : Step L c1 c2 es new) (v : Int) (ms : List Int) :
    Step L c { c2 with marks := ms, runtime := setCell c2.runtime (c.runtime 0 + L.dataOff) v }
      es new := by
  have hw := hL
  obtain ⟨w1, w2, w3, w4, w5, w6, w7, w8, w9, w10, w11, w12, w13⟩ := hw
  obtain ⟨a1, a2, a3, a4⟩ := h1
  obtain ⟨b1, b2, b3, b4⟩ := h2
  have g3 := h.2.2.1
  have hold := chain_bound L _ es _ _ h.2.2.2 (by omega)
  refine ⟨⟨b1.1, b1.2.1, ?_, ?_⟩, ?_, ?_, ?_⟩
  · show 2 * L.cellSize ≤ setCell c2.runtime (c.runtime 0 + L.dataOff) v 0
    rw [setCell_other _ _ _ _ (by omega)]
    exact b1.2.2.1
  · show Chain L (setCell c2.runtime (c.runtime 0 + L.dataOff) v)
      (setCell c2.runtime (c.runtime 0 + L.dataOff) v 0)
      (setCell c2.runtime (c.runtime 0 + L.dataOff) v L.cellSize) (new ++ es)
    rw [setCell_other _ _ _ _ (by omega), setCell_other _ _ _ _ (by omega)]
    apply chain_congr L hL c2.runtime _ _ _ _ b1.2.2.2
    intro e he k hk1 hk2
    apply setCell_other
    rcases List.mem_append.1 he with he | he
    · have := b2 e he; omega
    · have := hold e he; omega
  · intro e he
    have := b2 e he; omega
  · show c.runtime 0 ≤ setCell c2.runtime (c.runtime 0 + L.dataOff) v 0
    rw [setCell_other _ _ _ _ (by omega)]
    omega
  · intro k hk h0 hcs
    show setCell c2.runtime (c.runtime 0 + L.dataOff) v k = c.runtime k
    rw [setCell_other _ _ _ _ (by omega), b4 k (by omega) h0 hcs, a4 k hk h0 hcs]

/-! ## Programs -/

theorem runToks_append (L : Layout) (fuel : Nat) (A B : List Tok) :
    ∀ c, runToks L fuel (A ++ B) c =
      match runToks L fuel A c with
      | none => none
      | some (.error e, c1) => some (.error e, c1)
      | some (.ok _, c1) => runToks L fuel B c1 := by
  induction A with
  | nil => intro c; rfl
  | cons t A ih =>
    intro c
    simp only [List.cons_append, runToks]
    cases ht : t.run L fuel c with
    | none => rfl
    | some r =>
      obtain ⟨r, c1⟩ := r
      cases r with
      | error e => rfl
      | ok v => exact ih c1

theorem runToks_cons_ok (L : Layout) (fuel : Nat) (t : Tok) (ts : List Tok) (c c1 : Compiler)
    (r : Option Int) (h : t.run L fuel c = some (.ok r, c1)) :
    runToks L fuel (t :: ts) c = runToks L fuel ts c1 := by
  simp [runToks, h]

theorem runToks_append_ok (L : Layout) (fuel : Nat) (A B : List Tok) (c c1 : Compiler)
    (h : runToks L fuel A c = some (.ok (), c1)) :
    runToks L fuel (A ++ B) c = runToks L fuel B c1 := by
  rw [runToks_append, h]

theorem tokRun_endif (L : Layout) (fuel : Nat) (c : Compiler) (b : Int) (ms : List Int)
    (hm : c.marks = b :: ms) :
    Tok.ENDIF.run L fuel c = some (.ok (some b), { c with
      marks := ms, runtime := setCell c.runtime (b + L.dataOff) (getDictionaryPtr c) }) := by
  simp [Tok.run, compileEndif_eq L c b ms hm, Except.map]

theorem runToks_balanced (L : Layout) (hL : L.WF) (S : List Tok) (hS : WellFormed S) :
    ∀ (c : Compiler) (es : List (Int × Name)) (fuel : Nat), Good L c es →
      es.length + S.length < fuel →
      ∃ c2 new, runToks L fuel S c = some (.ok (), c2) ∧ c2.marks = c.marks ∧
        Step L c c2 es new ∧ new.length ≤ S.length := by
  induction hS with
  | empty =>
    intro c es fuel h _
    exact ⟨c, [], rfl, rfl, step_refl L c es h, le_refl _⟩
  | op o S _ ih =>
    intro c es fuel h hf
    simp only [List.length_cons] at hf
    obtain ⟨r, c1, hr, hm1, hs1, _⟩ := opRun_step L hL o c es h fuel (by omega)
    have hlen : (o.entries L (c.runtime 0)).length ≤ 1 := by
      unfold Op.entries; split <;> simp
    obtain ⟨c2, new, hr2, hm2, hs2, hl2⟩ := ih c1 _ fuel hs1.1
      (by simp only [List.length_append]; omega)
    refine ⟨c2, new ++ o.entries L (c.runtime 0), ?_, by rw [hm2, hm1],
      step_trans L c c1 c2 es _ _ hs1 hs2, by simp only [List.length_append, List.length_cons]; omega⟩
    rw [runToks_cons_ok L fuel (.op o) S c c1 r (by simp [Tok.run, hr])]
    exact hr2
  | loop A S _ _ ihA ihS =>
    intro c es fuel h hf
    simp only [List.length_cons, List.length_append] at hf
    have hb : Tok.BEGIN.run L fuel c =
        some (.ok (some (getDictionaryPtr c)), { c with marks := c.runtime 0 :: c.marks }) := by
      simp [Tok.run, compileBegin, pushMark, getDictionaryPtr, getCell, h.1]
    obtain ⟨c2, nA, hr2, hm2, hs2, hl2⟩ := ihA { c with marks := c.runtime 0 :: c.marks } es fuel
      (good_marks L c es _ h) (by omega)
    obtain ⟨a1, a2, a3, a4, _, _⟩ := compileAgain_step L hL c2 (nA ++ es) hs2.1 (c.runtime 0) c.marks hm2
    obtain ⟨c4, nS, hr4, hm4, hs4, hl4⟩ := ihS (compileAgain L c2).2 (nA ++ es) fuel a3.1
      (by simp only [List.length_append]; omega)
    refine ⟨c4, nS ++ nA, ?_, by rw [hm4, a2], ?_, by simp only [List.length_append, List.length_cons]; omega⟩
    · rw [runToks_cons_ok L fuel .BEGIN _ c _ _ hb, runToks_append_ok L fuel A _ _ c2 hr2,
        runToks_cons_ok L fuel .AGAIN S c2 (compileAgain L c2).2 (some (c2.runtime 0))
          (by simp [Tok.run, a1, Except.map])]
      exact hr4
    · have s1 : Step L c c2 es nA := step_ofMarks L c c2 es nA _ hs2
      have s2 := step_trans L c2 _ c4 (nA ++ es) [] nS a3 hs4
      have s3 := step_trans L c c2 c4 es nA (nS ++ []) s1 s2
      simpa using s3
  | ifEndif A S _ _ ihA ihS =>
    intro c es fuel h hf
    simp only [List.length_cons, List.length_append] at hf
    obtain ⟨i1, i2, i3, i4, _⟩ := compileIf_step L hL c es h
    obtain ⟨c2, nA, hr2, hm2, hs2, hl2⟩ := ihA (compileIf L c).2 es fuel i3.1 (by omega)
    have hp := patch_step L hL c (compileIf L c).2 c2 es nA h i3 i4 hs2 (getDictionaryPtr c2)
      c.marks
    obtain ⟨c4, nS, hr4, hm4, hs4, hl4⟩ := ihS _ (nA ++ es) fuel hp.1
      (by simp only [List.length_append]; omega)
    refine ⟨c4, nS ++ nA, ?_, by rw [hm4], step_trans L c _ c4 es nA nS hp hs4,
      by simp only [List.length_append, List.length_cons]; omega⟩
    rw [runToks_cons_ok L fuel .IF _ c (compileIf L c).2 (some (compileIf L c).1)
        (by simp [Tok.run]),
      runToks_append_ok L fuel A _ _ c2 hr2,
      runToks_cons_ok L fuel .ENDIF S c2 _ _ (tokRun_endif L fuel c2 _ _ (hm2.trans i2))]
    exact hr4
  | ifElse A B S _ _ _ ihA ihB ihS =>
    intro c es fuel h hf
    simp only [List.length_cons, List.length_append] at hf
    obtain ⟨i1, i2, i3, i4, _⟩ := compileIf_step L hL c es h
    obtain ⟨c2, nA, hr2, hm2, hs2, hl2⟩ := ihA (compileIf L c).2 es fuel i3.1 (by omega)
    obtain ⟨e1, e2, e3, e4, _, _⟩ := compileElse_step L hL c2 (nA ++ es) hs2.1 (c.runtime 0) c.marks
      (hm2.trans i2)
    obtain ⟨c4, nB, hr4, hm4, hs4, hl4⟩ := ihB (compileElse L c2).2 (nA ++ es) fuel e3.1
      (by simp only [List.length_append]; omega)
    have hp := patch_step L hL c2 (compileElse L c2).2 c4 (nA ++ es) nB hs2.1 e3 e4 hs4
      (getDictionaryPtr c4) c.marks
    obtain ⟨c6, nS, hr6, hm6, hs6, hl6⟩ := ihS _ (nB ++ (nA ++ es)) fuel hp.1
      (by simp only [List.length_append]; omega)
    refine ⟨c6, nS ++ nB ++ nA, ?_, by rw [hm6], ?_,
      by simp only [List.length_append, List.length_cons]; omega⟩
    · rw [runToks_cons_ok L fuel .IF _ c (compileIf L c).2 (some (compileIf L c).1)
          (by simp [Tok.run]),
        runToks_append_ok L fuel A _ _ c2 hr2,
        runToks_cons_ok L fuel .ELSE _ c2 (compileElse L c2).2 (some (c2.runtime 0))
          (by simp [Tok.run, e1, Except.map]),
        runToks_append_ok L fuel B _ _ c4 hr4,
        runToks_cons_ok L fuel .ENDIF S c4 _ _ (tokRun_endif L fuel c4 _ _ (hm4.trans e2))]
      exact hr6
    · have s1 : Step L c c2 es nA := by
        simpa using step_trans L c _ c2 es [] nA i3 hs2
      have s2 := step_trans L c2 _ c6 (nA ++ es) nB nS hp hs6
      have s3 := step_trans L c c2 c6 es nA (nS ++ nB) s1 s2
      simpa using s3

/-! ## Sessions -/

theorem reset_eq (L : Layout) (c : Compiler) :
    reset L c =
      { runtime := setCell (setCell (setCell (setCell c.runtime 0 0) 0 L.cellSize) 0
          (L.cellSize + L.cellSize)) L.cellSize 0,
        dictionaryPtrAddr := 0, lastWordPtrAddr := L.cellSize, marks := c.marks } := by
  simp [reset, allocate, getCell, setCell_same]

theorem reset_good (L : Layout) (hL : L.WF) (c : Compiler) : Good L (reset L c) [] := by
  obtain ⟨w1, w2, w3, w4, w5, w6, w7, w8, w9, w10, w11, w12, w13⟩ := hL
  rw [reset_eq]
  refine ⟨rfl, rfl, ?_, ?_⟩
  · show 2 * L.cellSize ≤ setCell _ L.cellSize 0 0
    rw [setCell_other _ _ _ _ (by omega), setCell_same]
    omega
  · show setCell _ L.cellSize 0 L.cellSize = 0
    rw [setCell_same]

theorem reset_frontier (L : Layout) (hL : L.WF) (c : Compiler) :
    getDictionaryPtr (reset L c) = 2 * L.cellSize := by
  obtain ⟨w1, w2, w3, w4, w5, w6, w7, w8, w9, w10, w11, w12, w13⟩ := hL
  rw [reset_eq]
  show setCell _ L.cellSize 0 0 = 2 * L.cellSize
  rw [setCell_other _ _ _ _ (by omega), setCell_same]
  omega

theorem runOps_good (L : Layout) (hL : L.WF) (ops : List Op) :
    ∀ (c : Compiler) (es : List (Int × Name)) (fuel : Nat), Good L c es →
      es.length + ops.length < fuel →
      ∃ tr c2, runOps L fuel ops c = some (tr, c2) ∧ Good L c2 (recorded L tr ++ es) ∧
        c2.marks = c.marks ∧ tr.map (fun e => e.1) = ops ∧
        ∀ e ∈ tr, e.2.2 = some e.2.1 ∨ (e.2.2 = none ∧ ∃ n v, e.1 = .compileConstant n v) := by
  induction ops with
  | nil =>
    intro c es fuel h _
    exact ⟨[], c, rfl, h, rfl, rfl, by simp⟩
  | cons o os ih =>
    intro c es fuel h hf
    simp only [List.length_cons] at hf
    obtain ⟨r, c1, hr, hm1, hs1, hret⟩ := opRun_step L hL o c es h fuel (by omega)
    have hlen : (o.entries L (c.runtime 0)).length ≤ 1 := by
      unfold Op.entries; split <;> simp
    obtain ⟨tr, c2, hr2, hg2, hm2, hmap, hall⟩ := ih c1 _ fuel hs1.1
      (by simp only [List.length_append]; omega)
    refine ⟨(o, getDictionaryPtr c, r) :: tr, c2, ?_, ?_, by rw [hm2, hm1], by simp [hmap], ?_⟩
    · simp [runOps, hr, hr2]
    · have hfr : getDictionaryPtr c = c.runtime 0 := by simp [getDictionaryPtr, getCell, h.1]
      simpa [recorded, hfr, List.append_assoc] using hg2
    · intro e he
      rcases List.mem_cons.1 he with rfl | he
      · have hfr : getDictionaryPtr c = c.runtime 0 := by simp [getDictionaryPtr, getCell, h.1]
        simpa [hfr] using hret
      · exact hall e he

theorem lookup_recorded (L : Layout) (name : Name) (tr : List (Op × Int × Option Int)) :
    ∀ (es : List (Int × Name)), (∀ e ∈ tr, ∀ n, e.1.defines = some n → fits L n) →
      lookup name (recorded L tr ++ es) =
        match lastDefinition name tr with
        | some e => e.2.1
        | none => lookup name es := by
  induction tr with
  | nil => intro es _; rfl
  | cons e tr ih =>
    intro es hfit
    have ih2 := ih (e.1.entries L e.2.1 ++ es)
      (fun x hx => hfit x (List.mem_cons_of_mem _ hx))
    simp only [recorded, List.append_assoc]
    rw [ih2]
    simp only [lastDefinition, List.reverse_cons, List.find?_append]
    cases hfind : List.find? (fun x => decide (x.1.defines = some name)) tr.reverse with
    | some x => simp
    | none =>
      simp only [Option.none_or, List.find?_cons, List.find?_nil]
      cases hdef : e.1.defines with
      | none => simp [Op.entries, hdef]
      | some n =>
        have hst := stored_of_fits L n (hfit e (List.mem_cons_self _ _) n hdef)
        by_cases hn : n = name
        · subst hn
          simp [Op.entries, hdef, hst, lookup]
        · have hn2 : ¬ name = n := fun h => hn h.symm
          simp [Op.entries, hdef, hst, hn, hn2, lookup]

/-- Most recent definition wins: after any run of word-defining and appending
calls from `reset`, with names that fit the name field, `findWord` returns the
address of the entry made by the most recent call that defined the name (the
frontier that call started from), or `-1` when no call defined it; and every
call but `compileConstant` returned the frontier it started from. -/
theorem findWord_most_recent (L : Layout) (hL : L.WF) (c0 : Compiler) (ops : List Op)
    (hfit : ∀ o ∈ ops, ∀ n, o.defines = some n → fits L n) (name : Name) (fuel : Nat)
    (hf : ops.length < fuel) :
    ∃ tr c, runOps L fuel ops (reset L c0) = some (tr, c) ∧
      findWord L fuel c name =
        some (match lastDefinition name tr with
          | some e => e.2.1
          | none => -1) ∧
      ∀ e ∈ tr, e.2.2 = some e.2.1 ∨ (e.2.2 = none ∧ ∃ n v, e.1 = .compileConstant n v) := by
  obtain ⟨tr, c, hr, hg, _, hmap, hall⟩ := runOps_good L hL ops (reset L c0) [] fuel
    (reset_good L hL c0) (by simpa using hf)
  have hlen : (recorded L tr).length ≤ tr.length := by
    clear hr hg hmap hall
    induction tr with
    | nil => simp [recorded]
    | cons e tr ih =>
      have : (e.1.entries L e.2.1).length ≤ 1 := by
        unfold Op.entries; split <;> simp
      simp only [recorded, List.length_append, List.length_cons]
      omega
  have hl2 : tr.length = ops.length := by rw [← hmap]; simp
  refine ⟨tr, c, hr, ?_, hall⟩
  rw [good_findWord L hL c _ hg name fuel (by simp only [List.append_nil]; omega)]
  have hfit2 : ∀ e ∈ tr, ∀ n, e.1.defines = some n → fits L n := by
    intro e he n hn
    apply hfit e.1 _ n hn
    rw [← hmap]
    exact List.mem_map_of_mem _ he
  rw [lookup_recorded L name tr [] hfit2]
  cases lastDefinition name tr <;> rfl

/-! ## The claims -/

theorem good_frontier (L : Layout) (c : Compiler) (es : List (Int × Name)) (h : Good L c es) :
    getDictionaryPtr c = c.runtime 0 := by
  simp [getDictionaryPtr, getCell, h.1]

/-- C1, at the call where the code departs from it: after `reset`,
`compileConstant("foo", 1)` creates the entry at the frontier 16 and
`findWord("foo")` returns 16, but the call itself returns no value (its body
has no `return`), so the address found is not "the address returned by the
call that defined the name". -/
theorem compileConstant_returns_no_address :
    getDictionaryPtr (fresh layout44) = 16 ∧
    (compileConstant layout44 (fresh layout44) "foo".toList 1).1 = none ∧
    findWord layout44 2 (compileConstant layout44 (fresh layout44) "foo".toList 1).2
      "foo".toList = some 16 ∧
    (runOps layout44 2 [Op.compileConstant "foo".toList 1] (fresh layout44)).map
      (fun r => lastDefinition "foo".toList r.1) =
      some (some (Op.compileConstant "foo".toList 1, 16, none)) := by
  decide

/-- C2, early binding: in a session state, define `n` (by any defining call;
its entry lies at the frontier `a1` the call started from), compile a
reference to `n`, then define `n` again (entry at `a2`).  The reference cell
holds `{DoColon, a1}` right after `compileReference` and still does after the
second definition, while `findWord(n)` now returns `a2`, which is not `a1`. -/
theorem early_binding (L : Layout) (hL : L.WF) (c : Compiler) (es : List (Int × Name))
    (hg : Good L c es) (n : Name) (hn : fits L n) (o1 o2 : Op)
    (h1 : o1.defines = some n) (h2 : o2.defines = some n)
    (fuel : Nat) (hf : es.length + 2 < fuel) :
    ∃ r1 c1 cell c2 r2 c3,
      o1.run L fuel c = some (r1, c1) ∧
      findWord L fuel c1 n = some (getDictionaryPtr c) ∧
      compileReference L fuel c1 n = some (cell, c2) ∧
      getInstruction L c2.runtime cell = some ⟨.DoColon, getDictionaryPtr c⟩ ∧
      o2.run L fuel c2 = some (r2, c3) ∧
      getInstruction L c3.runtime cell = some ⟨.DoColon, getDictionaryPtr c⟩ ∧
      findWord L fuel c3 n = some (getDictionaryPtr c2) ∧
      getDictionaryPtr c2 ≠ getDictionaryPtr c := by
  have hw := hL
  obtain ⟨w1, w2, w3, w4, w5, w6, w7, w8, w9, w10, w11, w12, w13⟩ := hw
  have hst := stored_of_fits L n hn
  obtain ⟨r1, c1, hr1, _, hs1, _⟩ := opRun_step L hL o1 c es hg fuel (by omega)
  simp only [Op.entries, h1, hst] at hs1
  have hfw1 := good_findWord L hL c1 _ hs1.1 n fuel (by simp; omega)
  simp only [List.singleton_append, lookup, if_true] at hfw1
  obtain ⟨m1, m2, m3, m4⟩ := compileInstruction_mem L hL c1 ⟨.DoColon, c.runtime 0⟩
    hs1.1.1 hs1.1.2.2.1
  have hs2 := compileInstruction_step L hL c1 _ hs1.1 ⟨.DoColon, c.runtime 0⟩
  obtain ⟨r2, c3, hr3, _, hs3, _⟩ := opRun_step L hL o2 _ _ hs2.1 fuel (by simp; omega)
  simp only [Op.entries, h2, hst] at hs3
  have hfw3 := good_findWord L hL c3 _ hs3.1 n fuel (by simp; omega)
  simp only [List.nil_append, List.singleton_append, lookup, if_true] at hfw3
  have hf1 := hs1.1.2.2.1
  have hmono := hs1.2.2.1
  have e0 := good_frontier L c es hg
  have e2 := good_frontier L _ _ hs2.1
  refine ⟨r1, c1, c1.runtime 0, (compileInstruction L c1 ⟨.DoColon, c.runtime 0⟩).2, r2, c3,
    hr1, by rw [hfw1, e0], ?_, ?_, hr3, ?_, by rw [hfw3, e2], ?_⟩
  · simp [compileReference, hfw1, compileInstruction, allocate, getCell, hs1.1.1]
  · rw [e0]; exact getInstruction_eq L _ _ _ m2 m3
  · rw [e0]
    apply getInstruction_eq
    · rw [hs3.2.2.2 _ (by omega) (by omega) (by omega)]; exact m2
    · rw [hs3.2.2.2 _ (by omega) (by omega) (by omega)]; exact m3
  · rw [e0, e2, m1]; omega

theorem early_binding_witness :
    ∃ r1 c1 cell c2 r2 c3,
      (Op.compileStartColonWord "foo".toList).run layout44 3 (fresh layout44) = some (r1, c1) ∧
      findWord layout44 3 c1 "foo".toList = some (getDictionaryPtr (fresh layout44)) ∧
      compileReference layout44 3 c1 "foo".toList = some (cell, c2) ∧
      getInstruction layout44 c2.runtime cell =
        some ⟨.DoColon, getDictionaryPtr (fresh layout44)⟩ ∧
      (Op.compileVariable "foo".toList 7).run layout44 3 c2 = some (r2, c3) ∧
      getInstruction layout44 c3.runtime cell =
        some ⟨.DoColon, getDictionaryPtr (fresh layout44)⟩ ∧
      findWord layout44 3 c3 "foo".toList = some (getDictionaryPtr c2) ∧
      getDictionaryPtr c2 ≠ getDictionaryPtr (fresh layout44) :=
  early_binding layout44 (by decide) (fresh layout44) [] (reset_good layout44 (by decide) blank)
    "foo".toList (by decide) (Op.compileStartColonWord "foo".toList)
    (Op.compileVariable "foo".toList 7) rfl rfl 3 (by decide)

/-- C4, at a state where the code departs from it: after `reset`,
`compileIf()` puts `{ZeroBranch, 0}` at 16 and pushes the mark 16;
`compileElse()` then appends the `Branch` at 24 and leaves the frontier at
32, but the instruction at the mark still has operand 0, not 32: the
statement meant to patch it is a comma expression without a store. -/
theorem compileElse_leaves_if_unpatched :
    (compileIf layout44 (fresh layout44)).1 = 16 ∧
    (compileIf layout44 (fresh layout44)).2.marks = [16] ∧
    (compileElse layout44 (compileIf layout44 (fresh layout44)).2).1 = .ok 24 ∧
    getDictionaryPtr (compileElse layout44 (compileIf layout44 (fresh layout44)).2).2 = 32 ∧
    getInstruction layout44
      (compileElse layout44 (compileIf layout44 (fresh layout44)).2).2.runtime 16 =
      some ⟨.ZeroBranch, 0⟩ := by
  decide

theorem getInstruction_patch (L : Layout) (m m2 : Memory) (a v : Int) (i : Instruction)
    (h : getInstruction L m a = some i) (h1 : m2 a = m a) (h2 : m2 (a + L.dataOff) = v) :
    getInstruction L m2 a = some ⟨i.opcode, v⟩ := by
  unfold getInstruction at h ⊢
  rw [h1, h2]
  cases ho : OpCode.ofInt (m a) with
  | none => simp [ho] at h
  | some o =>
    simp only [ho, Option.map_some'] at h ⊢
    cases h
    rfl

theorem endif_after_body (L : Layout) (hL : L.WF) (c1 : Compiler) (es1 : List (Int × Name))
    (hg1 : Good L c1 es1) (f : Int) (ms : List Int) (o : OpCode)
    (hm : c1.marks = f :: ms) (hlo : 2 * L.cellSize ≤ f) (hhi : f + L.cellSize ≤ c1.runtime 0)
    (hop : c1.runtime f = o.toInt)
    (A : List Tok) (hA : WellFormed A) (fuel : Nat) (hf : es1.length + A.length < fuel) :
    ∃ g2, runToks L fuel (A ++ [Tok.ENDIF]) c1 = some (.ok (), g2) ∧
      getInstruction L g2.runtime f = some ⟨o, getDictionaryPtr g2⟩ ∧ g2.marks = ms := by
  have hw := hL
  obtain ⟨w1, w2, w3, w4, w5, w6, w7, w8, w9, w10, w11, w12, w13⟩ := hw
  obtain ⟨cA, new, hr, hmA, hs, _⟩ := runToks_balanced L hL A hA c1 es1 fuel hg1 hf
  have e1 := good_frontier L cA _ hs.1
  refine ⟨{ cA with
    marks := ms, runtime := setCell cA.runtime (f + L.dataOff) (getDictionaryPtr cA) },
    ?_, ?_, rfl⟩
  · rw [runToks_append_ok L fuel A _ c1 cA hr,
      runToks_cons_ok L fuel .ENDIF [] cA _ _ (tokRun_endif L fuel cA f ms (hmA.trans hm))]
    rfl
  · have hfr : getDictionaryPtr { cA with
        marks := ms, runtime := setCell cA.runtime (f + L.dataOff) (getDictionaryPtr cA) } =
        getDictionaryPtr cA := by
      show getCell (setCell cA.runtime (f + L.dataOff) (getDictionaryPtr cA))
        cA.dictionaryPtrAddr = _
      rw [hs.1.1, getCell, setCell_other _ _ _ _ (by omega), e1]
    rw [hfr]
    apply getInstruction_eq
    · show setCell cA.runtime (f + L.dataOff) (getDictionaryPtr cA) f = o.toInt
      rw [setCell_other _ _ _ _ (by omega), hs.2.2.2 f (by omega) (by omega) (by omega), hop]
    · show setCell cA.runtime (f + L.dataOff) (getDictionaryPtr cA) (f + L.dataOff) = _
      rw [setCell_same]

/-- C5: `compileEndif` on a state whose top mark `m` addresses an instruction
cell (a cell not laid over the frontier cell) pops `m`, returns it, stores the
current frontier as the operand of the instruction at `m`, keeps its opcode
and leaves the frontier where it was.  Hence, in a session state and for
well-formed `A` and `B`: after `IF A ENDIF` the `ZeroBranch` compiled by
`compileIf` (at the frontier the construct started from) has the final
frontier as operand, and after `IF A ELSE B ENDIF` the `Branch` compiled by
`compileElse` (at the frontier reached after `IF A`) has the final frontier
as operand. -/
theorem compileEndif_resolves_forward_branch (L : Layout) (hL : L.WF)
    (c : Compiler) (m : Int) (ms : List Int) (i : Instruction)
    (hm : c.marks = m :: ms) (hi : getInstruction L c.runtime m = some i)
    (hsep : m + L.dataOff ≠ c.dictionaryPtrAddr)
    (g : Compiler) (es : List (Int × Name)) (hg : Good L g es)
    (A B : List Tok) (hA : WellFormed A) (hB : WellFormed B)
    (fuel : Nat) (hf : es.length + A.length + B.length < fuel) :
    (∃ c2, compileEndif L c = (.ok m, c2) ∧ c2.marks = ms ∧
      getInstruction L c2.runtime m = some ⟨i.opcode, getDictionaryPtr c⟩ ∧
      getDictionaryPtr c2 = getDictionaryPtr c) ∧
    (∃ g2, runToks L fuel (Tok.IF :: (A ++ [Tok.ENDIF])) g = some (.ok (), g2) ∧
      getInstruction L g2.runtime (getDictionaryPtr g) =
        some ⟨.ZeroBranch, getDictionaryPtr g2⟩ ∧ g2.marks = g.marks) ∧
    (∃ gA g2, runToks L fuel (Tok.IF :: A) g = some (.ok (), gA) ∧
      runToks L fuel (Tok.IF :: (A ++ Tok.ELSE :: (B ++ [Tok.ENDIF]))) g = some (.ok (), g2) ∧
      getInstruction L g2.runtime (getDictionaryPtr gA) =
        some ⟨.Branch, getDictionaryPtr g2⟩ ∧ g2.marks = g.marks) := by
  have hw := hL
  obtain ⟨w1, w2, w3, w4, w5, w6, w7, w8, w9, w10, w11, w12, w13⟩ := hw
  have e0 := good_frontier L g es hg
  have g3 := hg.2.2.1
  obtain ⟨i1, i2, i3, i4, _⟩ := compileIf_step L hL g es hg
  obtain ⟨z1, z2, z3, z4⟩ := compileInstruction_mem L hL (pushMark g (getDictionaryPtr g))
    (Instruction.ofOpCode .ZeroBranch) hg.1 hg.2.2.1
  have hif : Tok.IF.run L fuel g = some (.ok (some (compileIf L g).1), (compileIf L g).2) := by
    simp [Tok.run]
  refine ⟨?_, ?_, ?_⟩
  · refine ⟨_, compileEndif_eq L c m ms hm, rfl, ?_, ?_⟩
    · apply getInstruction_patch L c.runtime _ m _ i hi
      · show setCell c.runtime (m + L.dataOff) (getDictionaryPtr c) m = c.runtime m
        rw [setCell_other _ _ _ _ (by omega)]
      · show setCell c.runtime (m + L.dataOff) (getDictionaryPtr c) (m + L.dataOff) = _
        rw [setCell_same]
    · show getCell (setCell c.runtime (m + L.dataOff) (getDictionaryPtr c))
        c.dictionaryPtrAddr = _
      rw [getCell, setCell_other _ _ _ _ (fun h => hsep h.symm)]
      rfl
  · obtain ⟨g2, hr, hins, hmk⟩ := endif_after_body L hL (compileIf L g).2 es i3.1 (g.runtime 0)
      g.marks .ZeroBranch i2 g3 (by omega) z2 A hA fuel (by omega)
    refine ⟨g2, ?_, by rw [e0]; exact hins, hmk⟩
    rw [runToks_cons_ok L fuel .IF _ g _ _ hif]
    exact hr
  · obtain ⟨cA, nA, hrA, hmA, hsA, hlA⟩ := runToks_balanced L hL A hA (compileIf L g).2 es fuel
      i3.1 (by omega)
    obtain ⟨l1, l2, l3, l4, _, _⟩ := compileElse_step L hL cA (nA ++ es) hsA.1 (g.runtime 0)
      g.marks (hmA.trans i2)
    obtain ⟨y1, y2, y3, y4⟩ := compileInstruction_mem L hL
      { cA with marks := cA.runtime 0 :: g.marks } (Instruction.ofOpCode .Branch)
      hsA.1.1 hsA.1.2.2.1
    have hel : (compileElse L cA).2 = (compileInstruction L
        { cA with marks := cA.runtime 0 :: g.marks } (Instruction.ofOpCode .Branch)).2 := by
      simp [compileElse, popMark, hmA.trans i2, pushMark, getDictionaryPtr, getCell, hsA.1.1]
    have gA3 := hsA.1.2.2.1
    obtain ⟨g2, hr, hins, hmk⟩ := endif_after_body L hL (compileElse L cA).2 (nA ++ es) l3.1
      (cA.runtime 0) g.marks .Branch l2 gA3 (by omega) (by rw [hel]; exact y2) B hB fuel
      (by simp only [List.length_append]; omega)
    refine ⟨cA, g2, ?_, ?_, by rw [good_frontier L cA _ hsA.1]; exact hins, hmk⟩
    · rw [runToks_cons_ok L fuel .IF _ g _ _ hif]
      exact hrA
    · rw [runToks_cons_ok L fuel .IF _ g _ _ hif, runToks_append_ok L fuel A _ _ cA hrA,
        runToks_cons_ok L fuel .ELSE _ cA (compileElse L cA).2 (some (cA.runtime 0))
          (by simp [Tok.run, l1, Except.map])]
      exact hr

theorem compileEndif_resolves_forward_branch_witness :
    (∃ c2, compileEndif layout44 (compileIf layout44 (fresh layout44)).2 = (.ok 16, c2) ∧
      c2.marks = [] ∧
      getInstruction layout44 c2.runtime 16 =
        some ⟨.ZeroBranch, getDictionaryPtr (compileIf layout44 (fresh layout44)).2⟩ ∧
      getDictionaryPtr c2 = getDictionaryPtr (compileIf layout44 (fresh layout44)).2) ∧
    (∃ g2, runToks layout44 3 (Tok.IF :: ([Tok.op (Op.compileLiteral 1)] ++ [Tok.ENDIF]))
        (fresh layout44) = some (.ok (), g2) ∧
      getInstruction layout44 g2.runtime (getDictionaryPtr (fresh layout44)) =
        some ⟨.ZeroBranch, getDictionaryPtr g2⟩ ∧ g2.marks = (fresh layout44).marks) ∧
    (∃ gA g2, runToks layout44 3 (Tok.IF :: [Tok.op (Op.compileLiteral 1)]) (fresh layout44) =
        some (.ok (), gA) ∧
      runToks layout44 3 (Tok.IF :: ([Tok.op (Op.compileLiteral 1)] ++
        Tok.ELSE :: ([Tok.op (Op.compileLiteral 2)] ++ [Tok.ENDIF]))) (fresh layout44) =
        some (.ok (), g2) ∧
      getInstruction layout44 g2.runtime (getDictionaryPtr gA) =
        some ⟨.Branch, getDictionaryPtr g2⟩ ∧ g2.marks = (fresh layout44).marks) :=
  compileEndif_resolves_forward_branch layout44 (by decide)
    (compileIf layout44 (fresh layout44)).2 16 [] ⟨.ZeroBranch, 0⟩ (by decide) (by decide)
    (by decide) (fresh layout44) [] (reset_good layout44 (by decide) blank)
    [Tok.op (Op.compileLiteral 1)] [Tok.op (Op.compileLiteral 2)]
    (WellFormed.op _ _ WellFormed.empty) (WellFormed.op _ _ WellFormed.empty) 3 (by decide)

theorem opRun_marks (L : Layout) (fuel : Nat) (o : Op) (c c2 : Compiler) (r : Option Int)
    (h : o.run L fuel c = some (r, c2)) : c2.marks = c.marks := by
  cases o <;> simp only [Op.run, Option.some.injEq] at h
  case compileReference n =>
    simp only [compileReference, Option.map_map, Option.map_eq_some'] at h
    obtain ⟨w, _, hw⟩ := h
    simp only [Function.comp, Prod.mk.injEq] at hw
    rw [← hw.2]; rfl
  all_goals (have h2 : _ = c2 := congrArg Prod.snd h; rw [← h2]; rfl)

theorem compileAgain_marks (L : Layout) (c : Compiler) (b : Int) (ms : List Int)
    (hm : c.marks = b :: ms) :
    ∃ a c2, compileAgain L c = (.ok a, c2) ∧ c2.marks = ms := by
  refine ⟨(compileInstruction L { c with marks := ms } ⟨.Branch, b⟩).1,
    (compileInstruction L { c with marks := ms } ⟨.Branch, b⟩).2, ?_, rfl⟩
  simp [compileAgain, popMark, hm]

theorem compileElse_marks (L : Layout) (c : Compiler) (b : Int) (ms : List Int)
    (hm : c.marks = b :: ms) :
    ∃ a c2, compileElse L c = (.ok a, c2) ∧ c2.marks = getDictionaryPtr c :: ms := by
  refine ⟨(compileInstruction L (pushMark { c with marks := ms } (getDictionaryPtr c))
      (Instruction.ofOpCode .Branch)).1,
    (compileInstruction L (pushMark { c with marks := ms } (getDictionaryPtr c))
      (Instruction.ofOpCode .Branch)).2, ?_, rfl⟩
  simp [compileElse, popMark, hm]
  exact ⟨rfl, rfl⟩

theorem runToks_marks (L : Layout) (fuel : Nat) (S : List Tok) (hS : WellFormed S) :
    ∀ (c : Compiler) (r : Except CompileError Unit × Compiler),
      runToks L fuel S c = some r → r.1 = .ok () ∧ r.2.marks = c.marks := by
  induction hS with
  | empty =>
    intro c r h
    simp only [runToks, Option.some.injEq] at h
    rw [← h]; exact ⟨rfl, rfl⟩
  | op o S _ ih =>
    intro c r h
    cases ho : o.run L fuel c with
    | none => simp [runToks, Tok.run, ho] at h
    | some x =>
      obtain ⟨v, c1⟩ := x
      rw [runToks_cons_ok L fuel (.op o) S c c1 v (by simp [Tok.run, ho])] at h
      have := ih c1 r h
      rw [opRun_marks L fuel o c c1 v ho] at this
      exact this
  | loop A S _ _ ihA ihS =>
    intro c r h
    rw [runToks_cons_ok L fuel .BEGIN _ c (compileBegin c).2 (some (compileBegin c).1)
      (by simp [Tok.run]), runToks_append] at h
    cases hA : runToks L fuel A (compileBegin c).2 with
    | none => simp [hA] at h
    | some x =>
      obtain ⟨v, cA⟩ := x
      have hx := ihA _ _ hA
      simp only at hx
      obtain ⟨hv, hmA⟩ := hx
      subst hv
      simp only [hA] at h
      obtain ⟨a, c3, hag, hm3⟩ := compileAgain_marks L cA (getDictionaryPtr c) c.marks hmA
      rw [runToks_cons_ok L fuel .AGAIN S cA c3 (some a) (by simp [Tok.run, hag, Except.map])] at h
      have := ihS c3 r h
      rw [hm3] at this
      exact this
  | ifEndif A S _ _ ihA ihS =>
    intro c r h
    rw [runToks_cons_ok L fuel .IF _ c (compileIf L c).2 (some (compileIf L c).1)
      (by simp [Tok.run]), runToks_append] at h
    cases hA : runToks L fuel A (compileIf L c).2 with
    | none => simp [hA] at h
    | some x =>
      obtain ⟨v, cA⟩ := x
      have hx := ihA _ _ hA
      simp only at hx
      obtain ⟨hv, hmA⟩ := hx
      subst hv
      simp only [hA] at h
      have hmA2 : cA.marks = getDictionaryPtr c :: c.marks := hmA
      rw [runToks_cons_ok L fuel .ENDIF S cA _ _ (tokRun_endif L fuel cA _ _ hmA2)] at h
      have hfin := ihS _ r h
      exact hfin
  | ifElse A B S _ _ _ ihA ihB ihS =>
    intro c r h
    rw [runToks_cons_ok L fuel .IF _ c (compileIf L c).2 (some (compileIf L c).1)
      (by simp [Tok.run]), runToks_append] at h
    cases hA : runToks L fuel A (compileIf L c).2 with
    | none => simp [hA] at h
    | some x =>
      obtain ⟨v, cA⟩ := x
      have hx := ihA _ _ hA
      simp only at hx
      obtain ⟨hv, hmA⟩ := hx
      subst hv
      simp only [hA] at h
      have hmA2 : cA.marks = getDictionaryPtr c :: c.marks := hmA
      obtain ⟨a, c3, hel, hm3⟩ := compileElse_marks L cA _ _ hmA2
      rw [runToks_cons_ok L fuel .ELSE _ cA c3 (some a) (by simp [Tok.run, hel, Except.map]),
        runToks_append] at h
      cases hB : runToks L fuel B c3 with
      | none => simp [hB] at h
      | some y =>
        obtain ⟨u, cB⟩ := y
        have hy := ihB _ _ hB
        simp only at hy
        obtain ⟨hu, hmB⟩ := hy
        subst hu
        simp only [hB] at h
        rw [runToks_cons_ok L fuel .ENDIF S cB _ _ (tokRun_endif L fuel cB _ _ (hmB.trans hm3))]
          at h
        have hfin := ihS _ r h
        exact hfin

/-- C9, balanced nesting: a well-formed program run from any state never pops
an empty mark stack (no call of the run fails), and when the run ends the
mark stack is the one it started with, so an empty stack ends empty.  From a
session state the run does end, given enough loop iterations for the
`findWord` calls it makes. -/
theorem balanced_nesting (L : Layout) (S : List Tok) (hS : WellFormed S) (c : Compiler)
    (fuel : Nat) :
    (∀ r, runToks L fuel S c = some r → r.1 = .ok () ∧ r.2.marks = c.marks) ∧
    (∀ e c2, runToks L fuel S c ≠ some (.error e, c2)) ∧
    (∀ es, L.WF → Good L c es → es.length + S.length < fuel →
      ∃ c2, runToks L fuel S c = some (.ok (), c2) ∧ c2.marks = c.marks) := by
  refine ⟨runToks_marks L fuel S hS c, ?_, ?_⟩
  · intro e c2 h
    have := (runToks_marks L fuel S hS c _ h).1
    cases this
  · intro es hL hg hf
    obtain ⟨c2, _, hr, hm, _, _⟩ := runToks_balanced L hL S hS c es fuel hg hf
    exact ⟨c2, hr, hm⟩

theorem balanced_nesting_witness :
    ∃ c2, runToks layout44 8
        [Tok.IF, Tok.BEGIN, Tok.op (Op.compileLiteral 1), Tok.AGAIN, Tok.ELSE,
          Tok.op (Op.compileReference "x".toList), Tok.ENDIF] (fresh layout44) =
        some (.ok (), c2) ∧ c2.marks = (fresh layout44).marks :=
  (balanced_nesting layout44 _
    (WellFormed.ifElse [Tok.BEGIN, Tok.op (Op.compileLiteral 1), Tok.AGAIN]
      [Tok.op (Op.compileReference "x".toList)] []
      (WellFormed.loop [Tok.op (Op.compileLiteral 1)] []
        (WellFormed.op _ _ WellFormed.empty) WellFormed.empty)
      (WellFormed.op _ _ WellFormed.empty) WellFormed.empty)
    (fresh layout44) 8).2.2 [] (by decide) (reset_good layout44 (by decide) blank) (by decide)

/-- C10: with an empty mark stack, `compileEndif`, `compileAgain` and
`compileElse` fail with `UnbalancedControlFlow` and leave the compiler state
as it was: no instruction is appended and no cell of the image is patched. -/
theorem control_flow_on_empty_stack (L : Layout) (c : Compiler) (h : c.marks = []) :
    compileEndif L c = (.error .UnbalancedControlFlow, c) ∧
    compileAgain L c = (.error .UnbalancedControlFlow, c) ∧
    compileElse L c = (.error .UnbalancedControlFlow, c) := by
  simp [compileEndif, compileAgain, compileElse, popMark, h]

theorem control_flow_on_empty_stack_witness :
    (fresh layout44).marks = [] ∧
    compileEndif layout44 (fresh layout44) = (.error .UnbalancedControlFlow, fresh layout44) ∧
    compileAgain layout44 (fresh layout44) = (.error .UnbalancedControlFlow, fresh layout44) ∧
    compileElse layout44 (fresh layout44) = (.error .UnbalancedControlFlow, fresh layout44) :=
  ⟨rfl, control_flow_on_empty_stack layout44 (fresh layout44) rfl⟩

/-! ## Any sequence of calls -/

theorem opRun_mem (L : Layout) (hL : L.WF) (o : Op) (c c2 : Compiler) (r : Option Int)
    (fuel : Nat) (hb : Booted L c) (h : o.run L fuel c = some (r, c2)) :
    c2.dictionaryPtrAddr = 0 ∧ c2.lastWordPtrAddr = L.cellSize ∧ c2.marks = c.marks ∧
    c.runtime 0 + L.dataOff < c2.runtime 0 ∧
    (∀ k, k < c.runtime 0 → k ≠ 0 → k ≠ L.cellSize → c2.runtime k = c.runtime k) ∧
    (r = some (c.runtime 0) ∨ (r = none ∧ ∃ n v, o = .compileConstant n v)) ∧
    (o.defines = none → c2.runtime L.cellSize = c.runtime L.cellSize) ∧
    (∀ n, o.defines = some n →
      c2.runtime L.cellSize = c.runtime 0 ∧
      c2.runtime (c.runtime 0 + L.prevOff) = c.runtime L.cellSize ∧
      c.runtime 0 + L.wordSize ≤ c2.runtime 0) := by
  have hw := hL
  obtain ⟨w1, w2, w3, w4, w5, w6, w7, w8, w9, w10, w11, w12, w13⟩ := hw
  obtain ⟨hd, hl, hf⟩ := hb
  have hcw : ∀ (n : Name) (i : Instruction),
      (createWord L c n i).1 = c.runtime 0 ∧
      (createWord L c n i).2.dictionaryPtrAddr = 0 ∧
      (createWord L c n i).2.lastWordPtrAddr = L.cellSize ∧
      (createWord L c n i).2.marks = c.marks ∧
      c.runtime 0 + L.dataOff < (createWord L c n i).2.runtime 0 ∧
      (∀ k, k < c.runtime 0 → k ≠ 0 → k ≠ L.cellSize →
        (createWord L c n i).2.runtime k = c.runtime k) ∧
      (createWord L c n i).2.runtime L.cellSize = c.runtime 0 ∧
      (createWord L c n i).2.runtime (c.runtime 0 + L.prevOff) = c.runtime L.cellSize ∧
      c.runtime 0 + L.wordSize ≤ (createWord L c n i).2.runtime 0 := by
    intro n i
    obtain ⟨m1, m2, m3, _, _, _, m7⟩ := createWord_mem L hL c n i hd hl hf
    exact ⟨by simp [createWord, allocate, getCell, hd], hd, hl, rfl, by omega,
      fun k hk h0 hcs => m7 k (Or.inl hk) h0 hcs, m2, m3, by omega⟩
  have hci : ∀ (i : Instruction),
      (compileInstruction L c i).1 = c.runtime 0 ∧
      c.runtime 0 + L.dataOff < (compileInstruction L c i).2.runtime 0 ∧
      (∀ k, k < c.runtime 0 → k ≠ 0 →
        (compileInstruction L c i).2.runtime k = c.runtime k) := by
    intro i
    obtain ⟨m1, _, _, m4⟩ := compileInstruction_mem L hL c i hd hf
    exact ⟨by simp [compileInstruction, allocate, getCell, hd], by omega,
      fun k hk h0 => m4 k (Or.inl hk) h0⟩
  cases o with
  | createWord n i =>
    simp only [Op.run, Option.some.injEq, Prod.mk.injEq] at h
    obtain ⟨rfl, rfl⟩ := h
    obtain ⟨a1, a2, a3, a4, a5, a6, a7, a8, a9⟩ := hcw n i
    exact ⟨a2, a3, a4, a5, a6, Or.inl (by rw [a1]), by simp [Op.defines],
      fun _ _ => ⟨a7, a8, a9⟩⟩
  | compileWord1 n =>
    simp only [Op.run, Option.some.injEq, Prod.mk.injEq] at h
    obtain ⟨rfl, rfl⟩ := h
    obtain ⟨a1, a2, a3, a4, a5, a6, a7, a8, a9⟩ := hcw n ⟨.INVALID, 0⟩
    exact ⟨a2, a3, a4, a5, a6, Or.inl (by rw [← a1]; rfl), by simp [Op.defines],
      fun _ _ => ⟨a7, a8, a9⟩⟩
  | compileWord3 n op v =>
    simp only [Op.run, Option.some.injEq, Prod.mk.injEq] at h
    obtain ⟨rfl, rfl⟩ := h
    obtain ⟨a1, a2, a3, a4, a5, a6, a7, a8, a9⟩ := hcw n ⟨op, v⟩
    exact ⟨a2, a3, a4, a5, a6, Or.inl (by rw [← a1]; rfl), by simp [Op.defines],
      fun _ _ => ⟨a7, a8, a9⟩⟩
  | compileWord n i =>
    simp only [Op.run, Option.some.injEq, Prod.mk.injEq] at h
    obtain ⟨rfl, rfl⟩ := h
    obtain ⟨a1, a2, a3, a4, a5, a6, a7, a8, a9⟩ := hcw n i
    exact ⟨a2, a3, a4, a5, a6, Or.inl (by rw [← a1]; rfl), by simp [Op.defines],
      fun _ _ => ⟨a7, a8, a9⟩⟩
  | compileInstruction i =>
    simp only [Op.run, Option.some.injEq, Prod.mk.injEq] at h
    obtain ⟨rfl, rfl⟩ := h
    obtain ⟨a1, a2, a3⟩ := hci i
    exact ⟨hd, hl, rfl, a2, fun k hk h0 _ => a3 k hk h0, Or.inl (by rw [a1]),
      fun _ => a3 _ (by omega) (by omega), by simp [Op.defines]⟩
  | compileLiteral v =>
    simp only [Op.run, Option.some.injEq, Prod.mk.injEq] at h
    obtain ⟨rfl, rfl⟩ := h
    obtain ⟨a1, a2, a3⟩ := hci ⟨.DoLit, v⟩
    exact ⟨hd, hl, rfl, a2, fun k hk h0 _ => a3 k hk h0, Or.inl (by rw [← a1]; rfl),
      fun _ => a3 _ (by omega) (by omega), by simp [Op.defines]⟩
  | compileData v =>
    simp only [Op.run, Option.some.injEq, Prod.mk.injEq] at h
    obtain ⟨rfl, rfl⟩ := h
    obtain ⟨m1, _, m4⟩ := compileData_mem L hL c v hd hf
    exact ⟨hd, hl, rfl, by omega, fun k hk h0 _ => m4 k (by omega) h0,
      Or.inl (by simp [compileData, allocate, getCell, hd]),
      fun _ => m4 _ (by omega) (by omega), by simp [Op.defines]⟩
  | compileVariable n v =>
    simp only [Op.run, Option.some.injEq, Prod.mk.injEq] at h
    obtain ⟨rfl, rfl⟩ := h
    obtain ⟨m1, m2, m3, _, _, _, m7⟩ := compileVariable_mem L hL c n v hd hl hf
    exact ⟨hd, hl, rfl, by omega, fun k hk h0 hcs => m7 k (Or.inl hk) h0 hcs,
      Or.inl (by simp [compileVariable, createWord1, createWord, allocate, getCell, hd]),
      by simp [Op.defines], fun _ _ => ⟨m2, m3, by omega⟩⟩
  | compileConstant n v =>
    simp only [Op.run, Option.some.injEq] at h
    have h1 : none = r := congrArg Prod.fst h
    have h2 : (createWord L c n ⟨.DoConstant, v⟩).2 = c2 := congrArg Prod.snd h
    subst h1 h2
    obtain ⟨a1, a2, a3, a4, a5, a6, a7, a8, a9⟩ := hcw n ⟨.DoConstant, v⟩
    exact ⟨a2, a3, a4, a5, a6, Or.inr ⟨rfl, n, v, rfl⟩, by simp [Op.defines],
      fun _ _ => ⟨a7, a8, a9⟩⟩
  | compileStartColonWord n =>
    simp only [Op.run, Option.some.injEq, Prod.mk.injEq] at h
    obtain ⟨rfl, rfl⟩ := h
    obtain ⟨m1, m2, m3, _, _, m7⟩ := compileStartColonWord_mem L hL c n hd hl hf
    exact ⟨hd, hl, rfl, by omega, fun k hk h0 hcs => m7 k (Or.inl hk) h0 hcs,
      Or.inl (by simp [compileStartColonWord, createWord1, createWord, allocate, getCell, hd]),
      by simp [Op.defines], fun _ _ => ⟨m2, m3, by omega⟩⟩
  | compileReference n =>
    simp only [Op.run, compileReference, Option.map_map, Option.map_eq_some'] at h
    obtain ⟨w, _, hw⟩ := h
    simp only [Function.comp, Prod.mk.injEq] at hw
    obtain ⟨rfl, rfl⟩ := hw
    obtain ⟨a1, a2, a3⟩ := hci ⟨.DoColon, w⟩
    exact ⟨hd, hl, rfl, a2, fun k hk h0 _ => a3 k hk h0, Or.inl (by rw [a1]),
      fun _ => a3 _ (by omega) (by omega), by simp [Op.defines]⟩
  | compileEndWord =>
    simp only [Op.run, Option.some.injEq, Prod.mk.injEq] at h
    obtain ⟨rfl, rfl⟩ := h
    obtain ⟨a1, a2, a3⟩ := hci (Instruction.ofOpCode .DoSemicolon)
    exact ⟨hd, hl, rfl, a2, fun k hk h0 _ => a3 k hk h0, Or.inl (by rw [← a1]; rfl),
      fun _ => a3 _ (by omega) (by omega), by simp [Op.defines]⟩

theorem reset_booted (L : Layout) (hL : L.WF) (c : Compiler) : Booted L (reset L c) :=
  let h := reset_good L hL c
  ⟨h.1, h.2.1, h.2.2.1⟩

theorem booted_frontier (L : Layout) (c : Compiler) (h : Booted L c) :
    getDictionaryPtr c = c.runtime 0 := by
  simp [getDictionaryPtr, getCell, h.1]

theorem lookup_found (name : Name) (es : List (Int × Name)) :
    (lookup name es = -1 ∧ ∀ e ∈ es, e.2 ≠ name) ∨
    (∃ e ∈ es, e.2 = name ∧ lookup name es = e.1) := by
  induction es with
  | nil => left; exact ⟨rfl, by simp⟩
  | cons e es ih =>
    by_cases hn : name = e.2
    · right
      exact ⟨e, List.mem_cons_self _ _, hn.symm, by simp [lookup, hn]⟩
    · rcases ih with ⟨h1, h2⟩ | ⟨x, hx, hx2, hx3⟩
      · left
        refine ⟨by simp [lookup, hn, h1], ?_⟩
        intro y hy
        rcases List.mem_cons.1 hy with rfl | hy
        · exact fun h => hn h.symm
        · exact h2 y hy
      · right
        exact ⟨x, List.mem_cons_of_mem _ hx, hx2, by simp [lookup, hn, hx3]⟩

theorem recorded_length (L : Layout) (tr : List (Op × Int × Option Int)) :
    (recorded L tr).length ≤ tr.length := by
  induction tr with
  | nil => simp [recorded]
  | cons e tr ih =>
    have : (e.1.entries L e.2.1).length ≤ 1 := by
      unfold Op.entries; split <;> simp
    simp only [recorded, List.length_append, List.length_cons]
    omega

theorem mem_recorded (L : Layout) (name : Name) (tr : List (Op × Int × Option Int)) :
    (∃ x ∈ recorded L tr, x.2 = name) ↔
      ∃ e ∈ tr, ∃ n, e.1.defines = some n ∧ stored L n = name := by
  induction tr with
  | nil => simp [recorded]
  | cons e tr ih =>
    constructor
    · rintro ⟨x, hx, hx2⟩
      simp only [recorded, List.mem_append] at hx
      rcases hx with hx | hx
      · obtain ⟨y, hy, hy2⟩ := ih.1 ⟨x, hx, hx2⟩
        exact ⟨y, List.mem_cons_of_mem _ hy, hy2⟩
      · refine ⟨e, List.mem_cons_self _ _, ?_⟩
        cases hdef : e.1.defines with
        | none => simp [Op.entries, hdef] at hx
        | some n =>
          simp only [Op.entries, hdef, List.mem_singleton] at hx
          rw [hx] at hx2
          exact ⟨n, rfl, hx2⟩
    · rintro ⟨y, hy, n, hy2, hy3⟩
      rcases List.mem_cons.1 hy with rfl | hy
      · refine ⟨(y.2.1, stored L n), ?_, hy3⟩
        simp [recorded, Op.entries, hy2]
      · obtain ⟨x, hx, hx2⟩ := ih.2 ⟨y, hy, n, hy2, hy3⟩
        exact ⟨x, by simp only [recorded, List.mem_append]; exact Or.inl hx, hx2⟩

/-- C14 fails on the code: after the constructor and `createWord` with a name
of 40 characters `a` (the name field holds the count and 31 characters),
`findWord` returns -1 for the name that was defined, and returns the entry's
address 16 for the name of 31 characters `a`, which no call defined. -/
theorem findWord_misses_long_name :
    findWord layout44 2 (createWord1 layout44 (fresh layout44) (List.replicate 40 'a')).2
      (List.replicate 40 'a') = some (-1) ∧
    findWord layout44 2 (createWord1 layout44 (fresh layout44) (List.replicate 40 'a')).2
      (List.replicate 31 'a') = some 16 := by
  decide

/-- C14 as amended: right after `reset`, `findWord` returns -1 for every
name.  After any run of word-defining and appending calls, `findWord(n)`
returns -1 exactly when no call of the run defined a name whose stored form
(the name cut to the `nameCap - 1` characters that fit the name field) is `n`;
when every defined name fits the name field, that is: exactly when no call of
the run defined `n`.  An address that is not the sentinel is not 0 either and
lies behind the bootstrap cells.  The state after `findWord` is the state
before it: no cell and no mark changes. -/
theorem findWord_sentinel (L : Layout) (hL : L.WF) (c0 : Compiler) (ops : List Op)
    (name : Name) (fuel : Nat) (hf : ops.length < fuel) :
    findWordCall L fuel (reset L c0) name = some (-1, reset L c0) ∧
    ∃ tr c a, runOps L fuel ops (reset L c0) = some (tr, c) ∧
      findWordCall L fuel c name = some (a, c) ∧
      (a = -1 ↔ ∀ o ∈ ops, ∀ n, o.defines = some n → stored L n ≠ name) ∧
      ((∀ o ∈ ops, ∀ n, o.defines = some n → fits L n) →
        (a = -1 ↔ ∀ o ∈ ops, o.defines ≠ some name)) ∧
      (a ≠ -1 → a ≠ 0 ∧ 2 * L.cellSize ≤ a) ∧
      ∀ a2 c2, findWordCall L fuel c name = some (a2, c2) →
        c2.runtime = c.runtime ∧ c2.marks = c.marks := by
  have hw := hL
  obtain ⟨w1, w2, w3, w4, w5, w6, w7, w8, w9, w10, w11, w12, w13⟩ := hw
  have h0 := good_findWord L hL _ [] (reset_good L hL c0) name fuel (by simp; omega)
  refine ⟨by simp [findWordCall, h0, lookup], ?_⟩
  obtain ⟨tr, c, hr, hg, _, hmap, _⟩ := runOps_good L hL ops (reset L c0) [] fuel
    (reset_good L hL c0) (by simpa using hf)
  have hlen := recorded_length L tr
  have hl2 : tr.length = ops.length := by rw [← hmap]; simp
  simp only [List.append_nil] at hg
  have hfw := good_findWord L hL c _ hg name fuel (by omega)
  have hbd := chain_bound L c.runtime _ _ _ hg.2.2.2 (by omega)
  have hmem := mem_recorded L name tr
  have hops : (∃ e ∈ tr, ∃ n, e.1.defines = some n ∧ stored L n = name) ↔
      ∃ o ∈ ops, ∃ n, o.defines = some n ∧ stored L n = name := by
    rw [← hmap]
    constructor
    · rintro ⟨e, he, he2⟩
      exact ⟨e.1, List.mem_map_of_mem _ he, he2⟩
    · rintro ⟨o, ho, ho2⟩
      obtain ⟨e, he, rfl⟩ := List.mem_map.1 ho
      exact ⟨e, he, ho2⟩
  have hiff : lookup name (recorded L tr) = -1 ↔
      ∀ o ∈ ops, ∀ n, o.defines = some n → stored L n ≠ name := by
    rcases lookup_found name (recorded L tr) with ⟨h1, h2⟩ | ⟨x, hx, hx2, hx3⟩
    · refine ⟨fun _ o ho n hdef hst => ?_, fun _ => h1⟩
      obtain ⟨y, hy, hy2⟩ := hmem.2 (hops.2 ⟨o, ho, n, hdef, hst⟩)
      exact h2 y hy hy2
    · have := hbd x hx
      constructor
      · intro h; omega
      · intro h
        obtain ⟨o, ho, n, ho2, ho3⟩ := hops.1 (hmem.1 ⟨x, hx, hx2⟩)
        exact absurd ho3 (h o ho n ho2)
  refine ⟨tr, c, lookup name (recorded L tr), hr, by simp [findWordCall, hfw], hiff, ?_, ?_, ?_⟩
  · intro hfit
    rw [hiff]
    constructor
    · intro h o ho hdef
      exact h o ho name hdef (stored_of_fits L name (hfit o ho name hdef))
    · intro h o ho n hdef hst
      rw [stored_of_fits L n (hfit o ho n hdef)] at hst
      rw [hst] at hdef
      exact h o ho hdef
  · intro hne
    rcases lookup_found name (recorded L tr) with ⟨h1, _⟩ | ⟨x, hx, _, hx3⟩
    · exact absurd h1 hne
    · have := hbd x hx
      rw [hx3]
      exact ⟨by omega, this.1⟩
  · intro a2 c2 h
    simp only [findWordCall, Option.map_eq_some', Prod.mk.injEq] at h
    obtain ⟨_, _, _, rfl⟩ := h
    exact ⟨rfl, rfl⟩

theorem findWord_sentinel_witness :
    findWordCall layout44 3 (fresh layout44) (List.replicate 31 'a') =
      some (-1, fresh layout44) ∧
    ∃ tr c a, runOps layout44 3 [Op.compileWord1 (List.replicate 40 'a'), Op.compileLiteral 4]
        (fresh layout44) = some (tr, c) ∧
      findWordCall layout44 3 c (List.replicate 31 'a') = some (a, c) ∧
      (a = -1 ↔ ∀ o ∈ [Op.compileWord1 (List.replicate 40 'a'), Op.compileLiteral 4],
        ∀ n, o.defines = some n → stored layout44 n ≠ List.replicate 31 'a') := by
  obtain ⟨h1, tr, c, a, h2, h3, h4, _⟩ := findWord_sentinel layout44 (by decide) blank
    [Op.compileWord1 (List.replicate 40 'a'), Op.compileLiteral 4]
    (List.replicate 31 'a') 3 (by decide)
  exact ⟨h1, tr, c, a, h2, h3, h4⟩

/-- C15 fails on the code: after `reset`, `compileBegin()` pushes the mark 16;
a second `reset()` leaves that mark on the stack. -/
theorem reset_leaves_pending_marks :
    (compileBegin (fresh layout44)).2.marks = [16] ∧
    (reset layout44 (compileBegin (fresh layout44)).2).marks = [16] ∧
    (reset layout44 (compileBegin (fresh layout44)).2).marks ≠ [] := by
  decide

/-- C15 as amended: `reset()` does not touch the PatchMark stack; after it the
stack holds exactly the marks it held before (so it is empty only if it was
empty before). -/
theorem reset_keeps_marks (L : Layout) (c : Compiler) : (reset L c).marks = c.marks :=
  rfl

/-- C17 fails on the code: with a name field of 32 units, `createWord` with a
name of 40 characters returns the entry address 16 and links the entry: the
lastEntry cell, 0 before, holds 16 afterwards. -/
theorem createWord_accepts_long_name :
    ¬ fits layout44 (List.replicate 40 'a') ∧
    getCell (fresh layout44).runtime (fresh layout44).lastWordPtrAddr = 0 ∧
    (createWord layout44 (fresh layout44) (List.replicate 40 'a') ⟨.INVALID, 0⟩).1 = 16 ∧
    getCell (createWord layout44 (fresh layout44) (List.replicate 40 'a') ⟨.INVALID, 0⟩).2.runtime
      (fresh layout44).lastWordPtrAddr = 16 := by
  decide

/-- C17 as amended: `createWord`, and every defining call built on it, does
not check the length of the name.  For every name, also one longer than the
name field, the call returns as usual (the old frontier, except for `compileConstant`, which
returns no value) and links the new entry: the lastEntry cell holds the new
entry's address, and the entry's link holds the old lastEntry value.  The name
field holds the characters that fit. -/
theorem createWord_unchecked_name (L : Layout) (hL : L.WF) (c : Compiler) (hb : Booted L c)
    (n : Name) (i : Instruction) (o : Op) (ho : o.defines = some n)
    (fuel : Nat) :
    (createWord L c n i).1 = getDictionaryPtr c ∧
    getCell (createWord L c n i).2.runtime (createWord L c n i).2.lastWordPtrAddr =
      getDictionaryPtr c ∧
    toCString (createWord L c n i).2.runtime (getDictionaryPtr c + L.nameOff) =
      n.take (L.nameCap - 1).toNat ∧
    ∃ r c2, o.run L fuel c = some (r, c2) ∧
      getCell c2.runtime c2.lastWordPtrAddr = getDictionaryPtr c ∧
      getCell c2.runtime (getDictionaryPtr c + L.prevOff) = getCell c.runtime c.lastWordPtrAddr ∧
      (r = some (getDictionaryPtr c) ∨ (r = none ∧ ∃ m v, o = .compileConstant m v)) := by
  have hfr := booted_frontier L c hb
  obtain ⟨hd, hl, hf⟩ := hb
  obtain ⟨m1, m2, m3, m4, m5, m6, m7⟩ := createWord_mem L hL c n i hd hl hf
  rw [hfr]
  refine ⟨by simp [createWord, allocate, getCell, hd],
    (congrArg (createWord L c n i).2.runtime hl).trans m2, m4, ?_⟩
  have hrun : ∃ x, o.run L fuel c = some x := by
    cases o with
    | compileReference m => simp [Op.defines] at ho
    | _ => exact ⟨_, rfl⟩
  obtain ⟨⟨r, c2⟩, hx⟩ := hrun
  obtain ⟨a1, a2, _, _, _, a6, _, a8⟩ := opRun_mem L hL o c c2 r fuel ⟨hd, hl, hf⟩ hx
  obtain ⟨b1, b2, _⟩ := a8 n ho
  refine ⟨r, c2, hx, ?_, ?_, a6⟩
  · rw [getCell, a2, b1]
  · rw [getCell, getCell, b2, hl]

theorem createWord_unchecked_name_witness :
    ¬ fits layout44 (List.replicate 40 'a') ∧
    (createWord layout44 (fresh layout44) (List.replicate 40 'a') ⟨.INVALID, 0⟩).1 =
      getDictionaryPtr (fresh layout44) ∧
    getCell (createWord layout44 (fresh layout44) (List.replicate 40 'a')
        ⟨.INVALID, 0⟩).2.runtime
      (createWord layout44 (fresh layout44) (List.replicate 40 'a')
        ⟨.INVALID, 0⟩).2.lastWordPtrAddr = getDictionaryPtr (fresh layout44) :=
  ⟨by decide,
    (createWord_unchecked_name layout44 (by decide) (fresh layout44)
      (reset_booted layout44 (by decide) blank) (List.replicate 40 'a')
      ⟨.INVALID, 0⟩ (Op.compileVariable (List.replicate 40 'a') 0) rfl 1).1,
    (createWord_unchecked_name layout44 (by decide) (fresh layout44)
      (reset_booted layout44 (by decide) blank) (List.replicate 40 'a')
      ⟨.INVALID, 0⟩ (Op.compileVariable (List.replicate 40 'a') 0) rfl 1).2.1⟩

theorem opRun_addrs (L : Layout) (fuel : Nat) (o : Op) (c c2 : Compiler) (r : Option Int)
    (h : o.run L fuel c = some (r, c2)) :
    c2.dictionaryPtrAddr = c.dictionaryPtrAddr ∧ c2.lastWordPtrAddr = c.lastWordPtrAddr := by
  cases o <;> simp only [Op.run, Option.some.injEq] at h
  case compileReference n =>
    simp only [compileReference, Option.map_map, Option.map_eq_some'] at h
    obtain ⟨w, _, hw⟩ := h
    simp only [Function.comp, Prod.mk.injEq] at hw
    rw [← hw.2]; exact ⟨rfl, rfl⟩
  all_goals (have h2 : _ = c2 := congrArg Prod.snd h; rw [← h2]; exact ⟨rfl, rfl⟩)

theorem tokRun_addrs (L : Layout) (fuel : Nat) (t : Tok) (c c2 : Compiler)
    (r : Except CompileError (Option Int)) (h : t.run L fuel c = some (r, c2)) :
    c2.dictionaryPtrAddr = c.dictionaryPtrAddr ∧ c2.lastWordPtrAddr = c.lastWordPtrAddr := by
  cases t with
  | op o =>
    simp only [Tok.run, Option.map_eq_some'] at h
    obtain ⟨x, hx, hx2⟩ := h
    obtain ⟨v, c1⟩ := x
    simp only [Prod.mk.injEq] at hx2
    rw [← hx2.2]
    exact opRun_addrs L fuel o c c1 v hx
  | BEGIN =>
    simp only [Tok.run, Option.some.injEq, Prod.mk.injEq] at h
    rw [← h.2]; exact ⟨rfl, rfl⟩
  | IF =>
    simp only [Tok.run, Option.some.injEq, Prod.mk.injEq] at h
    rw [← h.2]; exact ⟨rfl, rfl⟩
  | ELSE =>
    simp only [Tok.run, Option.some.injEq, Prod.mk.injEq] at h
    rw [← h.2]
    cases hm : c.marks <;> simp [compileElse, popMark, hm, pushMark, compileInstruction, allocate]
  | ENDIF =>
    simp only [Tok.run, Option.some.injEq, Prod.mk.injEq] at h
    rw [← h.2]
    cases hm : c.marks <;> simp [compileEndif, popMark, hm]
  | AGAIN =>
    simp only [Tok.run, Option.some.injEq, Prod.mk.injEq] at h
    rw [← h.2]
    cases hm : c.marks <;> simp [compileAgain, popMark, hm, compileInstruction, allocate]

theorem runAny_addrs (L : Layout) (fuel : Nat) (ts : List Tok) :
    ∀ (c c2 : Compiler), runAny L fuel ts c = some c2 →
      c2.dictionaryPtrAddr = c.dictionaryPtrAddr ∧ c2.lastWordPtrAddr = c.lastWordPtrAddr := by
  induction ts with
  | nil =>
    intro c c2 hr
    simp only [runAny, Option.some.injEq] at hr
    subst hr
    exact ⟨rfl, rfl⟩
  | cons t ts ih =>
    intro c c2 hr
    simp only [runAny] at hr
    cases ht : t.run L fuel c with
    | none => simp [ht] at hr
    | some x =>
      obtain ⟨r, c1⟩ := x
      simp only [ht] at hr
      obtain ⟨a1, a2⟩ := tokRun_addrs L fuel t c c1 r ht
      obtain ⟨b1, b2⟩ := ih c1 c2 hr
      exact ⟨b1.trans a1, b2.trans a2⟩

/-- C18, bootstrap by `reset`: from any prior state, after `reset()` the
frontier cell lives at address 0 and holds `2 * cellSize`, and the lastEntry
cell lives at address `cellSize` and holds 0.  At every later point (after any
sequence of compiler calls) the frontier cell is still the cell at address 0,
so that cell holds the current frontier.  What `reset` leaves in the two
cells does not depend on the state before it, and a second `reset` leaves the
same. -/
theorem reset_bootstrap (L : Layout) (hL : L.WF) (c1 c2 : Compiler) (ts : List Tok)
    (fuel : Nat) (c : Compiler) (hreach : runAny L fuel ts (reset L c1) = some c) :
    ((reset L c1).dictionaryPtrAddr = 0 ∧ getCell (reset L c1).runtime 0 = 2 * L.cellSize ∧
      (reset L c1).lastWordPtrAddr = L.cellSize ∧
      getCell (reset L c1).runtime L.cellSize = 0) ∧
    (c.dictionaryPtrAddr = 0 ∧ c.lastWordPtrAddr = L.cellSize ∧
      getDictionaryPtr c = getCell c.runtime 0) ∧
    ((reset L c2).dictionaryPtrAddr = (reset L c1).dictionaryPtrAddr ∧
      (reset L c2).lastWordPtrAddr = (reset L c1).lastWordPtrAddr ∧
      getCell (reset L c2).runtime 0 = getCell (reset L c1).runtime 0 ∧
      getCell (reset L c2).runtime L.cellSize = getCell (reset L c1).runtime L.cellSize) ∧
    ((reset L (reset L c1)).dictionaryPtrAddr = (reset L c1).dictionaryPtrAddr ∧
      (reset L (reset L c1)).lastWordPtrAddr = (reset L c1).lastWordPtrAddr ∧
      getCell (reset L (reset L c1)).runtime 0 = getCell (reset L c1).runtime 0 ∧
      getCell (reset L (reset L c1)).runtime L.cellSize =
        getCell (reset L c1).runtime L.cellSize) := by
  have key : ∀ x : Compiler, (reset L x).dictionaryPtrAddr = 0 ∧
      getCell (reset L x).runtime 0 = 2 * L.cellSize ∧
      (reset L x).lastWordPtrAddr = L.cellSize ∧
      getCell (reset L x).runtime L.cellSize = 0 := by
    intro x
    have hg := reset_good L hL x
    have hf := reset_frontier L hL x
    have hd : (reset L x).dictionaryPtrAddr = 0 := hg.1
    refine ⟨hd, ?_, hg.2.1, hg.2.2.2⟩
    rw [← hf]
    simp [getDictionaryPtr, hd]
  obtain ⟨a1, a2⟩ := runAny_addrs L fuel ts _ c hreach
  obtain ⟨k1, k2, k3, k4⟩ := key c1
  obtain ⟨j1, j2, j3, j4⟩ := key c2
  obtain ⟨i1, i2, i3, i4⟩ := key (reset L c1)
  refine ⟨⟨k1, k2, k3, k4⟩, ⟨a1.trans k1, a2.trans k3, ?_⟩,
    ⟨j1.trans k1.symm, j3.trans k3.symm, j2.trans k2.symm, j4.trans k4.symm⟩,
    ⟨i1.trans k1.symm, i3.trans k3.symm, i2.trans k2.symm, i4.trans k4.symm⟩⟩
  simp [getDictionaryPtr, a1.trans k1]

theorem reset_bootstrap_witness :
    (reset layout44 blank).dictionaryPtrAddr = 0 ∧
    getCell (reset layout44 blank).runtime 0 = 2 * layout44.cellSize ∧
    (reset layout44 blank).lastWordPtrAddr = layout44.cellSize ∧
    getCell (reset layout44 blank).runtime layout44.cellSize = 0 :=
  (reset_bootstrap layout44 (by decide) blank (compileIf layout44 (fresh layout44)).2
    [Tok.IF] 1 (compileIf layout44 (fresh layout44)).2 rfl).1

/-! # The image unit by unit -/

namespace Machine

/-! ## The image unit by unit: reads after writes -/

theorem setUnit_same (m : Memory) (a v : Int) : setUnit m a v a = v := by
  simp [setUnit]

theorem setUnit_other (m : Memory) (a v k : Int) (h : k ≠ a) : setUnit m a v k = m k := by
  simp [setUnit, h]

theorem setCell_outside (m : Memory) (a v k : Int) (h : k < a ∨ a + 4 ≤ k) :
    setCell m a v k = m k := by
  unfold setCell
  rw [setUnit_other _ _ _ _ (by omega), setUnit_other _ _ _ _ (by omega),
    setUnit_other _ _ _ _ (by omega), setUnit_other _ _ _ _ (by omega)]

theorem getCell_congr (m m2 : Memory) (a : Int)
    (h : ∀ k, a ≤ k → k < a + 4 → m2 k = m k) : getCell m2 a = getCell m a := by
  unfold getCell
  rw [h a (by omega) (by omega), h (a + 1) (by omega) (by omega),
    h (a + 2) (by omega) (by omega), h (a + 3) (by omega) (by omega)]

theorem toInt32_range (x : Int) : -2147483648 ≤ toInt32 x ∧ toInt32 x ≤ intMax := by
  unfold toInt32 intMax
  omega

theorem toInt32_id (x : Int) (h1 : -2147483648 ≤ x) (h2 : x ≤ intMax) : toInt32 x = x := by
  unfold toInt32
  unfold intMax at h2
  omega

theorem getCell_range (m : Memory) (a : Int) :
    -2147483648 ≤ getCell m a ∧ getCell m a ≤ intMax :=
  toInt32_range _

theorem getCell_setCell (m : Memory) (a v : Int) : getCell (setCell m a v) a = toInt32 v := by
  have e0 : setCell m a v a = v % 256 := by
    unfold setCell
    rw [setUnit_other _ _ _ _ (by omega), setUnit_other _ _ _ _ (by omega),
      setUnit_other _ _ _ _ (by omega), setUnit_same]
  have e1 : setCell m a v (a + 1) = v / 256 % 256 := by
    unfold setCell
    rw [setUnit_other _ _ _ _ (by omega), setUnit_other _ _ _ _ (by omega), setUnit_same]
  have e2 : setCell m a v (a + 2) = v / 65536 % 256 := by
    unfold setCell
    rw [setUnit_other _ _ _ _ (by omega), setUnit_same]
  have e3 : setCell m a v (a + 3) = v / 16777216 % 256 := by
    unfold setCell
    rw [setUnit_same]
  unfold getCell
  rw [e0, e1, e2, e3]
  unfold toInt32
  omega

theorem getCell_setCell_other (m : Memory) (a v b : Int) (h : b + 4 ≤ a ∨ a + 4 ≤ b) :
    getCell (setCell m a v) b = getCell m b :=
  getCell_congr _ _ _ (fun k _ _ => setCell_outside _ _ _ _ (by omega))

theorem writeChars_outside (cs : List Char) :
    ∀ (m : Memory) (a k : Int), (k < a ∨ a + cs.length ≤ k) → writeChars m a cs k = m k := by
  induction cs with
  | nil => intro m a k _; rfl
  | cons c cs ih =>
    intro m a k h
    simp only [writeChars]
    simp only [List.length_cons, Nat.cast_add, Nat.cast_one] at h
    rw [ih _ _ _ (by omega), setUnit_other _ _ _ _ (by omega)]

theorem fromCString_outside (name : Name) (m : Memory) (field cap k : Int) (hcap : 0 < cap)
    (h : k < field ∨ field + cap ≤ k) : fromCString name m field cap k = m k := by
  unfold fromCString
  have hlen : ((name.take (cap - 1).toNat).length : Int) ≤ cap - 1 := by
    have h1 : (name.take (cap - 1).toNat).length ≤ (cap - 1).toNat := by
      rw [List.length_take]; exact Nat.min_le_left _ _
    have h2 : (((cap - 1).toNat : Nat) : Int) = cap - 1 := Int.toNat_of_nonneg (by omega)
    omega
  show writeChars (setUnit m field _) (field + 1) (name.take (cap - 1).toNat) k = m k
  rw [writeChars_outside _ _ _ _ (by omega), setUnit_other _ _ _ _ (by omega)]

theorem setInstruction_outside (L : Layout) (m : Memory) (a k : Int) (ins : Instruction)
    (hd : 4 ≤ L.dataOff) (h : k < a ∨ a + L.dataOff + 4 ≤ k) :
    setInstruction L m a ins k = m k := by
  unfold setInstruction
  rw [setCell_outside _ _ _ _ (by omega), setCell_outside _ _ _ _ (by omega)]

theorem getCell_setInstruction_other (L : Layout) (m : Memory) (a b : Int) (ins : Instruction)
    (hd : 4 ≤ L.dataOff) (h : b + 4 ≤ a ∨ a + L.dataOff + 4 ≤ b) :
    getCell (setInstruction L m a ins) b = getCell m b :=
  getCell_congr _ _ _ (fun k _ _ => setInstruction_outside L _ _ _ _ hd (by omega))

theorem getCell_fromCString_other (name : Name) (m : Memory) (field cap b : Int) (hcap : 0 < cap)
    (h : b + 4 ≤ field ∨ field + cap ≤ b) :
    getCell (fromCString name m field cap) b = getCell m b :=
  getCell_congr _ _ _ (fun k _ _ => fromCString_outside _ _ _ _ _ hcap (by omega))

/-! ## The image unit by unit: what each function stores -/

theorem compileInstruction_units (L : Layout) (hL : WF L) (c : Compiler) (i : Instruction)
    (hd : c.dictionaryPtrAddr = 0) :
    (compileInstruction L c i).1 = getCell c.runtime 0 ∧
    (∀ k, 4 ≤ k → (k < getCell c.runtime 0 ∨ getCell c.runtime 0 + L.cellSize ≤ k) →
      (compileInstruction L c i).2.runtime k = c.runtime k) ∧
    (L.cellSize ≤ getCell c.runtime 0 →
      getCell (compileInstruction L c i).2.runtime 0 = toInt32 (getCell c.runtime 0 + L.cellSize)) := by
  obtain ⟨w1, w2, w3, w4, w5, w6, w7, w8, w9, w10, w11, w12, w13⟩ := hL
  have hm : (compileInstruction L c i).2.runtime =
      setInstruction L (setCell c.runtime 0 (toInt32 (getCell c.runtime 0 + L.cellSize)))
        (getCell c.runtime 0) i := by
    simp [compileInstruction, allocate, hd]
  refine ⟨by simp [compileInstruction, allocate, hd], ?_, ?_⟩
  · intro k hk h
    rw [hm, setInstruction_outside L _ _ _ _ w1 (by omega), setCell_outside _ _ _ _ (by omega)]
  · intro hf
    rw [hm, getCell_setInstruction_other L _ _ _ _ w1 (by omega), getCell_setCell]
    exact toInt32_id _ (toInt32_range _).1 (toInt32_range _).2

theorem compileData_units (L : Layout) (hL : WF L) (c : Compiler) (v : Int)
    (hd : c.dictionaryPtrAddr = 0) :
    (compileData L c v).1 = getCell c.runtime 0 ∧
    (∀ k, 4 ≤ k → (k < getCell c.runtime 0 ∨ getCell c.runtime 0 + 4 ≤ k) →
      (compileData L c v).2.runtime k = c.runtime k) ∧
    (4 ≤ getCell c.runtime 0 →
      getCell (compileData L c v).2.runtime 0 = toInt32 (getCell c.runtime 0 + L.cellSize)) := by
  obtain ⟨w1, w2, w3, w4, w5, w6, w7, w8, w9, w10, w11, w12, w13⟩ := hL
  have hm : (compileData L c v).2.runtime =
      setCell (setCell c.runtime 0 (toInt32 (getCell c.runtime 0 + L.cellSize)))
        (getCell c.runtime 0) v := by
    simp [compileData, allocate, hd]
  refine ⟨by simp [compileData, allocate, hd], ?_, ?_⟩
  · intro k hk h
    rw [hm, setCell_outside _ _ _ _ (by omega), setCell_outside _ _ _ _ (by omega)]
  · intro hf
    rw [hm, getCell_setCell_other _ _ _ _ (by omega), getCell_setCell]
    exact toInt32_id _ (toInt32_range _).1 (toInt32_range _).2

theorem createWord_units (L : Layout) (hL : WF L) (c : Compiler) (n : Name) (i : Instruction)
    (hd : c.dictionaryPtrAddr = 0) (hl : c.lastWordPtrAddr = L.cellSize) :
    (createWord L c n i).1 = getCell c.runtime 0 ∧
    (∀ k, 2 * L.cellSize ≤ k →
      (k < getCell c.runtime 0 ∨ getCell c.runtime 0 + L.wordSize ≤ k) →
      (createWord L c n i).2.runtime k = c.runtime k) ∧
    (2 * L.cellSize ≤ getCell c.runtime 0 →
      getCell (createWord L c n i).2.runtime 0 = toInt32 (getCell c.runtime 0 + L.wordSize) ∧
      getCell (createWord L c n i).2.runtime L.cellSize = getCell c.runtime 0 ∧
      getCell (createWord L c n i).2.runtime (getCell c.runtime 0 + L.prevOff) =
        getCell c.runtime L.cellSize) := by
  obtain ⟨w1, w2, w3, w4, w5, w6, w7, w8, w9, w10, w11, w12, w13⟩ := hL
  have hm : (createWord L c n i).2.runtime =
      setCell (setInstruction L (fromCString n
        (setCell (setCell c.runtime 0 (toInt32 (getCell c.runtime 0 + L.wordSize)))
          (getCell c.runtime 0 + L.prevOff)
          (getCell (setCell c.runtime 0 (toInt32 (getCell c.runtime 0 + L.wordSize))) L.cellSize))
        (getCell c.runtime 0 + L.nameOff) L.nameCap) (getCell c.runtime 0 + L.refOff) i)
        L.cellSize (getCell c.runtime 0) := by
    simp [createWord, allocate, hd, hl]
  refine ⟨by simp [createWord, allocate, hd], ?_, ?_⟩
  · intro k hk h
    rw [hm, setCell_outside _ _ _ _ (by omega), setInstruction_outside L _ _ _ _ w1 (by omega),
      fromCString_outside _ _ _ _ _ w7 (by omega), setCell_outside _ _ _ _ (by omega),
      setCell_outside _ _ _ _ (by omega)]
  · intro hf
    have hr := getCell_range c.runtime 0
    refine ⟨?_, ?_, ?_⟩
    · rw [hm, getCell_setCell_other _ _ _ _ (by omega),
        getCell_setInstruction_other L _ _ _ _ w1 (by omega),
        getCell_fromCString_other _ _ _ _ _ w7 (by omega),
        getCell_setCell_other _ _ _ _ (by omega), getCell_setCell]
      exact toInt32_id _ (toInt32_range _).1 (toInt32_range _).2
    · rw [hm, getCell_setCell]
      exact toInt32_id _ hr.1 hr.2
    · rw [hm, getCell_setCell_other _ _ _ _ (by omega),
        getCell_setInstruction_other L _ _ _ _ w1 (by omega),
        getCell_fromCString_other _ _ _ _ _ w7 (by omega), getCell_setCell,
        getCell_setCell_other _ _ _ _ (by omega)]
      exact toInt32_id _ (getCell_range _ _).1 (getCell_range _ _).2

theorem compileStartColonWord_units (L : Layout) (hL : WF L) (c : Compiler) (n : Name)
    (hd : c.dictionaryPtrAddr = 0) (hl : c.lastWordPtrAddr = L.cellSize) :
    (compileStartColonWord L c n).1 = getCell c.runtime 0 ∧
    (∀ k, 2 * L.cellSize ≤ k →
      (k < getCell c.runtime 0 ∨ getCell c.runtime 0 + L.wordSize ≤ k) →
      (compileStartColonWord L c n).2.runtime k = c.runtime k) ∧
    (2 * L.cellSize ≤ getCell c.runtime 0 →
      getCell (compileStartColonWord L c n).2.runtime 0 =
        toInt32 (getCell c.runtime 0 + L.wordSize) ∧
      getCell (compileStartColonWord L c n).2.runtime L.cellSize = getCell c.runtime 0 ∧
      getCell (compileStartColonWord L c n).2.runtime (getCell c.runtime 0 + L.prevOff) =
        getCell c.runtime L.cellSize) := by
  have hw := hL
  obtain ⟨w1, w2, w3, w4, w5, w6, w7, w8, w9, w10, w11, w12, w13⟩ := hw
  obtain ⟨a1, a2, a3⟩ := createWord_units L hL c n ⟨.INVALID, 0⟩ hd hl
  have hm : (compileStartColonWord L c n).2.runtime =
      setInstruction L (createWord L c n ⟨.INVALID, 0⟩).2.runtime (getCell c.runtime 0 + L.refOff)
        ⟨.DoColon, toInt32 (getCell c.runtime 0 + L.wordSize)⟩ := by
    show setInstruction L _ ((createWord L c n ⟨.INVALID, 0⟩).1 + L.refOff)
      ⟨.DoColon, toInt32 ((createWord L c n ⟨.INVALID, 0⟩).1 + L.wordSize)⟩ = _
    rw [a1]
    rfl
  refine ⟨a1, ?_, ?_⟩
  · intro k hk h
    rw [hm, setInstruction_outside L _ _ _ _ w1 (by omega)]
    exact a2 k hk h
  · intro hf
    obtain ⟨b1, b2, b3⟩ := a3 hf
    refine ⟨?_, ?_, ?_⟩
    · rw [hm, getCell_setInstruction_other L _ _ _ _ w1 (by omega)]
      exact b1
    · rw [hm, getCell_setInstruction_other L _ _ _ _ w1 (by omega)]
      exact b2
    · rw [hm, getCell_setInstruction_other L _ _ _ _ w1 (by omega)]
      exact b3

theorem compileVariable_units (L : Layout) (hL : WF L) (c : Compiler) (n : Name) (v : Int)
    (hd : c.dictionaryPtrAddr = 0) (hl : c.lastWordPtrAddr = L.cellSize) :
    (compileVariable L c n v).1 = getCell c.runtime 0 ∧
    (∀ k, 2 * L.cellSize ≤ k → k < getCell c.runtime 0 →
      (compileVariable L c n v).2.runtime k = c.runtime k) ∧
    (2 * L.cellSize ≤ getCell c.runtime 0 →
      getCell c.runtime 0 + (L.wordSize + L.cellSize) ≤ intMax →
      getCell (compileVariable L c n v).2.runtime 0 =
        getCell c.runtime 0 + (L.wordSize + L.cellSize) ∧
      getCell (compileVariable L c n v).2.runtime L.cellSize = getCell c.runtime 0 ∧
      getCell (compileVariable L c n v).2.runtime (getCell c.runtime 0 + L.prevOff) =
        getCell c.runtime L.cellSize) := by
  have hw := hL
  obtain ⟨w1, w2, w3, w4, w5, w6, w7, w8, w9, w10, w11, w12, w13⟩ := hw
  obtain ⟨a1, a2, a3⟩ := createWord_units L hL c n ⟨.INVALID, 0⟩ hd hl
  have hd1 : (createWord L c n ⟨.INVALID, 0⟩).2.dictionaryPtrAddr = 0 := hd
  obtain ⟨d1, d2, d3⟩ := compileData_units L hL (createWord L c n ⟨.INVALID, 0⟩).2 v hd1
  have hm : (compileVariable L c n v).2.runtime =
      setInstruction L (compileData L (createWord L c n ⟨.INVALID, 0⟩).2 v).2.runtime
        (getCell c.runtime 0 + L.refOff)
        ⟨.DoVariable, (compileData L (createWord L c n ⟨.INVALID, 0⟩).2 v).1⟩ := by
    show setInstruction L _ ((createWord L c n ⟨.INVALID, 0⟩).1 + L.refOff) _ = _
    rw [a1]
    rfl
  have hr := getCell_range c.runtime 0
  refine ⟨a1, ?_, ?_⟩
  · intro k hk h
    obtain ⟨b1, _, _⟩ := a3 (by omega)
    rw [hm, setInstruction_outside L _ _ _ _ w1 (by omega), d2 k (by omega) ?_]
    · exact a2 k hk (Or.inl h)
    · rw [b1]
      unfold toInt32
      unfold intMax at hr w13
      omega
  · intro hf hroom
    obtain ⟨b1, b2, b3⟩ := a3 hf
    have hx : getCell (createWord L c n ⟨.INVALID, 0⟩).2.runtime 0 =
        getCell c.runtime 0 + L.wordSize := by
      rw [b1]
      exact toInt32_id _ (by omega) (by omega)
    refine ⟨?_, ?_, ?_⟩
    · rw [hm, getCell_setInstruction_other L _ _ _ _ w1 (by omega), d3 (by omega), hx]
      rw [toInt32_id _ (by omega) (by omega)]
      omega
    · rw [hm, getCell_setInstruction_other L _ _ _ _ w1 (by omega)]
      rw [getCell_congr _ _ _ (fun k h1 h2 => d2 k (by omega) (by omega))]
      exact b2
    · rw [hm, getCell_setInstruction_other L _ _ _ _ w1 (by omega)]
      rw [getCell_congr _ _ _ (fun k h1 h2 => d2 k (by omega) (by omega))]
      exact b3

theorem opSize_pos (L : Layout) (hL : WF L) (o : Op) :
    0 < o.size L ∧ (∀ n, o.defines = some n → L.wordSize ≤ o.size L) := by
  obtain ⟨w1, w2, w3, w4, w5, w6, w7, w8, w9, w10, w11, w12, w13⟩ := hL
  cases o <;> simp only [Op.size, Op.defines] <;>
    exact ⟨by omega, fun n hn => by first | omega | cases hn⟩

theorem opRun_units (L : Layout) (hL : WF L) (o : Op) (c c2 : Compiler) (r : Option Int)
    (fuel : Nat) (hp : Placed L c) (h : opRun L fuel o c = some (r, c2)) :
    Placed L c2 ∧ c2.marks = c.marks ∧
    (∀ k, 2 * L.cellSize ≤ k → k < getCell c.runtime 0 → c2.runtime k = c.runtime k) ∧
    (r = some (getCell c.runtime 0) ∨ (r = none ∧ ∃ n v, o = .compileConstant n v)) ∧
    (2 * L.cellSize ≤ getCell c.runtime 0 → getCell c.runtime 0 + o.size L ≤ intMax →
      getCell c2.runtime 0 = getCell c.runtime 0 + o.size L ∧
      (o.defines = none → getCell c2.runtime L.cellSize = getCell c.runtime L.cellSize) ∧
      (∀ n, o.defines = some n →
        getCell c2.runtime L.cellSize = getCell c.runtime 0 ∧
        getCell c2.runtime (getCell c.runtime 0 + L.prevOff) = getCell c.runtime L.cellSize)) := by
  have hw := hL
  obtain ⟨w1, w2, w3, w4, w5, w6, w7, w8, w9, w10, w11, w12, w13⟩ := hw
  obtain ⟨hd, hl⟩ := hp
  have hr := getCell_range c.runtime 0
  have hcw : ∀ (n : Name) (i : Instruction),
      (createWord L c n i).1 = getCell c.runtime 0 ∧
      Placed L (createWord L c n i).2 ∧ (createWord L c n i).2.marks = c.marks ∧
      (∀ k, 2 * L.cellSize ≤ k → k < getCell c.runtime 0 →
        (createWord L c n i).2.runtime k = c.runtime k) ∧
      (2 * L.cellSize ≤ getCell c.runtime 0 → getCell c.runtime 0 + L.wordSize ≤ intMax →
        getCell (createWord L c n i).2.runtime 0 = getCell c.runtime 0 + L.wordSize ∧
        getCell (createWord L c n i).2.runtime L.cellSize = getCell c.runtime 0 ∧
        getCell (createWord L c n i).2.runtime (getCell c.runtime 0 + L.prevOff) =
          getCell c.runtime L.cellSize) := by
    intro n i
    obtain ⟨a1, a2, a3⟩ := createWord_units L hL c n i hd hl
    refine ⟨a1, ⟨hd, hl⟩, rfl, fun k hk h => a2 k hk (Or.inl h), ?_⟩
    intro hf hroom
    obtain ⟨b1, b2, b3⟩ := a3 hf
    exact ⟨by rw [b1]; exact toInt32_id _ (by omega) (by omega), b2, b3⟩
  have hci : ∀ (i : Instruction),
      (compileInstruction L c i).1 = getCell c.runtime 0 ∧
      (∀ k, 2 * L.cellSize ≤ k → k < getCell c.runtime 0 →
        (compileInstruction L c i).2.runtime k = c.runtime k) ∧
      (2 * L.cellSize ≤ getCell c.runtime 0 → getCell c.runtime 0 + L.cellSize ≤ intMax →
        getCell (compileInstruction L c i).2.runtime 0 = getCell c.runtime 0 + L.cellSize ∧
        getCell (compileInstruction L c i).2.runtime L.cellSize = getCell c.runtime L.cellSize) := by
    intro i
    obtain ⟨a1, a2, a3⟩ := compileInstruction_units L hL c i hd
    refine ⟨a1, fun k hk h => a2 k (by omega) (Or.inl h), ?_⟩
    intro hf hroom
    refine ⟨by rw [a3 (by omega)]; exact toInt32_id _ (by omega) (by omega), ?_⟩
    exact getCell_congr _ _ _ (fun k h1 h2 => a2 k (by omega) (by omega))
  cases o with
  | createWord n i =>
    simp only [opRun, Option.some.injEq, Prod.mk.injEq] at h
    obtain ⟨rfl, rfl⟩ := h
    obtain ⟨a1, a2, a3, a4, a5⟩ := hcw n i
    refine ⟨a2, a3, a4, Or.inl (by rw [a1]), ?_⟩
    intro hf hroom
    obtain ⟨b1, b2, b3⟩ := a5 hf hroom
    exact ⟨b1, by simp [Op.defines], fun _ _ => ⟨b2, b3⟩⟩
  | compileWord1 n =>
    simp only [opRun, Option.some.injEq, Prod.mk.injEq] at h
    obtain ⟨rfl, rfl⟩ := h
    obtain ⟨a1, a2, a3, a4, a5⟩ := hcw n ⟨.INVALID, 0⟩
    refine ⟨a2, a3, a4, Or.inl (by rw [← a1]; rfl), ?_⟩
    intro hf hroom
    obtain ⟨b1, b2, b3⟩ := a5 hf hroom
    exact ⟨b1, by simp [Op.defines], fun _ _ => ⟨b2, b3⟩⟩
  | compileWord3 n op v =>
    simp only [opRun, Option.some.injEq, Prod.mk.injEq] at h
    obtain ⟨rfl, rfl⟩ := h
    obtain ⟨a1, a2, a3, a4, a5⟩ := hcw n ⟨op, v⟩
    refine ⟨a2, a3, a4, Or.inl (by rw [← a1]; rfl), ?_⟩
    intro hf hroom
    obtain ⟨b1, b2, b3⟩ := a5 hf hroom
    exact ⟨b1, by simp [Op.defines], fun _ _ => ⟨b2, b3⟩⟩
  | compileWord n i =>
    simp only [opRun, Option.some.injEq, Prod.mk.injEq] at h
    obtain ⟨rfl, rfl⟩ := h
    obtain ⟨a1, a2, a3, a4, a5⟩ := hcw n i
    refine ⟨a2, a3, a4, Or.inl (by rw [← a1]; rfl), ?_⟩
    intro hf hroom
    obtain ⟨b1, b2, b3⟩ := a5 hf hroom
    exact ⟨b1, by simp [Op.defines], fun _ _ => ⟨b2, b3⟩⟩
  | compileInstruction i =>
    simp only [opRun, Option.some.injEq, Prod.mk.injEq] at h
    obtain ⟨rfl, rfl⟩ := h
    obtain ⟨a1, a2, a3⟩ := hci i
    refine ⟨⟨hd, hl⟩, rfl, a2, Or.inl (by rw [a1]), ?_⟩
    intro hf hroom
    obtain ⟨b1, b2⟩ := a3 hf hroom
    exact ⟨b1, fun _ => b2, by simp [Op.defines]⟩
  | compileLiteral v =>
    simp only [opRun, Option.some.injEq, Prod.mk.injEq] at h
    obtain ⟨rfl, rfl⟩ := h
    obtain ⟨a1, a2, a3⟩ := hci ⟨.DoLit, v⟩
    refine ⟨⟨hd, hl⟩, rfl, a2, Or.inl (by rw [← a1]; rfl), ?_⟩
    intro hf hroom
    obtain ⟨b1, b2⟩ := a3 hf hroom
    exact ⟨b1, fun _ => b2, by simp [Op.defines]⟩
  | compileData v =>
    simp only [opRun, Option.some.injEq, Prod.mk.injEq] at h
    obtain ⟨rfl, rfl⟩ := h
    obtain ⟨a1, a2, a3⟩ := compileData_units L hL c v hd
    refine ⟨⟨hd, hl⟩, rfl, fun k hk h => a2 k (by omega) (Or.inl h), Or.inl (by rw [a1]), ?_⟩
    intro hf hroom
    refine ⟨?_, fun _ => ?_, by simp [Op.defines]⟩
    · rw [a3 (by omega)]
      exact toInt32_id _ (by omega) hroom
    · exact getCell_congr _ _ _ (fun k h1 h2 => a2 k (by omega) (by omega))
  | compileVariable n v =>
    simp only [opRun, Option.some.injEq, Prod.mk.injEq] at h
    obtain ⟨rfl, rfl⟩ := h
    obtain ⟨a1, a2, a3⟩ := compileVariable_units L hL c n v hd hl
    refine ⟨⟨hd, hl⟩, rfl, a2, Or.inl (by rw [a1]), ?_⟩
    intro hf hroom
    obtain ⟨b1, b2, b3⟩ := a3 hf hroom
    exact ⟨b1, by simp [Op.defines], fun _ _ => ⟨b2, b3⟩⟩
  | compileConstant n v =>
    simp only [opRun, Option.some.injEq] at h
    have h1 : none = r := congrArg Prod.fst h
    have h2 : (createWord L c n ⟨.DoConstant, v⟩).2 = c2 := congrArg Prod.snd h
    subst h1 h2
    obtain ⟨a1, a2, a3, a4, a5⟩ := hcw n ⟨.DoConstant, v⟩
    refine ⟨a2, a3, a4, Or.inr ⟨rfl, n, v, rfl⟩, ?_⟩
    intro hf hroom
    obtain ⟨b1, b2, b3⟩ := a5 hf hroom
    exact ⟨b1, by simp [Op.defines], fun _ _ => ⟨b2, b3⟩⟩
  | compileStartColonWord n =>
    simp only [opRun, Option.some.injEq, Prod.mk.injEq] at h
    obtain ⟨rfl, rfl⟩ := h
    obtain ⟨a1, a2, a3⟩ := compileStartColonWord_units L hL c n hd hl
    refine ⟨⟨hd, hl⟩, rfl, fun k hk h => a2 k hk (Or.inl h), Or.inl (by rw [a1]), ?_⟩
    intro hf hroom
    obtain ⟨b1, b2, b3⟩ := a3 hf
    exact ⟨by rw [b1]; exact toInt32_id _ (by omega) hroom,
      by simp [Op.defines], fun _ _ => ⟨b2, b3⟩⟩
  | compileReference n =>
    simp only [opRun, compileReference, Option.map_map, Option.map_eq_some'] at h
    obtain ⟨w, _, hw⟩ := h
    simp only [Function.comp, Prod.mk.injEq] at hw
    obtain ⟨rfl, rfl⟩ := hw
    obtain ⟨a1, a2, a3⟩ := hci ⟨.DoColon, w⟩
    refine ⟨⟨hd, hl⟩, rfl, a2, Or.inl (by rw [a1]), ?_⟩
    intro hf hroom
    obtain ⟨b1, b2⟩ := a3 hf hroom
    exact ⟨b1, fun _ => b2, by simp [Op.defines]⟩
  | compileEndWord =>
    simp only [opRun, Option.some.injEq, Prod.mk.injEq] at h
    obtain ⟨rfl, rfl⟩ := h
    obtain ⟨a1, a2, a3⟩ := hci (Instruction.ofOpCode .DoSemicolon)
    refine ⟨⟨hd, hl⟩, rfl, a2, Or.inl (by rw [← a1]; rfl), ?_⟩
    intro hf hroom
    obtain ⟨b1, b2⟩ := a3 hf hroom
    exact ⟨b1, fun _ => b2, by simp [Op.defines]⟩

theorem placed_frontier (L : Layout) (c : Compiler) (h : Placed L c) :
    getDictionaryPtr c = getCell c.runtime 0 := by
  simp [getDictionaryPtr, h.1]

theorem endif_units (L : Layout) (fuel : Nat) (c : Compiler) (b : Int) (ms : List Int)
    (hm : c.marks = b :: ms) :
    tokRun L fuel .ENDIF c = some (.ok (some b),
      { c with marks := ms,
               runtime := setCell c.runtime (b + L.dataOff) (getDictionaryPtr c) }) := by
  simp only [tokRun, compileEndif, popMark, hm, Except.map, setInstructionData]
  rfl

theorem endif_units_empty (L : Layout) (fuel : Nat) (c : Compiler) (hm : c.marks = []) :
    tokRun L fuel .ENDIF c = some (.error .UnbalancedControlFlow, c) := by
  simp [tokRun, compileEndif, popMark, hm, Except.map]

theorem tokRun_units (L : Layout) (hL : WF L) (t : Tok) (c c2 : Compiler)
    (r : Except CompileError (Option Int)) (fuel : Nat) (hp : Placed L c)
    (ht : t ≠ .ENDIF) (h : tokRun L fuel t c = some (r, c2)) :
    Placed L c2 ∧
    (∀ m ∈ c2.marks, m ∈ c.marks ∨ m = getCell c.runtime 0) ∧
    (∀ k, 2 * L.cellSize ≤ k → k < getCell c.runtime 0 → c2.runtime k = c.runtime k) ∧
    ((∃ e, r = .error e ∧ c2 = c ∧ t.size L c.marks = 0) ∨
      (r = .ok (some (getCell c.runtime 0)) ∧ (t = .BEGIN ∨ 0 < t.size L c.marks)) ∨
      (r = .ok none ∧ ∃ n v, t = .op (.compileConstant n v))) ∧
    (2 * L.cellSize ≤ getCell c.runtime 0 →
      getCell c.runtime 0 + t.size L c.marks ≤ intMax →
      getCell c2.runtime 0 = getCell c.runtime 0 + t.size L c.marks ∧
      (getCell c2.runtime L.cellSize = getCell c.runtime L.cellSize ∨
        (getCell c2.runtime L.cellSize = getCell c.runtime 0 ∧
          getCell c2.runtime (getCell c.runtime 0 + L.prevOff) = getCell c.runtime L.cellSize ∧
          getCell c.runtime 0 + L.wordSize ≤ getCell c2.runtime 0))) := by
  have hw := hL
  obtain ⟨w1, w2, w3, w4, w5, w6, w7, w8, w9, w10, w11, w12, w13⟩ := hw
  have hfr := placed_frontier L c hp
  obtain ⟨hd, hl⟩ := hp
  have hr := getCell_range c.runtime 0
  have hci : ∀ (ms : List Int) (i : Instruction),
      (compileInstruction L { c with marks := ms } i).1 = getCell c.runtime 0 ∧
      (∀ k, 2 * L.cellSize ≤ k → k < getCell c.runtime 0 →
        (compileInstruction L { c with marks := ms } i).2.runtime k = c.runtime k) ∧
      (2 * L.cellSize ≤ getCell c.runtime 0 → getCell c.runtime 0 + L.cellSize ≤ intMax →
        getCell (compileInstruction L { c with marks := ms } i).2.runtime 0 =
          getCell c.runtime 0 + L.cellSize ∧
        getCell (compileInstruction L { c with marks := ms } i).2.runtime L.cellSize =
          getCell c.runtime L.cellSize) := by
    intro ms i
    obtain ⟨a1, a2, a3⟩ := compileInstruction_units L hL { c with marks := ms } i hd
    refine ⟨a1, fun k hk h => a2 k (by omega) (Or.inl h), ?_⟩
    intro hf hroom
    refine ⟨(a3 (by show L.cellSize ≤ getCell c.runtime 0; omega)).trans
      (toInt32_id _ (by show _ ≤ getCell c.runtime 0 + _; omega) hroom), ?_⟩
    exact getCell_congr _ _ _ (fun k h1 h2 => a2 k (by omega)
      (Or.inl (by show k < getCell c.runtime 0; omega)))
  cases t with
  | ENDIF => exact absurd rfl ht
  | op o =>
    simp only [tokRun, Option.map_eq_some'] at h
    obtain ⟨x, hx, hx2⟩ := h
    obtain ⟨v, c1⟩ := x
    simp only [Prod.mk.injEq] at hx2
    obtain ⟨rfl, rfl⟩ := hx2
    obtain ⟨a1, a2, a3, a4, a5⟩ := opRun_units L hL o c c1 v fuel ⟨hd, hl⟩ hx
    obtain ⟨s1, s2⟩ := opSize_pos L hL o
    refine ⟨a1, fun m hm => Or.inl (by rw [← a2]; exact hm), a3, ?_, ?_⟩
    · rcases a4 with rfl | ⟨rfl, n, w, rfl⟩
      · exact Or.inr (Or.inl ⟨rfl, Or.inr s1⟩)
      · exact Or.inr (Or.inr ⟨rfl, n, w, rfl⟩)
    · intro hf hroom
      obtain ⟨b1, b2, b3⟩ := a5 hf hroom
      refine ⟨b1, ?_⟩
      cases hdef : o.defines with
      | none => exact Or.inl (b2 hdef)
      | some n =>
        obtain ⟨e1, e2⟩ := b3 n hdef
        have := s2 n hdef
        exact Or.inr ⟨e1, e2, by rw [b1]; show _ ≤ _ + o.size L; omega⟩
  | BEGIN =>
    have e : tokRun L fuel .BEGIN c = some (.ok (some (getDictionaryPtr c)),
        { c with marks := getDictionaryPtr c :: c.marks }) := rfl
    rw [e, hfr] at h
    simp only [Option.some.injEq, Prod.mk.injEq] at h
    obtain ⟨rfl, rfl⟩ := h
    exact ⟨⟨hd, hl⟩,
      fun m hm => by
        rcases List.mem_cons.1 hm with h1 | h1
        · exact Or.inr h1
        · exact Or.inl h1,
      fun _ _ _ => rfl, Or.inr (Or.inl ⟨rfl, Or.inl rfl⟩),
      fun _ _ => ⟨by simp [Tok.size], Or.inl rfl⟩⟩
  | IF =>
    have e : tokRun L fuel .IF c = some (.ok (some
        (compileInstruction L { c with marks := getDictionaryPtr c :: c.marks }
          (Instruction.ofOpCode .ZeroBranch)).1),
        (compileInstruction L { c with marks := getDictionaryPtr c :: c.marks }
          (Instruction.ofOpCode .ZeroBranch)).2) := rfl
    rw [e, hfr] at h
    simp only [Option.some.injEq, Prod.mk.injEq] at h
    obtain ⟨rfl, rfl⟩ := h
    obtain ⟨a1, a2, a3⟩ := hci (getCell c.runtime 0 :: c.marks) (Instruction.ofOpCode .ZeroBranch)
    exact ⟨⟨hd, hl⟩,
      fun m hm => by
        rcases List.mem_cons.1 hm with h1 | h1
        · exact Or.inr h1
        · exact Or.inl h1,
      a2, Or.inr (Or.inl ⟨by rw [a1], Or.inr (by simp only [Tok.size]; omega)⟩),
      fun hf hroom => ⟨(a3 hf hroom).1, Or.inl (a3 hf hroom).2⟩⟩
  | ELSE =>
    cases hm : c.marks with
    | nil =>
      have e : tokRun L fuel .ELSE c = some (.error .UnbalancedControlFlow, c) := by
        simp [tokRun, compileElse, popMark, hm, Except.map]
      rw [e] at h
      simp only [Option.some.injEq, Prod.mk.injEq] at h
      obtain ⟨rfl, rfl⟩ := h
      exact ⟨⟨hd, hl⟩, fun m hm2 => Or.inl (by rw [← hm]; exact hm2),
        fun _ _ _ => rfl, Or.inl ⟨_, rfl, rfl, by simp [Tok.size]⟩,
        fun _ _ => ⟨by simp [Tok.size], Or.inl rfl⟩⟩
    | cons b ms =>
      have e : tokRun L fuel .ELSE c = some (.ok (some
          (compileInstruction L { c with marks := getDictionaryPtr c :: ms }
            (Instruction.ofOpCode .Branch)).1),
          (compileInstruction L { c with marks := getDictionaryPtr c :: ms }
            (Instruction.ofOpCode .Branch)).2) := by
        simp only [tokRun, compileElse, popMark, hm, Except.map]
        rfl
      rw [e, hfr] at h
      simp only [Option.some.injEq, Prod.mk.injEq] at h
      obtain ⟨rfl, rfl⟩ := h
      obtain ⟨a1, a2, a3⟩ := hci (getCell c.runtime 0 :: ms) (Instruction.ofOpCode .Branch)
      have hs : Tok.size L (b :: ms) .ELSE = L.cellSize := by simp [Tok.size]
      rw [hs]
      exact ⟨⟨hd, hl⟩,
        fun m hm2 => by
          rcases List.mem_cons.1 hm2 with h1 | h1
          · exact Or.inr h1
          · exact Or.inl (List.mem_cons_of_mem _ h1),
        a2, Or.inr (Or.inl ⟨by rw [a1], Or.inr (by omega)⟩),
        fun hf hroom => ⟨(a3 hf hroom).1, Or.inl (a3 hf hroom).2⟩⟩
  | AGAIN =>
    cases hm : c.marks with
    | nil =>
      have e : tokRun L fuel .AGAIN c = some (.error .UnbalancedControlFlow, c) := by
        simp [tokRun, compileAgain, popMark, hm, Except.map]
      rw [e] at h
      simp only [Option.some.injEq, Prod.mk.injEq] at h
      obtain ⟨rfl, rfl⟩ := h
      exact ⟨⟨hd, hl⟩, fun m hm2 => Or.inl (by rw [← hm]; exact hm2),
        fun _ _ _ => rfl, Or.inl ⟨_, rfl, rfl, by simp [Tok.size]⟩,
        fun _ _ => ⟨by simp [Tok.size], Or.inl rfl⟩⟩
    | cons b ms =>
      have e : tokRun L fuel .AGAIN c = some (.ok (some
          (compileInstruction L { c with marks := ms } ⟨.Branch, b⟩).1),
          (compileInstruction L { c with marks := ms } ⟨.Branch, b⟩).2) := by
        simp only [tokRun, compileAgain, popMark, hm, Except.map]
      rw [e] at h
      simp only [Option.some.injEq, Prod.mk.injEq] at h
      obtain ⟨rfl, rfl⟩ := h
      obtain ⟨a1, a2, a3⟩ := hci ms ⟨.Branch, b⟩
      have hs : Tok.size L (b :: ms) .AGAIN = L.cellSize := by simp [Tok.size]
      rw [hs]
      exact ⟨⟨hd, hl⟩,
        fun m hm2 => Or.inl (List.mem_cons_of_mem _ hm2),
        a2, Or.inr (Or.inl ⟨by rw [a1], Or.inr (by omega)⟩),
        fun hf hroom => ⟨(a3 hf hroom).1, Or.inl (a3 hf hroom).2⟩⟩

/-! ## Sessions -/

theorem reset_units (L : Layout) (hL : WF L) (c : Compiler) :
    Placed L (reset L c) ∧ getCell (reset L c).runtime 0 = 2 * L.cellSize ∧
    getCell (reset L c).runtime L.cellSize = 0 ∧ (reset L c).marks = c.marks := by
  obtain ⟨w1, w2, w3, w4, w5, w6, w7, w8, w9, w10, w11, w12, w13⟩ := hL
  have e0 : getCell (setCell c.runtime 0 0) 0 = 0 := by
    rw [getCell_setCell]; rfl
  have e1 : getCell (setCell (setCell c.runtime 0 0) 0 (toInt32 (0 + L.cellSize))) 0 =
      L.cellSize := by
    rw [getCell_setCell, zero_add, toInt32_id _ (toInt32_range _).1 (toInt32_range _).2]
    exact toInt32_id _ (by omega) (by omega)
  have hd : (reset L c).dictionaryPtrAddr = 0 := by
    show getCell (setCell c.runtime 0 0) 0 = 0
    exact e0
  have hl : (reset L c).lastWordPtrAddr = L.cellSize := by
    show getCell (setCell (setCell c.runtime 0 0) 0
      (toInt32 (getCell (setCell c.runtime 0 0) 0 + L.cellSize)))
      (getCell (setCell c.runtime 0 0) 0) = L.cellSize
    rw [e0]
    exact e1
  have hm : (reset L c).runtime =
      setCell (setCell (setCell (setCell c.runtime 0 0) 0 (toInt32 (0 + L.cellSize))) 0
        (toInt32 (L.cellSize + L.cellSize))) L.cellSize 0 := by
    show setCell (setCell (setCell (setCell c.runtime 0 0) 0
      (toInt32 (getCell (setCell c.runtime 0 0) 0 + L.cellSize)))
      (getCell (setCell c.runtime 0 0) 0)
      (toInt32 (getCell (setCell (setCell c.runtime 0 0) 0
        (toInt32 (getCell (setCell c.runtime 0 0) 0 + L.cellSize)))
        (getCell (setCell c.runtime 0 0) 0) + L.cellSize)))
      (getCell (setCell (setCell c.runtime 0 0) 0
        (toInt32 (getCell (setCell c.runtime 0 0) 0 + L.cellSize)))
        (getCell (setCell c.runtime 0 0) 0)) 0 = _
    rw [e0, e1]
  refine ⟨⟨hd, hl⟩, ?_, ?_, rfl⟩
  · rw [hm, getCell_setCell_other _ _ _ _ (by omega), getCell_setCell,
      toInt32_id _ (toInt32_range _).1 (toInt32_range _).2]
    rw [toInt32_id _ (by omega) (by omega)]
    omega
  · rw [hm, getCell_setCell]
    rfl

theorem tokSize_nonneg (L : Layout) (hL : WF L) (t : Tok) (marks : List Int) :
    0 ≤ t.size L marks := by
  have hw := hL
  obtain ⟨w1, w2, w3, w4, w5, w6, w7, w8, w9, w10, w11, w12, w13⟩ := hw
  cases t with
  | op o => exact le_of_lt (opSize_pos L hL o).1
  | BEGIN => simp [Tok.size]
  | IF => simp only [Tok.size]; omega
  | ENDIF => simp [Tok.size]
  | ELSE => simp only [Tok.size]; split <;> omega
  | AGAIN => simp only [Tok.size]; split <;> omega

theorem placed_call (L : Layout) (hL : WF L) (k : Call) (c c2 : Compiler)
    (r : Except CompileError (Option Int)) (fuel : Nat) (hp : Placed L c)
    (h : callRun L fuel k c = some (r, c2)) : Placed L c2 := by
  cases k with
  | reset =>
    simp only [callRun, Option.some.injEq, Prod.mk.injEq] at h
    rw [← h.2]
    exact (reset_units L hL c).1
  | tok t =>
    by_cases ht : t = .ENDIF
    · subst ht
      cases hm : c.marks with
      | nil =>
        rw [callRun, endif_units_empty L fuel c hm] at h
        simp only [Option.some.injEq, Prod.mk.injEq] at h
        rw [← h.2]; exact hp
      | cons b ms =>
        rw [callRun, endif_units L fuel c b ms hm] at h
        simp only [Option.some.injEq, Prod.mk.injEq] at h
        rw [← h.2]; exact hp
    · exact (tokRun_units L hL t c c2 r fuel hp ht h).1

theorem tame_call (L : Layout) (hL : WF L) (k : Call) (c c2 : Compiler)
    (r : Except CompileError (Option Int)) (fuel : Nat) (hs : Tame L c)
    (hok : inRange L c k = true) (h : callRun L fuel k c = some (r, c2)) : Tame L c2 := by
  have hw := hL
  obtain ⟨w1, w2, w3, w4, w5, w6, w7, w8, w9, w10, w11, w12, w13⟩ := hw
  obtain ⟨hp, hf, hmk⟩ := hs
  cases k with
  | reset =>
    simp only [callRun, Option.some.injEq, Prod.mk.injEq] at h
    rw [← h.2]
    obtain ⟨a1, a2, _, a4⟩ := reset_units L hL c
    exact ⟨a1, by rw [a2], by rw [a4]; exact hmk⟩
  | tok t =>
    by_cases ht : t = .ENDIF
    · subst ht
      cases hm : c.marks with
      | nil =>
        rw [callRun, endif_units_empty L fuel c hm] at h
        simp only [Option.some.injEq, Prod.mk.injEq] at h
        rw [← h.2]; exact ⟨hp, hf, hmk⟩
      | cons b ms =>
        rw [callRun, endif_units L fuel c b ms hm] at h
        simp only [Option.some.injEq, Prod.mk.injEq] at h
        rw [← h.2]
        have hb := hmk b (by rw [hm]; exact List.mem_cons_self _ _)
        refine ⟨hp, ?_, fun m hm2 => hmk m (by rw [hm]; exact List.mem_cons_of_mem _ hm2)⟩
        show 2 * L.cellSize ≤ getCell (setCell c.runtime (b + L.dataOff) (getDictionaryPtr c)) 0
        rw [getCell_setCell_other _ _ _ _ (by omega)]
        exact hf
    · have hroom : getCell c.runtime 0 + t.size L c.marks ≤ intMax := by
        have := hok
        simp only [inRange, decide_eq_true_eq, placed_frontier L c hp] at this
        exact this
      obtain ⟨e1, e2, _, _, e5⟩ := tokRun_units L hL t c c2 r fuel hp ht h
      obtain ⟨b1, _⟩ := e5 hf hroom
      have := tokSize_nonneg L hL t c.marks
      refine ⟨e1, by omega, ?_⟩
      intro m hm2
      rcases e2 m hm2 with h1 | h1
      · exact hmk m h1
      · omega

theorem runCalls_tame (L : Layout) (hL : WF L) (fuel : Nat) (ks : List Call) :
    ∀ (c c2 : Compiler), Tame L c → runCalls L fuel (inRange L) ks c = some c2 → Tame L c2 := by
  induction ks with
  | nil =>
    intro c c2 hp h
    simp only [runCalls, Option.some.injEq] at h
    rw [← h]; exact hp
  | cons k ks ih =>
    intro c c2 hp h
    simp only [runCalls] at h
    split at h
    · rename_i hok
      cases hk : callRun L fuel k c with
      | none => simp [hk] at h
      | some x =>
        obtain ⟨r, c1⟩ := x
        simp only [hk] at h
        exact ih c1 c2 (tame_call L hL k c c1 r fuel hp hok hk) h
    · cases h

theorem construct_tame (L : Layout) (hL : WF L) (m : Memory) : Tame L (construct L m) := by
  obtain ⟨a1, a2, _, a4⟩ := reset_units L hL
    { runtime := m, dictionaryPtrAddr := 0, lastWordPtrAddr := 0, marks := [] }
  refine ⟨a1, ?_, ?_⟩
  · show 2 * L.cellSize ≤ getCell (reset L _).runtime 0
    rw [a2]
  · intro x hx
    have : (construct L m).marks = [] := a4
    rw [this] at hx
    simp at hx

theorem tokRun_returns (L : Layout) (t : Tok) (c : Compiler) (fuel : Nat)
    (h : ∀ n, t = .op (.compileReference n) → ∃ w, findWord L fuel c n = some w) :
    ∃ x, tokRun L fuel t c = some x := by
  cases t with
  | op o =>
    cases o with
    | compileReference n =>
      obtain ⟨w, hw⟩ := h n rfl
      exact ⟨(.ok (some (compileInstruction L c ⟨.DoColon, w⟩).1),
        (compileInstruction L c ⟨.DoColon, w⟩).2),
        by simp [tokRun, opRun, compileReference, hw]⟩
    | _ => exact ⟨_, rfl⟩
  | _ => exact ⟨_, rfl⟩

/-! ## The dictionary chain -/

theorem chain_units_congr (L : Layout) (m m2 : Memory) (as : List Int) :
    ∀ (hi w : Int), Links L m hi w as →
      (∀ a ∈ as, getCell m2 (a + L.prevOff) = getCell m (a + L.prevOff)) →
      Links L m2 hi w as := by
  induction as with
  | nil => intro hi w h _; exact h
  | cons a as ih =>
    intro hi w h hm
    obtain ⟨h1, h2, h3, h4⟩ := h
    refine ⟨h1, h2, h3, ?_⟩
    rw [hm a (List.mem_cons_self _ _)]
    exact ih _ _ h4 (fun x hx => hm x (List.mem_cons_of_mem _ hx))

theorem chain_units_bound (L : Layout) (m : Memory) (hw : 0 ≤ L.wordSize) (as : List Int) :
    ∀ (hi w : Int), Links L m hi w as →
      ∀ a ∈ as, 2 * L.cellSize ≤ a ∧ a + L.wordSize ≤ hi := by
  induction as with
  | nil => intro hi w _ a ha; simp at ha
  | cons a as ih =>
    intro hi w h x hx
    obtain ⟨_, h2, h3, h4⟩ := h
    rcases List.mem_cons.1 hx with rfl | hx
    · exact ⟨h2, h3⟩
    · have := ih _ _ h4 x hx
      exact ⟨this.1, by omega⟩

theorem chain_units_mono (L : Layout) (m : Memory) (as : List Int) (hi hi2 w : Int)
    (h : Links L m hi w as) (hle : hi ≤ hi2) : Links L m hi2 w as := by
  cases as with
  | nil => exact h
  | cons a as =>
    obtain ⟨h1, h2, h3, h4⟩ := h
    exact ⟨h1, h2, by omega, h4⟩

theorem chain_units_prev (L : Layout) (m : Memory) (hw : 0 < L.wordSize) (as : List Int) :
    ∀ (hi w : Int), Links L m hi w as →
      ∀ a ∈ as, getCell m (a + L.prevOff) = 0 ∨ getCell m (a + L.prevOff) < a := by
  induction as with
  | nil => intro hi w _ a ha; simp at ha
  | cons a as ih =>
    intro hi w h x hx
    obtain ⟨_, _, _, h4⟩ := h
    rcases List.mem_cons.1 hx with rfl | hx
    · cases as with
      | nil => exact Or.inl h4
      | cons b bs =>
        obtain ⟨g1, _, g3, _⟩ := h4
        right; omega
    · exact ih _ _ h4 x hx

theorem findWordLoop_returns (L : Layout) (m : Memory) (name : Name) (hc : 0 < L.cellSize)
    (as : List Int) :
    ∀ (hi w : Int) (fuel : Nat), Links L m hi w as → as.length < fuel →
      ∃ r, findWordLoop L m name fuel w = some r := by
  induction as with
  | nil =>
    intro hi w fuel h hf
    cases fuel with
    | zero => simp at hf
    | succ fuel =>
      have hw : w = 0 := h
      exact ⟨-1, by simp [findWordLoop, hw]⟩
  | cons a as ih =>
    intro hi w fuel h hf
    obtain ⟨h1, h2, h3, h4⟩ := h
    cases fuel with
    | zero => simp at hf
    | succ fuel =>
      subst h1
      have hw : w ≠ 0 := by omega
      simp only [findWordLoop, hw, if_false]
      by_cases hn : name = toCString m (w + L.nameOff)
      · exact ⟨w, by simp [hn]⟩
      · simp only [hn, if_false]
        exact ih _ _ _ h4 (by simpa using hf)

theorem linked_findWord_returns (L : Layout) (hL : WF L) (c : Compiler) (as : List Int)
    (h : Linked L c as) (fuel : Nat) (hf : as.length < fuel) (name : Name) :
    ∃ w, findWord L fuel c name = some w := by
  have hc : 0 < L.cellSize := by
    obtain ⟨_, _, _, _, _, _, _, _, _, _, _, _, _⟩ := hL
    omega
  unfold findWord
  rw [h.1.1.2]
  exact findWordLoop_returns L c.runtime name hc as _ _ fuel h.2.2.1 hf

theorem tokSize_cases (L : Layout) (hL : WF L) (t : Tok) (marks : List Int) :
    t.size L marks = 0 ∨ L.dataOff + 4 ≤ t.size L marks := by
  obtain ⟨w1, w2, w3, w4, w5, w6, w7, w8, w9, w10, w11, w12, w13⟩ := hL
  cases t with
  | op o => right; cases o <;> simp only [Tok.size, Op.size] <;> omega
  | BEGIN => left; rfl
  | IF => right; simp only [Tok.size]; omega
  | ENDIF => left; rfl
  | ELSE => simp only [Tok.size]; split; · left; rfl
            · right; omega
  | AGAIN => simp only [Tok.size]; split; · left; rfl
             · right; omega

theorem linked_call (L : Layout) (hL : WF L)
    (hp : L.prevOff + 4 ≤ L.dataOff ∨ L.dataOff + 4 ≤ L.prevOff) (k : Call)
    (c c2 : Compiler) (as : List Int) (r : Except CompileError (Option Int)) (fuel : Nat)
    (h : Linked L c as) (hok : tidy L c k = true) (hx : callRun L fuel k c = some (r, c2)) :
    ∃ as2, Linked L c2 as2 ∧ as2.length ≤ as.length + 1 := by
  have hw := hL
  obtain ⟨w1, w2, w3, w4, w5, w6, w7, w8, w9, w10, w11, w12, w13⟩ := hw
  obtain ⟨hs, hmf, hlk, hmk⟩ := h
  have hf0 := hs.2.1
  have hbd := chain_units_bound L c.runtime (by omega) as _ _ hlk
  cases k with
  | reset =>
    have hm : c.marks = [] := by simpa [tidy] using hok
    simp only [callRun, Option.some.injEq, Prod.mk.injEq] at hx
    rw [← hx.2]
    obtain ⟨a1, a2, a3, a4⟩ := reset_units L hL c
    have hm2 : (reset L c).marks = [] := by rw [a4, hm]
    refine ⟨[], ⟨⟨a1, by rw [a2], ?_⟩, ?_, ?_, ?_⟩, by simp⟩
    · intro m hm3; rw [hm2] at hm3; simp at hm3
    · intro m hm3; rw [hm2] at hm3; simp at hm3
    · show getCell (reset L c).runtime L.cellSize = 0
      exact a3
    · intro m hm3; rw [hm2] at hm3; simp at hm3
  | tok t =>
    have hok2 : inRange L c (.tok t) = true := hok
    have hs2 := tame_call L hL (.tok t) c c2 r fuel hs hok2 hx
    by_cases ht : t = .ENDIF
    · subst ht
      cases hm : c.marks with
      | nil =>
        rw [callRun, endif_units_empty L fuel c hm] at hx
        simp only [Option.some.injEq, Prod.mk.injEq] at hx
        rw [← hx.2]
        exact ⟨as, ⟨hs, hmf, hlk, hmk⟩, by omega⟩
      | cons b ms =>
        rw [callRun, endif_units L fuel c b ms hm] at hx
        simp only [Option.some.injEq, Prod.mk.injEq] at hx
        obtain ⟨_, rfl⟩ := hx
        have hbm : b ∈ c.marks := by rw [hm]; exact List.mem_cons_self _ _
        have hb2 := hs.2.2 b hbm
        have e0 : getCell (setCell c.runtime (b + L.dataOff) (getDictionaryPtr c)) 0 =
            getCell c.runtime 0 := getCell_setCell_other _ _ _ _ (by omega)
        have e1 : getCell (setCell c.runtime (b + L.dataOff) (getDictionaryPtr c)) L.cellSize =
            getCell c.runtime L.cellSize := getCell_setCell_other _ _ _ _ (by omega)
        refine ⟨as, ⟨hs2, ?_, ?_, ?_⟩, by omega⟩
        · intro m hm2
          show m = getCell (setCell c.runtime (b + L.dataOff) (getDictionaryPtr c)) 0 ∨
            m + L.dataOff + 4 ≤ getCell (setCell c.runtime (b + L.dataOff) (getDictionaryPtr c)) 0
          rw [e0]
          exact hmf m (by rw [hm]; exact List.mem_cons_of_mem _ hm2)
        · show Links L (setCell c.runtime (b + L.dataOff) (getDictionaryPtr c))
            (getCell (setCell c.runtime (b + L.dataOff) (getDictionaryPtr c)) 0)
            (getCell (setCell c.runtime (b + L.dataOff) (getDictionaryPtr c)) L.cellSize) as
          rw [e0, e1]
          apply chain_units_congr L c.runtime _ as _ _ hlk
          intro a ha
          exact getCell_setCell_other _ _ _ _ (by have := hmk b hbm a ha; omega)
        · intro m hm2 a ha
          exact hmk m (by rw [hm]; exact List.mem_cons_of_mem _ hm2) a ha
    · have hroom : getCell c.runtime 0 + t.size L c.marks ≤ intMax := by
        have := hok2
        simp only [inRange, decide_eq_true_eq, placed_frontier L c hs.1] at this
        exact this
      obtain ⟨e1, e2, e3, _, e5⟩ := tokRun_units L hL t c c2 r fuel hs.1 ht hx
      obtain ⟨b1, b2⟩ := e5 hf0 hroom
      have hsz := tokSize_cases L hL t c.marks
      have hold : ∀ a ∈ as, getCell c2.runtime (a + L.prevOff) =
          getCell c.runtime (a + L.prevOff) := by
        intro a ha
        have := hbd a ha
        exact getCell_congr _ _ _ (fun k h1 h2 => e3 k (by omega) (by omega))
      have hmf2 : ∀ m ∈ c2.marks,
          m = getCell c2.runtime 0 ∨ m + L.dataOff + 4 ≤ getCell c2.runtime 0 := by
        intro m hm2
        rcases e2 m hm2 with h1 | h1
        · rcases hmf m h1 with h3 | h3 <;> omega
        · omega
      rcases b2 with b2 | ⟨b2, b3, b4⟩
      · refine ⟨as, ⟨hs2, hmf2, ?_, ?_⟩, by omega⟩
        · rw [b2]
          exact chain_units_mono L _ as _ _ _ (chain_units_congr L c.runtime _ as _ _ hlk hold)
            (by omega)
        · intro m hm2 a ha
          rcases e2 m hm2 with h1 | h1
          · exact hmk m h1 a ha
          · have := hbd a ha
            omega
      · refine ⟨getCell c.runtime 0 :: as, ⟨hs2, hmf2, ?_, ?_⟩, by simp⟩
        · rw [b2]
          refine ⟨rfl, hf0, b4, ?_⟩
          rw [b3]
          exact chain_units_congr L c.runtime _ as _ _ hlk hold
        · intro m hm2 a ha
          rcases List.mem_cons.1 ha with rfl | ha
          · rcases e2 m hm2 with h1 | h1
            · rcases hmf m h1 with h3 | h3 <;> omega
            · omega
          · rcases e2 m hm2 with h1 | h1
            · exact hmk m h1 a ha
            · have := hbd a ha
              omega

theorem runCalls_linked (L : Layout) (hL : WF L)
    (hp : L.prevOff + 4 ≤ L.dataOff ∨ L.dataOff + 4 ≤ L.prevOff) (fuel : Nat)
    (ks : List Call) :
    ∀ (c c2 : Compiler) (as : List Int), Linked L c as →
      runCalls L fuel (tidy L) ks c = some c2 →
      ∃ as2, Linked L c2 as2 ∧ as2.length ≤ as.length + ks.length := by
  induction ks with
  | nil =>
    intro c c2 as hl h
    simp only [runCalls, Option.some.injEq] at h
    rw [← h]
    exact ⟨as, hl, by simp⟩
  | cons k ks ih =>
    intro c c2 as hl h
    simp only [runCalls] at h
    split at h
    · rename_i hok
      cases hk : callRun L fuel k c with
      | none => simp [hk] at h
      | some x =>
        obtain ⟨r, c1⟩ := x
        simp only [hk] at h
        obtain ⟨as1, hl1, hlen1⟩ := linked_call L hL hp k c c1 as r fuel hl hok hk
        obtain ⟨as2, hl2, hlen2⟩ := ih c1 c2 as1 hl1 h
        exact ⟨as2, hl2, by simp only [List.length_cons]; omega⟩
    · cases h

theorem construct_linked (L : Layout) (hL : WF L) (m : Memory) :
    Linked L (construct L m) [] := by
  obtain ⟨_, _, a3, a4⟩ := reset_units L hL
    { runtime := m, dictionaryPtrAddr := 0, lastWordPtrAddr := 0, marks := [] }
  have hm : (construct L m).marks = [] := a4
  refine ⟨construct_tame L hL m, ?_, a3, ?_⟩
  · intro x hx; rw [hm] at hx; simp at hx
  · intro x hx; rw [hm] at hx; simp at hx

/-! ## Frontier, returned addresses, frame and chain, unit by unit -/

/-- A patch that lands on a name field: after `compileBegin()` (mark 16) and
`compileWord("dup")` (entry at 16, name field from 20), the units 21, 22, 23
hold `d`, `u`, `p`; `compileEndif()` stores the frontier 60 in the four units
from 16 + 4 = 20, so the units 21, 22, 23 then hold 0. -/
theorem endif_patch_over_name :
    ((compileWord1 layout44 (compileBegin (fresh layout44)).2 "dup".toList).2.runtime 21,
      (compileWord1 layout44 (compileBegin (fresh layout44)).2 "dup".toList).2.runtime 22,
      (compileWord1 layout44 (compileBegin (fresh layout44)).2 "dup".toList).2.runtime 23) =
      (100, 117, 112) ∧
    ((compileEndif layout44
        (compileWord1 layout44 (compileBegin (fresh layout44)).2 "dup".toList).2).2.runtime 20,
      (compileEndif layout44
        (compileWord1 layout44 (compileBegin (fresh layout44)).2 "dup".toList).2).2.runtime 21,
      (compileEndif layout44
        (compileWord1 layout44 (compileBegin (fresh layout44)).2 "dup".toList).2).2.runtime 22,
      (compileEndif layout44
        (compileWord1 layout44 (compileBegin (fresh layout44)).2 "dup".toList).2).2.runtime 23) =
      (60, 0, 0, 0) := by
  decide

/-- Why the chain invariant asks something of the layout: were the link field
to overlap the units of an instruction's operand (here both at offset 4),
`BEGIN`, a word definition and `ENDIF` would patch the new entry's link, and
after one more definition the entries at 16 and 60 link to each other. -/
theorem chain_cycle_when_link_overlaps_operand :
    (runCalls { layout44 with prevOff := 4, nameOff := 8, nameCap := 28 } 4
      (tidy { layout44 with prevOff := 4, nameOff := 8, nameCap := 28 })
      [Call.tok Tok.BEGIN, Call.tok (Tok.op (Op.compileWord1 "a".toList)), Call.tok Tok.ENDIF,
        Call.tok (Tok.op (Op.compileWord1 "b".toList))]
      (fresh { layout44 with prevOff := 4, nameOff := 8, nameCap := 28 })).map
      (fun c => (getCell c.runtime c.lastWordPtrAddr, getCell c.runtime (60 + 4),
        getCell c.runtime (16 + 4))) =
      some (60, 16, 60) := by
  decide

theorem runCalls_compileData (L : Layout) (hL : WF L) (fuel : Nat) (v : Int) (n : Nat) :
    ∀ (c : Compiler), Placed L c → 2 * L.cellSize ≤ getCell c.runtime 0 →
      getCell c.runtime 0 + n * L.cellSize ≤ intMax →
      ∃ c2, runCalls L fuel (inRange L) (List.replicate n (Call.tok (Tok.op (Op.compileData v)))) c
          = some c2 ∧
        Placed L c2 ∧ getCell c2.runtime 0 = getCell c.runtime 0 + n * L.cellSize := by
  have hw := hL
  obtain ⟨w1, w2, w3, w4, w5, w6, w7, w8, w9, w10, w11, w12, w13⟩ := hw
  induction n with
  | zero =>
    intro c hp _ _
    exact ⟨c, rfl, hp, by simp⟩
  | succ n ih =>
    intro c hp hf hroom
    have hmul : ((n + 1 : Nat) : Int) * L.cellSize = n * L.cellSize + L.cellSize := by
      push_cast; ring
    have hn : 0 ≤ (n : Int) * L.cellSize := by
      have : (0 : Int) ≤ n := Int.ofNat_nonneg n
      exact Int.mul_nonneg this (by omega)
    rw [hmul] at hroom
    have hrun : tokRun L fuel (.op (.compileData v)) c =
        some (.ok (some (compileData L c v).1), (compileData L c v).2) := rfl
    obtain ⟨e1, _, _, _, e5⟩ := tokRun_units L hL _ c _ _ fuel hp (by simp) hrun
    obtain ⟨b1, _⟩ := e5 hf (by simp only [Tok.size, Op.size]; omega)
    simp only [Tok.size, Op.size] at b1
    obtain ⟨c2, hr, hp2, hf2⟩ := ih (compileData L c v).2 e1 (by omega) (by omega)
    refine ⟨c2, ?_, hp2, by rw [hf2, b1, hmul]; ring⟩
    have hok : inRange L c (Call.tok (Tok.op (Op.compileData v))) = true := by
      simp only [inRange, decide_eq_true_eq, placed_frontier L c hp, Tok.size, Op.size]
      omega
    simp only [List.replicate_succ, runCalls, hok, if_true, callRun, hrun]
    exact hr

/-- C11 fails on the code: 268435453 calls of `compileData(0)` after the
constructor, none of which leaves the range of `int`, bring the frontier to
2147483640; one more `compileData(0)` returns 2147483640 and leaves in the
frontier cell the sum 2147483648 converted to `int`, -2147483648, a value
below the one before the call. -/
theorem frontier_wraps_around :
    ∃ c, runCalls layout44 1 (inRange layout44)
        (List.replicate 268435453 (Call.tok (Tok.op (Op.compileData 0)))) (fresh layout44) =
        some c ∧
      getDictionaryPtr c = 2147483640 ∧
      tokRun layout44 1 (Tok.op (Op.compileData 0)) c =
        some (.ok (some 2147483640), (compileData layout44 c 0).2) ∧
      getDictionaryPtr (compileData layout44 c 0).2 = -2147483648 ∧
      ¬ (getDictionaryPtr c ≤ getDictionaryPtr (compileData layout44 c 0).2) := by
  have hL : WF layout44 := by decide
  have ht := construct_tame layout44 hL (fun _ => 0)
  have h0 : getCell (fresh layout44).runtime 0 = 16 :=
    (reset_units layout44 hL _).2.1
  obtain ⟨c, hr, hp, hf⟩ := runCalls_compileData layout44 hL 1 0 268435453 (fresh layout44)
    ht.1 (by rw [h0]; decide) (by rw [h0]; decide)
  have hf2 : getCell c.runtime 0 = 2147483640 := by
    rw [hf, h0]; decide
  obtain ⟨a1, _, a3⟩ := compileData_units layout44 hL c 0 hp.1
  have hfr : getDictionaryPtr c = 2147483640 := by
    rw [placed_frontier layout44 c hp, hf2]
  have hfr2 : getDictionaryPtr (compileData layout44 c 0).2 = -2147483648 := by
    have hp2 : Placed layout44 (compileData layout44 c 0).2 := hp
    rw [placed_frontier layout44 _ hp2, a3 (by rw [hf2]; decide), hf2]
    decide
  refine ⟨c, hr, hfr, ?_, hfr2, ?_⟩
  · show some (Except.ok (some (compileData layout44 c 0).1), (compileData layout44 c 0).2) = _
    rw [a1, hf2]
  · rw [hfr, hfr2]; decide

theorem compileElse_stores (L : Layout) (c : Compiler) (m : Int) (ms : List Int)
    (hm : c.marks = m :: ms) :
    (compileElse L c).2.runtime =
      (compileInstruction L c (Instruction.ofOpCode .Branch)).2.runtime := by
  simp only [compileElse, popMark, hm]
  rfl

/-- C11 as amended: in every state reached from the constructor by any
sequence of calls (`reset()` included) none of which took a sum out of the
range of `int`, a call for which the frontier plus the units it allocates does
not exceed `INT_MAX` returns (if it is not `compileReference`, which returns
when `findWord` does) and leaves the frontier at the old frontier plus those
units, so not below the old frontier.  No patch writes the frontier cell: with
`m` the top mark, `compileEndif` leaves every unit outside the four units from
`m + dataOff` as it was, and those lie behind the frontier cell;
`compileElse` stores exactly what `compileInstruction` stores. -/
theorem frontier_monotone (L : Layout) (hL : WF L) (m0 : Memory) (ks : List Call) (fuel : Nat)
    (c : Compiler) (hreach : runCalls L fuel (inRange L) ks (construct L m0) = some c)
    (t : Tok) (fuel2 : Nat)
    (hroom : getDictionaryPtr c + t.size L c.marks ≤ intMax) :
    ((∀ n, t ≠ .op (.compileReference n)) → ∃ x, tokRun L fuel2 t c = some x) ∧
    (∀ r c2, tokRun L fuel2 t c = some (r, c2) →
      getDictionaryPtr c2 = getDictionaryPtr c + t.size L c.marks ∧
      getDictionaryPtr c ≤ getDictionaryPtr c2) ∧
    (∀ m ms, c.marks = m :: ms →
      c.dictionaryPtrAddr + L.cellSize ≤ m + L.dataOff ∧
      (∀ k, (k < m + L.dataOff ∨ m + L.dataOff + 4 ≤ k) →
        (compileEndif L c).2.runtime k = c.runtime k) ∧
      (compileElse L c).2.runtime =
        (compileInstruction L c (Instruction.ofOpCode .Branch)).2.runtime) := by
  have hw := hL
  obtain ⟨w1, w2, w3, w4, w5, w6, w7, w8, w9, w10, w11, w12, w13⟩ := hw
  have hs := runCalls_tame L hL fuel ks _ c (construct_tame L hL m0) hreach
  have hfr := placed_frontier L c hs.1
  refine ⟨fun hne => tokRun_returns L t c fuel2 (fun n hn => absurd hn (hne n)), ?_, ?_⟩
  · intro r c2 h
    have hp2 : Placed L c2 := placed_call L hL (.tok t) c c2 r fuel2 hs.1 h
    have hnn := tokSize_nonneg L hL t c.marks
    rw [hfr, placed_frontier L c2 hp2]
    by_cases ht : t = .ENDIF
    · subst ht
      have hz : Tok.size L c.marks .ENDIF = 0 := rfl
      rw [hz, add_zero]
      cases hm : c.marks with
      | nil =>
        rw [endif_units_empty L fuel2 c hm] at h
        simp only [Option.some.injEq, Prod.mk.injEq] at h
        rw [← h.2]
        exact ⟨rfl, le_refl _⟩
      | cons b ms =>
        rw [endif_units L fuel2 c b ms hm] at h
        simp only [Option.some.injEq, Prod.mk.injEq] at h
        rw [← h.2]
        have hb := hs.2.2 b (by rw [hm]; exact List.mem_cons_self _ _)
        have e : getCell (setCell c.runtime (b + L.dataOff) (getDictionaryPtr c)) 0 =
            getCell c.runtime 0 := getCell_setCell_other _ _ _ _ (by omega)
        exact ⟨e, le_of_eq e.symm⟩
    · rw [hfr] at hroom
      obtain ⟨b1, _⟩ := (tokRun_units L hL t c c2 r fuel2 hs.1 ht h).2.2.2.2 hs.2.1 hroom
      exact ⟨b1, by omega⟩
  · intro m ms hm
    have hb := hs.2.2 m (by rw [hm]; exact List.mem_cons_self _ _)
    refine ⟨by rw [hs.1.1]; omega, ?_, compileElse_stores L c m ms hm⟩
    intro k hk
    have e : (compileEndif L c).2.runtime =
        setCell c.runtime (m + L.dataOff) (getDictionaryPtr c) := by
      simp only [compileEndif, popMark, hm, setInstructionData]
      rfl
    rw [e]
    exact setCell_outside _ _ _ _ hk

theorem frontier_monotone_witness :
    getDictionaryPtr (compileEndif layout44 (compileIf layout44 (fresh layout44)).2).2 =
      getDictionaryPtr (compileIf layout44 (fresh layout44)).2 +
        Tok.ENDIF.size layout44 (compileIf layout44 (fresh layout44)).2.marks ∧
    getDictionaryPtr (compileIf layout44 (fresh layout44)).2 ≤
      getDictionaryPtr (compileEndif layout44 (compileIf layout44 (fresh layout44)).2).2 :=
  (frontier_monotone layout44 (by decide) (fun _ => 0) [Call.tok Tok.IF] 1
      (compileIf layout44 (fresh layout44)).2 rfl Tok.ENDIF 1 (by decide)).2.1
      ((compileEndif layout44 (compileIf layout44 (fresh layout44)).2).1.map some)
      (compileEndif layout44 (compileIf layout44 (fresh layout44)).2).2 rfl

/-- C12 fails on the code: after the constructor the frontier is 16;
`compileBegin()` returns 16 and leaves the frontier at 16, so the returned
address is not below the new frontier.  After `compileIf(); compileLiteral(1)`
the frontier is 32, while `compileEndif()` returns the popped mark 16, which is
below the previous frontier.  And a mark outlives `reset()`: after five
`compileLiteral(0)`, `compileBegin()` (mark 56) and `reset()`, the frontier is
16 and `compileEndif()` returns 56, which is above both frontiers. -/
theorem returned_address_outside_range :
    getDictionaryPtr (fresh layout44) = 16 ∧
    (compileBegin (fresh layout44)).1 = 16 ∧
    getDictionaryPtr (compileBegin (fresh layout44)).2 = 16 ∧
    ¬ ((compileBegin (fresh layout44)).1 < getDictionaryPtr (compileBegin (fresh layout44)).2) ∧
    getDictionaryPtr (compileLiteral layout44 (compileIf layout44 (fresh layout44)).2 1).2 = 32 ∧
    (compileEndif layout44
      (compileLiteral layout44 (compileIf layout44 (fresh layout44)).2 1).2).1 = .ok 16 ∧
    ¬ (getDictionaryPtr (compileLiteral layout44 (compileIf layout44 (fresh layout44)).2 1).2
      ≤ 16) ∧
    (runCalls layout44 1 (inRange layout44)
      [Call.tok (Tok.op (Op.compileLiteral 0)), Call.tok (Tok.op (Op.compileLiteral 0)),
        Call.tok (Tok.op (Op.compileLiteral 0)), Call.tok (Tok.op (Op.compileLiteral 0)),
        Call.tok (Tok.op (Op.compileLiteral 0)), Call.tok Tok.BEGIN, Call.reset]
      (fresh layout44)).map
      (fun s => (getDictionaryPtr s, (compileEndif layout44 s).1,
        getDictionaryPtr (compileEndif layout44 s).2)) = some (16, .ok 56, 16) := by
  decide

/-- C12 as amended: in every state reached from the constructor by any
sequence of calls (`reset()` included) none of which took a sum out of the
range of `int`, with `f` the frontier before a call and `f2` the frontier after
it: `compileBegin` returns `f` and `f2 = f`; `compileEndif` returns the popped
mark and `f2 = f`; every other call that returns a value (the return value of
`compileConstant` is left aside) returns `f`, and `f < f2` when `f` plus the
units the call allocates does not exceed `INT_MAX`. -/
theorem returned_address_range (L : Layout) (hL : WF L) (m0 : Memory) (ks : List Call)
    (fuel : Nat) (c : Compiler)
    (hreach : runCalls L fuel (inRange L) ks (construct L m0) = some c) (t : Tok) (fuel2 : Nat)
    (hroom : getDictionaryPtr c + t.size L c.marks ≤ intMax)
    (r : Option Int) (c2 : Compiler) (h : tokRun L fuel2 t c = some (.ok r, c2)) :
    (t = .BEGIN → r = some (getDictionaryPtr c) ∧ getDictionaryPtr c2 = getDictionaryPtr c) ∧
    (t = .ENDIF → ∃ m ms, c.marks = m :: ms ∧ r = some m ∧
      getDictionaryPtr c2 = getDictionaryPtr c) ∧
    (t ≠ .BEGIN → t ≠ .ENDIF → (∀ n v, t ≠ .op (.compileConstant n v)) →
      r = some (getDictionaryPtr c) ∧ getDictionaryPtr c < getDictionaryPtr c2) := by
  have hw := hL
  obtain ⟨w1, w2, w3, w4, w5, w6, w7, w8, w9, w10, w11, w12, w13⟩ := hw
  have hs := runCalls_tame L hL fuel ks _ c (construct_tame L hL m0) hreach
  have hfr := placed_frontier L c hs.1
  have hp2 : Placed L c2 := placed_call L hL (.tok t) c c2 (.ok r) fuel2 hs.1 h
  rw [hfr, placed_frontier L c2 hp2]
  rw [hfr] at hroom
  refine ⟨?_, ?_, ?_⟩
  · intro ht
    obtain ⟨_, _, _, e4, e5⟩ := tokRun_units L hL t c c2 (.ok r) fuel2 hs.1
      (by rw [ht]; simp) h
    obtain ⟨b1, _⟩ := e5 hs.2.1 hroom
    rcases e4 with ⟨e, he, _⟩ | ⟨he, _⟩ | ⟨_, n, v, hn⟩
    · cases he
    · simp only [Except.ok.injEq] at he
      subst ht
      exact ⟨he, by rw [b1]; simp [Tok.size]⟩
    · rw [ht] at hn; cases hn
  · intro ht
    subst ht
    cases hm : c.marks with
    | nil =>
      rw [endif_units_empty L fuel2 c hm] at h
      simp only [Option.some.injEq, Prod.mk.injEq] at h
      cases h.1
    | cons b ms =>
      rw [endif_units L fuel2 c b ms hm] at h
      simp only [Option.some.injEq, Prod.mk.injEq, Except.ok.injEq] at h
      obtain ⟨h1, h2⟩ := h
      have hb := hs.2.2 b (by rw [hm]; exact List.mem_cons_self _ _)
      refine ⟨b, ms, rfl, h1.symm, ?_⟩
      rw [← h2]
      exact getCell_setCell_other _ _ _ _ (by omega)
  · intro hb he hc
    obtain ⟨_, _, _, e4, e5⟩ := tokRun_units L hL t c c2 (.ok r) fuel2 hs.1 he h
    obtain ⟨b1, _⟩ := e5 hs.2.1 hroom
    rcases e4 with ⟨e, hx, _⟩ | ⟨hx, hh⟩ | ⟨_, n, v, hn⟩
    · cases hx
    · simp only [Except.ok.injEq] at hx
      rcases hh with hh | hh
      · exact absurd hh hb
      · exact ⟨hx, by omega⟩
    · exact absurd hn (hc n v)

theorem returned_address_range_witness :
    some (getDictionaryPtr (compileIf layout44 (fresh layout44)).2) =
      some (getDictionaryPtr (compileIf layout44 (fresh layout44)).2) ∧
    getDictionaryPtr (compileIf layout44 (fresh layout44)).2 <
      getDictionaryPtr (compileLiteral layout44 (compileIf layout44 (fresh layout44)).2 1).2 :=
  (returned_address_range layout44 (by decide) (fun _ => 0) [Call.tok Tok.IF] 1
    (compileIf layout44 (fresh layout44)).2 rfl (Tok.op (Op.compileLiteral 1)) 1 (by decide)
    (some (getDictionaryPtr (compileIf layout44 (fresh layout44)).2))
    (compileLiteral layout44 (compileIf layout44 (fresh layout44)).2 1).2 rfl).2.2
    (by decide) (by decide) (fun n v => by simp)

theorem createWord_lastEntry (L : Layout) (c : Compiler) (n : Name) (i : Instruction)
    (hp : Placed L c) :
    getCell (createWord L c n i).2.runtime L.cellSize = getCell c.runtime 0 := by
  have hm : (createWord L c n i).2.runtime =
      setCell (setInstruction L (fromCString n
        (setCell (setCell c.runtime 0 (toInt32 (getCell c.runtime 0 + L.wordSize)))
          (getCell c.runtime 0 + L.prevOff)
          (getCell (setCell c.runtime 0 (toInt32 (getCell c.runtime 0 + L.wordSize))) L.cellSize))
        (getCell c.runtime 0 + L.nameOff) L.nameCap) (getCell c.runtime 0 + L.refOff) i)
        L.cellSize (getCell c.runtime 0) := by
    simp [createWord, allocate, hp.1, hp.2]
  rw [hm, getCell_setCell]
  exact toInt32_id _ (getCell_range _ _).1 (getCell_range _ _).2

/-- Why the chain invariant asks that no sum leave `int`: with the frontier
at 2147483640 (reached by 268435453 calls of `compileData(0)`),
`compileWord("a")` leaves the frontier at 2147483684 converted to `int`,
-2147483612, and `compileWord("b")` then creates its entry there: the
lastEntry cell holds an address that lies before the bootstrap cells. -/
theorem entry_before_image_after_overflow :
    ∃ c, runCalls layout44 1 (inRange layout44)
        (List.replicate 268435453 (Call.tok (Tok.op (Op.compileData 0)))) (fresh layout44) =
        some c ∧
      getCell (compileWord1 layout44 (compileWord1 layout44 c "a".toList).2
        "b".toList).2.runtime layout44.cellSize = -2147483612 := by
  have hL : WF layout44 := by decide
  have ht := construct_tame layout44 hL (fun _ => 0)
  have h0 : getCell (fresh layout44).runtime 0 = 16 :=
    (reset_units layout44 hL _).2.1
  obtain ⟨c, hr, hp, hf⟩ := runCalls_compileData layout44 hL 1 0 268435453 (fresh layout44)
    ht.1 (by rw [h0]; decide) (by rw [h0]; decide)
  have hf2 : getCell c.runtime 0 = 2147483640 := by
    rw [hf, h0]; decide
  refine ⟨c, hr, ?_⟩
  obtain ⟨_, _, a3⟩ := createWord_units layout44 hL c "a".toList ⟨.INVALID, 0⟩ hp.1 hp.2
  obtain ⟨b1, _, _⟩ := a3 (by rw [hf2]; decide)
  have hp1 : Placed layout44 (createWord layout44 c "a".toList ⟨.INVALID, 0⟩).2 := hp
  show getCell (createWord layout44 (createWord layout44 c "a".toList ⟨.INVALID, 0⟩).2
    "b".toList ⟨.INVALID, 0⟩).2.runtime layout44.cellSize = _
  rw [createWord_lastEntry layout44 _ _ _ hp1, b1, hf2]
  decide

theorem findWordLoop_cycle (L : Layout) (m : Memory) (name : Name) (a b : Int)
    (ha : a ≠ 0) (hb : b ≠ 0)
    (hna : name ≠ toCString m (a + L.nameOff)) (hnb : name ≠ toCString m (b + L.nameOff))
    (hab : getCell m (a + L.prevOff) = b) (hba : getCell m (b + L.prevOff) = a) :
    ∀ fuel, findWordLoop L m name fuel a = none ∧ findWordLoop L m name fuel b = none := by
  intro fuel
  induction fuel with
  | zero => exact ⟨rfl, rfl⟩
  | succ fuel ih =>
    refine ⟨?_, ?_⟩
    · simp only [findWordLoop, ha, hna, if_false, hab]
      exact ih.2
    · simp only [findWordLoop, hb, hnb, if_false, hba]
      exact ih.1

/-- C20 fails on the code: a mark outlives `reset()`.  After five
`compileLiteral(0)` and `compileBegin()` (mark 56), `reset()`, then
`compileWord("a")` (entry at 16), `compileWord("b")` (entry at 60),
`compileEndif()` (which stores the frontier 104 in the four units from
56 + 4 = 60, the link field of "b") and `compileWord("c")` (entry at 104,
linked to 60), the entries at 104 and 60 link to each other: the link of the
entry at 60 is not below 60, and `findWord("a")` is still running after any
number of iterations. -/
theorem stale_mark_makes_chain_cyclic :
    ∃ c, runCalls layout44 4 (inRange layout44)
        [Call.tok (Tok.op (Op.compileLiteral 0)), Call.tok (Tok.op (Op.compileLiteral 0)),
          Call.tok (Tok.op (Op.compileLiteral 0)), Call.tok (Tok.op (Op.compileLiteral 0)),
          Call.tok (Tok.op (Op.compileLiteral 0)), Call.tok Tok.BEGIN, Call.reset,
          Call.tok (Tok.op (Op.compileWord1 "a".toList)),
          Call.tok (Tok.op (Op.compileWord1 "b".toList)), Call.tok Tok.ENDIF,
          Call.tok (Tok.op (Op.compileWord1 "c".toList))] (fresh layout44) = some c ∧
      getCell c.runtime c.lastWordPtrAddr = 104 ∧
      getCell c.runtime (104 + layout44.prevOff) = 60 ∧
      getCell c.runtime (60 + layout44.prevOff) = 104 ∧
      ∀ fuel, findWord layout44 fuel c "a".toList = none := by
  have key : (runCalls layout44 4 (inRange layout44)
      [Call.tok (Tok.op (Op.compileLiteral 0)), Call.tok (Tok.op (Op.compileLiteral 0)),
        Call.tok (Tok.op (Op.compileLiteral 0)), Call.tok (Tok.op (Op.compileLiteral 0)),
        Call.tok (Tok.op (Op.compileLiteral 0)), Call.tok Tok.BEGIN, Call.reset,
        Call.tok (Tok.op (Op.compileWord1 "a".toList)),
        Call.tok (Tok.op (Op.compileWord1 "b".toList)), Call.tok Tok.ENDIF,
        Call.tok (Tok.op (Op.compileWord1 "c".toList))] (fresh layout44)).map
      (fun c => (getCell c.runtime c.lastWordPtrAddr, getCell c.runtime (104 + layout44.prevOff),
        getCell c.runtime (60 + layout44.prevOff),
        toCString c.runtime (104 + layout44.nameOff),
        toCString c.runtime (60 + layout44.nameOff))) =
      some (104, 60, 104, "c".toList, "b".toList) := by
    decide
  cases hrun : runCalls layout44 4 (inRange layout44)
      [Call.tok (Tok.op (Op.compileLiteral 0)), Call.tok (Tok.op (Op.compileLiteral 0)),
        Call.tok (Tok.op (Op.compileLiteral 0)), Call.tok (Tok.op (Op.compileLiteral 0)),
        Call.tok (Tok.op (Op.compileLiteral 0)), Call.tok Tok.BEGIN, Call.reset,
        Call.tok (Tok.op (Op.compileWord1 "a".toList)),
        Call.tok (Tok.op (Op.compileWord1 "b".toList)), Call.tok Tok.ENDIF,
        Call.tok (Tok.op (Op.compileWord1 "c".toList))] (fresh layout44) with
  | none => rw [hrun] at key; cases key
  | some c =>
    rw [hrun] at key
    simp only [Option.map_some', Option.some.injEq, Prod.mk.injEq] at key
    obtain ⟨k1, k2, k3, k4, k5⟩ := key
    refine ⟨c, rfl, k1, k2, k3, ?_⟩
    intro fuel
    unfold findWord
    rw [k1]
    exact (findWordLoop_cycle layout44 c.runtime "a".toList 104 60 (by decide) (by decide)
      (by rw [k4]; decide) (by rw [k5]; decide) k2 k3 fuel).1

/-- C20 as amended: in a layout where the link field of an entry does not
overlap the four units at the offset of an instruction's operand (as when
`previous` is the first field and an opcode takes four units), in every state
reached from the constructor by any sequence of calls none of which took a sum
out of the range of `int`, and in which `reset()` was called only while no mark
was pending, the chain from the lastEntry value along the `previous` links
reaches zero after finitely many steps: its addresses `as` all lie at or
behind `2 * cellSize`, and each entry's `previous` is 0 or strictly below the
entry's own address.  So `findWord` returns for every name, and every call
returns. -/
theorem dictionary_chain_invariant (L : Layout) (hL : WF L)
    (hp : L.prevOff + 4 ≤ L.dataOff ∨ L.dataOff + 4 ≤ L.prevOff) (m0 : Memory)
    (ks : List Call) (fuel : Nat) (c : Compiler)
    (hreach : runCalls L fuel (tidy L) ks (construct L m0) = some c) :
    ∃ as, Links L c.runtime (getDictionaryPtr c) (getCell c.runtime c.lastWordPtrAddr) as ∧
      as.length ≤ ks.length ∧
      (∀ a ∈ as, 2 * L.cellSize ≤ a ∧
        (getCell c.runtime (a + L.prevOff) = 0 ∨ getCell c.runtime (a + L.prevOff) < a)) ∧
      (∀ name fuel2, as.length < fuel2 → ∃ w, findWord L fuel2 c name = some w) ∧
      ∀ t fuel2, as.length < fuel2 → ∃ x, tokRun L fuel2 t c = some x := by
  have hw := hL
  obtain ⟨w1, w2, w3, w4, w5, w6, w7, w8, w9, w10, w11, w12, w13⟩ := hw
  obtain ⟨as, hl, hlen⟩ := runCalls_linked L hL hp fuel ks _ c [] (construct_linked L hL m0) hreach
  simp only [List.length_nil, zero_add] at hlen
  refine ⟨as, ?_, hlen, ?_, ?_, ?_⟩
  · rw [placed_frontier L c hl.1.1, hl.1.1.2]
    exact hl.2.2.1
  · intro a ha
    exact ⟨(chain_units_bound L c.runtime (by omega) as _ _ hl.2.2.1 a ha).1,
      chain_units_prev L c.runtime (by omega) as _ _ hl.2.2.1 a ha⟩
  · intro name fuel2 hf
    exact linked_findWord_returns L hL c as hl fuel2 hf name
  · intro t fuel2 hf
    exact tokRun_returns L t c fuel2
      (fun n _ => linked_findWord_returns L hL c as hl fuel2 hf n)

theorem dictionary_chain_invariant_witness :
    ∃ as, Links layout44
        (compileEndif layout44 (compileWord1 layout44 (compileBegin (fresh layout44)).2
          "dup".toList).2).2.runtime
        (getDictionaryPtr (compileEndif layout44 (compileWord1 layout44
          (compileBegin (fresh layout44)).2 "dup".toList).2).2)
        (getCell (compileEndif layout44 (compileWord1 layout44 (compileBegin (fresh layout44)).2
          "dup".toList).2).2.runtime
          (compileEndif layout44 (compileWord1 layout44 (compileBegin (fresh layout44)).2
            "dup".toList).2).2.lastWordPtrAddr) as ∧
      as.length ≤ [Call.tok Tok.BEGIN, Call.tok (Tok.op (Op.compileWord1 "dup".toList)),
        Call.tok Tok.ENDIF].length := by
  obtain ⟨as, h1, h2, _⟩ := dictionary_chain_invariant layout44 (by decide) (by decide)
    (fun _ => 0)
    [Call.tok Tok.BEGIN, Call.tok (Tok.op (Op.compileWord1 "dup".toList)), Call.tok Tok.ENDIF] 4
    (compileEndif layout44 (compileWord1 layout44 (compileBegin (fresh layout44)).2
      "dup".toList).2).2 rfl
  exact ⟨as, h1, h2⟩

end Machine

end ItsyForth
